import Mathlib

/-! Processor-topology discovery (`processor_map.c`, `util.c`): a shallow embedding

The C function `procmap_init` is embedded phase by phase.  C `int` values are
Lean `Int`s; counters and array indices that the code keeps non-negative are
`Nat`s.  A C array is a `List`, read with `List.getD` (every read below is in
range, the default is never used) and written with `List.set`.  A `for` loop
without `break` is a `List.foldl` over `List.range`, or a `List.map` over
`List.range` when iteration `i` only writes element `i`; a loop with `break` is
a recursion on the number of iterations that remain.
-/

namespace ProcMap

/-! ## Data model (`processor_map.h`) -/

/-- Cache info, `cacheinfo_t`. -/
structure cacheinfo_t where
  coherency_line_size : Int
  level : Int
  number_of_sets : Int
  physical_line_partition : Int
  shared_cpu_map : Int
  size : Nat
  type : List Char
  ways_of_associativity : Int
deriving DecidableEq, Repr, Inhabited

/-- Hardware thread info, `threadinfo_t`. -/
structure threadinfo_t where
  cpu_id : Int
  thread_id : Int
  sym_core_id : Int
  core_id : Int
  sym_pack_id : Int
  pack_id : Int
  core_siblings : Int
  thread_siblings : Int
  num_caches : Int
  cache : List cacheinfo_t
deriving DecidableEq, Repr, Inhabited

/-- Core info, `coreinfo_t`.  A `threadinfo_t*` that points at
`flat_threads[l]` is the index `l`; `none` is a slot (or field) of the block
that no statement has assigned: `malloc` does not clear it and its content is
indeterminate. -/
structure coreinfo_t where
  sym_core_id : Option Int
  thread : List (Option Nat)
deriving DecidableEq, Repr, Inhabited

/-- Physical package info, `packinfo_t`. -/
structure packinfo_t where
  sym_pack_id : Option Int
  core : List coreinfo_t
deriving DecidableEq, Repr, Inhabited

/-! ## Identifier compaction (`procmap_init`, lines 361-459) -/

/-- The loop of lines 380-397 (packages) and 431-446 (cores) over the symbolic
ids `sym` of the flat array: `i` is the loop index, `sym_ids` the array being
filled and `num` the running count; the first argument counts the iterations
left before `i < num_cpus` fails.  The search of lines 386-391 over `j < i`,
which stops at the first hit, is `List.any`. -/
def find_sym_ids (sym : List Int) : Nat → Nat → List Int → Nat → List Int × Nat
  | 0, _, sym_ids, num => (sym_ids, num)
  | fuel + 1, i, sym_ids, num =>
    let curr_id := sym.getD i 0
    if curr_id = -1 then (sym_ids, num)
    else
      let found_so_far := (List.range i).any (fun j => sym.getD j 0 == curr_id)
      if found_so_far then find_sym_ids sym fuel (i + 1) sym_ids num
      else find_sym_ids sym fuel (i + 1) (sym_ids.set num curr_id) (num + 1)

/-- Lines 368-397: `sym_pack_ids` is allocated with `num_cpus` entries, all set
to `-1`, then filled; the result is the array and `num_packages`. -/
def scan_sym_ids (sym : List Int) : List Int × Nat :=
  find_sym_ids sym sym.length 0 (List.replicate sym.length (-1)) 0

/-- The inner loop of lines 404-409 (and 453-458) for one thread whose symbolic
id is `sym_id`: `j` is the loop index and `id` the current value of the compact
id field. -/
def compact_id_loop (sym_id : Int) (sym_ids : List Int) : Nat → Nat → Int → Int
  | 0, _, id => id
  | fuel + 1, j, id =>
    if sym_ids.getD j 0 = -1 then id
    else if sym_id = sym_ids.getD j 0 then compact_id_loop sym_id sym_ids fuel (j + 1) (j : Int)
    else compact_id_loop sym_id sym_ids fuel (j + 1) id

/-- Lines 401-410: every thread gets `pack_id = -1`, then the inner loop. -/
def populate_pack_ids (flat_threads : List threadinfo_t) (sym_pack_ids : List Int) :
    List threadinfo_t :=
  (List.range flat_threads.length).map fun i =>
    let t := flat_threads.getD i default
    { t with pack_id := compact_id_loop t.sym_pack_id sym_pack_ids flat_threads.length 0 (-1) }

/-- Lines 450-459: every thread gets `core_id = -1`, then the inner loop. -/
def populate_core_ids (flat_threads : List threadinfo_t) (sym_core_ids : List Int) :
    List threadinfo_t :=
  (List.range flat_threads.length).map fun i =>
    let t := flat_threads.getD i default
    { t with core_id := compact_id_loop t.sym_core_id sym_core_ids flat_threads.length 0 (-1) }

/-! ## Sibling masks (`procmap_init`, lines 461-493) -/

/-- Bit `k` of the C `int` `x` in two's complement, the sign bit repeated above
bit 31: `(x >> k) & 1` with an arithmetic right shift. -/
def int_bit (x : Int) (k : Nat) : Bool := decide ((x / 2 ^ k) % 2 = 1)

/-- The C condition `(1<<i) & x` of line 465.  For `i < 32` it tests bit `i`
of `x`.  For `i >= 32` the shift is undefined in C; an x86-64 `shl` takes the
count modulo 32, which is what is written here.  No statement below relies on
this case. -/
def one_shl_and (i : Nat) (x : Int) : Bool := int_bit x (i % 32)

/-- Lines 463-468: the set bits of the first cpu's `thread_siblings`. -/
def count_threads_per_core (flat_threads : List threadinfo_t) : Nat :=
  (List.range flat_threads.length).foldl
    (fun num_threads_per_core i =>
      if one_shl_and i (flat_threads.getD 0 default).thread_siblings
      then num_threads_per_core + 1 else num_threads_per_core) 0

/-- One iteration `j` of the loop of lines 482-491 for thread `i`; the state
is `(siblings, bits_set_so_far, thread_id)`.  `siblings & 1` is `siblings % 2`
and `siblings >>= 1` is the arithmetic shift `siblings / 2`. -/
def thread_id_step (i : Nat) (st : Int × Int × Int) (j : Nat) : Int × Int × Int :=
  if st.1 % 2 = 1 then
    (st.1 / 2, st.2.1 + 1, if j = i then st.2.1 else st.2.2)
  else
    (st.1 / 2, st.2.1, st.2.2)

/-- Lines 477-492 for thread `i`: `thread_id = -1`, then the scan of its mask
unless the mask is `-1`. -/
def compute_thread_id (num_cpus i : Nat) (thread_siblings : Int) : Int :=
  if thread_siblings ≠ -1 then
    ((List.range num_cpus).foldl (thread_id_step i) (thread_siblings, 0, -1)).2.2
  else -1

/-- Lines 476-493. -/
def populate_thread_ids (flat_threads : List threadinfo_t) : List threadinfo_t :=
  (List.range flat_threads.length).map fun i =>
    let t := flat_threads.getD i default
    { t with thread_id := compute_thread_id flat_threads.length i t.thread_siblings }

/-! ## Hierarchy assembly (`procmap_init`, lines 498-541) -/

/-- The condition of lines 530-532 for `flat_threads[l]`. -/
def thread_matches (flat_threads : List threadinfo_t) (i j k l : Nat) : Bool :=
  (flat_threads.getD l default).pack_id == (i : Int) &&
  (flat_threads.getD l default).core_id == (j : Int) &&
  (flat_threads.getD l default).thread_id == (k : Int)

/-- The loop over `l` of lines 529-538 as far as it writes `core[j].thread[k]`:
the slot starts unassigned and every match stores `&flat_threads[l]`. -/
def assemble_thread (flat_threads : List threadinfo_t) (i j k : Nat) : Option Nat :=
  (List.range flat_threads.length).foldl
    (fun slot l => if thread_matches flat_threads i j k l then some l else slot) none

/-- The loop over `l` of lines 529-538 as far as it writes a symbolic id field
(`core[j].sym_core_id` or `package[i].sym_pack_id`), `sel` being the field of
`flat_threads[l]` that is copied. -/
def assemble_sym_id (flat_threads : List threadinfo_t) (sel : threadinfo_t → Int)
    (i j k : Nat) (field : Option Int) : Option Int :=
  (List.range flat_threads.length).foldl
    (fun field l =>
      if thread_matches flat_threads i j k l then some (sel (flat_threads.getD l default))
      else field) field

/-- Lines 518-539: the thread array of `core[j]` of `package[i]`. -/
def assemble_core (flat_threads : List threadinfo_t) (num_threads_per_core i j : Nat) :
    coreinfo_t :=
  { thread := (List.range num_threads_per_core).map (assemble_thread flat_threads i j)
    sym_core_id := (List.range num_threads_per_core).foldl
      (fun field k => assemble_sym_id flat_threads (fun t => t.sym_core_id) i j k field) none }

/-- Lines 507-540: the core array of `package[i]`. -/
def assemble_package (flat_threads : List threadinfo_t)
    (num_cores_per_package num_threads_per_core i : Nat) : packinfo_t :=
  { core := (List.range num_cores_per_package).map
      (assemble_core flat_threads num_threads_per_core i)
    sym_pack_id := (List.range num_cores_per_package).foldl
      (fun field j => (List.range num_threads_per_core).foldl
        (fun field k => assemble_sym_id flat_threads (fun t => t.sym_pack_id) i j k field)
        field) none }

/-- Lines 498-541: the package array. -/
def assemble_packages (flat_threads : List threadinfo_t)
    (num_packages num_cores_per_package num_threads_per_core : Nat) : List packinfo_t :=
  (List.range num_packages).map
    (assemble_package flat_threads num_cores_per_package num_threads_per_core)

/-! ## The phases of `procmap_init` after the flat array is read

`num_cpus` is the length of the flat array (line 144). -/

/-- Value of `num_packages` (line 398). -/
def num_packages (flat_threads : List threadinfo_t) : Nat :=
  (scan_sym_ids (flat_threads.map fun t => t.sym_pack_id)).2

/-- The flat array after lines 401-410. -/
def with_pack_ids (flat_threads : List threadinfo_t) : List threadinfo_t :=
  populate_pack_ids flat_threads (scan_sym_ids (flat_threads.map fun t => t.sym_pack_id)).1

/-- Value of `num_cores_per_package` (line 447). -/
def num_cores_per_package (flat_threads : List threadinfo_t) : Nat :=
  (scan_sym_ids ((with_pack_ids flat_threads).map fun t => t.sym_core_id)).2

/-- The flat array after lines 450-459. -/
def with_core_ids (flat_threads : List threadinfo_t) : List threadinfo_t :=
  populate_core_ids (with_pack_ids flat_threads)
    (scan_sym_ids ((with_pack_ids flat_threads).map fun t => t.sym_core_id)).1

/-- Value of `num_threads_per_core` (line 468). -/
def num_threads_per_core (flat_threads : List threadinfo_t) : Nat :=
  count_threads_per_core (with_core_ids flat_threads)

/-- The flat array after lines 476-493: the array that `pi->flat_threads`
points to when `procmap_init` returns. -/
def annotate_threads (flat_threads : List threadinfo_t) : List threadinfo_t :=
  populate_thread_ids (with_core_ids flat_threads)

/-- The tree that `pi->package` points to when `procmap_init` returns. -/
def build_packages (flat_threads : List threadinfo_t) : List packinfo_t :=
  assemble_packages (annotate_threads flat_threads) (num_packages flat_threads)
    (num_cores_per_package flat_threads) (num_threads_per_core flat_threads)

/-! ## Text helpers (`util.c`, libc) -/

/-- The terminating byte of a C string. -/
def NUL : Char := Char.ofNat 0

/-- The C string held in a buffer: the bytes in front of the first NUL. -/
def c_string (buf : List Char) : List Char := buf.takeWhile (fun c => c != NUL)

/-- One test of the loop condition of `trim` (`util.c`, line 31) on the buffer
`src` and, when `src[i]` is not NUL, one pass through the body (lines 32-35):
the buffer and the indices after the pass, `none` when the loop ends.  `i`, the
read index, and `j`, the write index, are `unsigned int`: they wrap at 2^32. -/
def trim_step (tc : Char) (src : List Char) (i j : Nat) : Option (List Char × Nat × Nat) :=
  if src.getD i NUL != NUL then
    if src.getD i NUL != tc then
      some (src.set j (src.getD i NUL), (i + 1) % 2 ^ 32, (j + 1) % 2 ^ 32)
    else some (src, (i + 1) % 2 ^ 32, j)
  else none

/-- The loop of `trim` (`util.c`, lines 31-38) run for at most as many passes
as the first argument counts: the buffer after line 38 has written the
terminator, or `none` when the loop is still running after these passes. -/
def trim_loop (tc : Char) : Nat → List Char → Nat → Nat → Option (List Char)
  | 0, _, _, _ => none
  | fuel + 1, src, i, j =>
    match trim_step tc src i j with
    | none => some (src.set j NUL)
    | some (src', i', j') => trim_loop tc fuel src' i' j'

/-- The buffer after `trim(src, tc)` (`util.c`, lines 25-39).  The loop gets one
pass for every byte of the buffer and one more; it ends within these whenever
the buffer holds a NUL within its first 2^32 bytes, as every buffer of
`procmap_init` does (1025 bytes).  A call whose loop has not ended by then is
given the buffer unchanged. -/
def trim (src : List Char) (tc : Char) : List Char :=
  (trim_loop tc (src.length + 1) src 0 0).getD src

/-- The libc `isspace` in the C locale. -/
def isspace (c : Char) : Bool :=
  c == ' ' || c == '\t' || c == '\n' || c == Char.ofNat 11 || c == Char.ofNat 12 || c == '\r'

/-- Value of a digit of `strtol`. -/
def digit_value (c : Char) : Option Nat :=
  if '0' ≤ c ∧ c ≤ '9' then some (c.toNat - '0'.toNat)
  else if 'a' ≤ c ∧ c ≤ 'z' then some (c.toNat - 'a'.toNat + 10)
  else if 'A' ≤ c ∧ c ≤ 'Z' then some (c.toNat - 'A'.toNat + 10)
  else none

/-- The digits of `strtol`: the longest run of digits below `base`. -/
def parse_digits (base : Nat) : List Char → Nat → Nat
  | [], acc => acc
  | c :: cs, acc =>
    match digit_value c with
    | some d => if d < base then parse_digits base cs (acc * base + d) else acc
    | none => acc

/-- The libc call `strtol(s, NULL, base)` for `base` 10 or 16 and a 64-bit `long`:
leading white space, an optional sign, for base 16 an optional `0x`, the
digits; the result saturates at `LONG_MIN` and `LONG_MAX`. -/
def strtol (s : List Char) (base : Nat) : Int :=
  let s1 := s.dropWhile isspace
  let neg := s1.head? == some '-'
  let s2 := if s1.head? == some '-' || s1.head? == some '+' then s1.tail else s1
  let s3 :=
    match s2 with
    | '0' :: x :: rest => if base = 16 ∧ (x = 'x' ∨ x = 'X') then rest else s2
    | _ => s2
  let n : Int := parse_digits base s3 0
  if neg then max (-n) (-(2 ^ 63)) else min n (2 ^ 63 - 1)

/-- Conversion of a `long` to `int`: the low 32 bits, two's complement. -/
def to_int (x : Int) : Int := (x + 2 ^ 31) % 2 ^ 32 - 2 ^ 31

/-- Conversion of a `long` to `unsigned long`: the low 64 bits. -/
def to_ulong (x : Int) : Nat := (x % 2 ^ 64).toNat

/-- First occurrence of `needle` in `hay` (`strstr`): the rest of `hay` from
there on, `none` for a NULL result. -/
def strstr (hay needle : List Char) : Option (List Char) :=
  match hay with
  | [] => if needle = [] then some [] else none
  | c :: cs => if (c :: cs).take needle.length = needle then some (c :: cs) else strstr cs needle

/-! ## The sysfs tree read by `procmap_init`

A file is addressed by the numbers that the code prints into its path
(`cpu%d`, `/index%d/`, `node%d`) and by its name.  Its value is `none` when
`open` fails, else the bytes of the file.  The single `read(fd, buf, 1024)` is
taken to succeed and to return the first 1024 bytes of the file, or all of them
when there are fewer.  With 1024 bytes, `buf[br] = 0` writes the byte behind
`char buf[1024]`; in the frame that gcc lays out for the declarations of lines
77-82 (`cpu_path[128]` declared in front of `buf[1024]`) that byte is
`cpu_path[0]`, and this is how the cpu loop is embedded below. -/

/-- Files of `cpu/cpuN/topology/`. -/
inductive topology_file
  | core_id | physical_package_id | core_siblings | thread_siblings
deriving DecidableEq, Repr

/-- Files of `cpu/cpuN/cache/indexK/`. -/
inductive cache_file
  | coherency_line_size | level | number_of_sets | physical_line_partition
  | shared_cpu_map | size | type | ways_of_associativity
deriving DecidableEq, Repr

/-- Files of `node/nodeN/`. -/
inductive node_file
  | cpumap | meminfo
deriving DecidableEq, Repr

/-- What `procmap_init` can observe of `/sys/devices/system/`. -/
structure sysfs where
  /-- Whether `open` of `cpu/` succeeds. -/
  cpu_dir : Bool
  /-- Lines of `ls -l cpu/` that match `cpu[0-9]*[0-9]`. -/
  cpu_entries : Nat
  /-- Whether `open` of `cpu/cpu0/cache/` succeeds. -/
  cache_dir : Bool
  /-- Lines of `ls -l cpu/cpu0/cache/` that match `index`. -/
  cache_entries : Nat
  /-- Whether `open` of `node/` succeeds. -/
  node_dir : Bool
  /-- Lines of `ls -l node/` that match `node`. -/
  node_entries : Nat
  topology : Nat → topology_file → Option (List Char)
  cache : Nat → Nat → cache_file → Option (List Char)
  node : Nat → node_file → Option (List Char)

/-- The function `_get_num_cpus` (lines 26-35): the shell exits with the count and
`WEXITSTATUS` keeps its low 8 bits. -/
def _get_num_cpus (fs : sysfs) : Nat := if fs.cpu_dir then fs.cpu_entries % 256 else 0

/-- The function `_get_num_caches` (lines 41-50). -/
def _get_num_caches (fs : sysfs) : Nat := if fs.cache_dir then fs.cache_entries % 256 else 0

/-- The function `_get_num_memnodes` (lines 56-65). -/
def _get_num_memnodes (fs : sysfs) : Nat := if fs.node_dir then fs.node_entries % 256 else 0

/-- The bytes from `buf[0]` to `buf[br]` after `br = read(fd, buf, 1024);
buf[br] = 0;`: what `trim` and `strtol` read next.  For `br = 1024` the last of
them is the byte behind `buf`. -/
def read_buf (data : List Char) : List Char := data.take 1024 ++ [NUL]

/-- Whether the `read` of an opened file returns 1024 bytes, so that
`buf[br] = 0` overwrites `cpu_path[0]`. -/
def fills_buf (file : Option (List Char)) : Bool :=
  match file with
  | none => false
  | some data => decide (1024 ≤ data.length)

/-- The file that an `open` of the cpu loop gets.  Its path is `cpu_path`
followed by the name of the file (lines 164-165); `intact` tells whether
`cpu_path` still holds the directory of the cpu.  Once `cpu_path[0]` is 0 the
path is the bare name, such as `/topology/thread_siblings`, which is taken not
to exist: the `open` fails. -/
def open_cpu_file (intact : Bool) (file : Option (List Char)) : Option (List Char) :=
  if intact then file else none

/-- The pattern of lines 166-174: `-1` when the file cannot be opened, else the
buffer is trimmed of the characters `tcs`, one call of `trim` each in this
order, parsed by `strtol` in `base` and stored in an `int`. -/
def read_int (file : Option (List Char)) (tcs : List Char) (base : Nat) : Int :=
  match file with
  | none => -1
  | some data => to_int (strtol (c_string (tcs.foldl trim (read_buf data))) base)

/-- Lines 228-355 for cache `j` of cpu `i`: the descriptor, and whether
`cpu_path` is intact afterwards.  The files are opened in the order of the
source, each with the `cpu_path` that the reads in front of it have left.
`type` is the string that `strcpy` copies; it fits `char type[32]` when it has
fewer than 32 characters, and what the descriptor holds after a longer one is
not described here. -/
def read_cache (fs : sysfs) (i j : Nat) (intact : Bool) : cacheinfo_t × Bool :=
  let f1 := open_cpu_file intact (fs.cache i j .coherency_line_size)
  let s1 := intact && !fills_buf f1
  let f2 := open_cpu_file s1 (fs.cache i j .level)
  let s2 := s1 && !fills_buf f2
  let f3 := open_cpu_file s2 (fs.cache i j .number_of_sets)
  let s3 := s2 && !fills_buf f3
  let f4 := open_cpu_file s3 (fs.cache i j .physical_line_partition)
  let s4 := s3 && !fills_buf f4
  let f5 := open_cpu_file s4 (fs.cache i j .shared_cpu_map)
  let s5 := s4 && !fills_buf f5
  let f6 := open_cpu_file s5 (fs.cache i j .size)
  let s6 := s5 && !fills_buf f6
  let f7 := open_cpu_file s6 (fs.cache i j .type)
  let s7 := s6 && !fills_buf f7
  let f8 := open_cpu_file s7 (fs.cache i j .ways_of_associativity)
  ({ coherency_line_size := read_int f1 ['\n'] 10
     level := read_int f2 ['\n'] 10
     number_of_sets := read_int f3 ['\n'] 10
     physical_line_partition := read_int f4 ['\n'] 10
     shared_cpu_map := read_int f5 ['\n', ',', ','] 16
     size :=
       match f6 with
       | none => to_ulong (-1)
       | some data =>
         to_ulong (strtol (c_string (trim (trim (read_buf data) '\n') 'K')) 10 * 1024)
     type :=
       match f7 with
       | none => ['-', '1']
       | some data => c_string (trim (read_buf data) '\n')
     ways_of_associativity := read_int f8 ['\n'] 10 },
   s7 && !fills_buf f8)

/-- The loop of lines 228-355 over the caches from `j` on, the first argument
counting the caches left; `intact` is the state of `cpu_path` in front of cache
`j`. -/
def read_caches (fs : sysfs) (i : Nat) : Nat → Nat → Bool → List cacheinfo_t
  | 0, _, _ => []
  | n + 1, j, intact =>
    (read_cache fs i j intact).1 :: read_caches fs i n (j + 1) (read_cache fs i j intact).2

/-- Lines 154-357 for cpu `i`.  Line 157 sets `cpu_path` anew for every cpu.
`thread_id`, `core_id` and `pack_id` are not assigned here: they hold what
`malloc` left, written `0`; lines 402, 451 and 477 assign them before any
read. -/
def read_thread (fs : sysfs) (num_caches i : Nat) : threadinfo_t :=
  let f1 := fs.topology i .core_id
  let s1 := !fills_buf f1
  let f2 := open_cpu_file s1 (fs.topology i .physical_package_id)
  let s2 := s1 && !fills_buf f2
  let f3 := open_cpu_file s2 (fs.topology i .core_siblings)
  let s3 := s2 && !fills_buf f3
  let f4 := open_cpu_file s3 (fs.topology i .thread_siblings)
  let s4 := s3 && !fills_buf f4
  { cpu_id := (i : Int)
    thread_id := 0
    sym_core_id := read_int f1 ['\n'] 10
    core_id := 0
    sym_pack_id := read_int f2 ['\n'] 10
    pack_id := 0
    core_siblings := read_int f3 [',', '\n'] 16
    thread_siblings := read_int f4 [',', '\n'] 16
    num_caches := (num_caches : Int)
    cache := read_caches fs i num_caches 0 s4 }

/-- Lines 144-359: the flat array. -/
def read_flat_threads (fs : sysfs) (num_cpus num_caches : Nat) : List threadinfo_t :=
  (List.range num_cpus).map (read_thread fs num_caches)

/-- Memory node info, `memnodeinfo_t`. -/
structure memnodeinfo_t where
  cpumap : Int
  size : Nat
deriving DecidableEq, Repr, Inhabited

/-- Lines 583-587: `strstr(buf, "MemTotal:")`, the pointer is moved behind the
first `:` and the number there is scaled by 1024.  `none` is the dereference of
the NULL that `strstr` returns when the label is absent. -/
def read_meminfo (data : List Char) : Option Nat :=
  match strstr (c_string (read_buf data)) "MemTotal:".toList with
  | none => none
  | some ptr =>
    some (to_ulong (strtol ((ptr.dropWhile (fun c => c != ':')).tail) 10 * 1024))

/-- Lines 556-588 for node `i`. -/
def read_memnode (fs : sysfs) (i : Nat) : Option memnodeinfo_t :=
  match fs.node i .meminfo with
  | none => some { cpumap := read_int (fs.node i .cpumap) [',', '\n'] 16, size := to_ulong (-1) }
  | some data =>
    match read_meminfo data with
    | none => none
    | some size => some { cpumap := read_int (fs.node i .cpumap) [',', '\n'] 16, size := size }

/-- Lines 555-589: the loop over the nodes from `i` on, the first argument
counting the nodes left. -/
def read_memnodes (fs : sysfs) : Nat → Nat → Option (List memnodeinfo_t)
  | 0, _ => some []
  | fuel + 1, i =>
    match read_memnode fs i with
    | none => none
    | some m =>
      match read_memnodes fs fuel (i + 1) with
      | none => none
      | some ms => some (m :: ms)

/-- Processor hierarchy info, `procmap_t`.  A pointer field is the array it
points to; the code stores NULL exactly when the count is 0 (lines 150, 504,
553), which is the empty list. -/
structure procmap_t where
  num_cpus : Nat
  num_packages : Nat
  num_memnodes : Nat
  num_cores_per_package : Nat
  num_threads_per_core : Nat
  num_caches_per_thread : Nat
  flat_threads : List threadinfo_t
  package : List packinfo_t
  memnode : List memnodeinfo_t
deriving DecidableEq, Repr

/-- How `procmap_init` ends when it does not return. -/
inductive init_failure
  /-- The `exit(EXIT_FAILURE)` of line 103. -/
  | exit_failure
  /-- Dereference of a NULL pointer at line 586. -/
  | null_dereference
deriving DecidableEq, Repr

/-- The function `procmap_init` (lines 72-595).  Every `malloc` is taken to return a block,
also for a size of 0. -/
def procmap_init (fs : sysfs) : Except init_failure procmap_t :=
  if fs.cpu_dir = false then Except.error init_failure.exit_failure
  else
    match read_memnodes fs (_get_num_memnodes fs) 0 with
    | none => Except.error init_failure.null_dereference
    | some memnode =>
      Except.ok
        { num_cpus := _get_num_cpus fs
          num_packages :=
            num_packages (read_flat_threads fs (_get_num_cpus fs) (_get_num_caches fs))
          num_memnodes := _get_num_memnodes fs
          num_cores_per_package :=
            num_cores_per_package (read_flat_threads fs (_get_num_cpus fs) (_get_num_caches fs))
          num_threads_per_core :=
            num_threads_per_core (read_flat_threads fs (_get_num_cpus fs) (_get_num_caches fs))
          num_caches_per_thread := _get_num_caches fs
          flat_threads :=
            annotate_threads (read_flat_threads fs (_get_num_cpus fs) (_get_num_caches fs))
          package :=
            build_packages (read_flat_threads fs (_get_num_cpus fs) (_get_num_caches fs))
          memnode := memnode }

/-- A machine with two cpus in one core, one memory node and no cache
directory. -/
def sysfs_two_cpus : sysfs :=
  { cpu_dir := true
    cpu_entries := 2
    cache_dir := false
    cache_entries := 0
    node_dir := true
    node_entries := 1
    topology := fun _ f =>
      match f with
      | .core_id => some "0\n".toList
      | .physical_package_id => some "0\n".toList
      | .core_siblings => some "00000000,00000003\n".toList
      | .thread_siblings => some "00000000,00000003\n".toList
    cache := fun _ _ _ => none
    node := fun _ f =>
      match f with
      | .cpumap => some "00000000,00000003\n".toList
      | .meminfo => some "Node 0 MemTotal:       2048 kB\n".toList }

/-- A record of the flat array as the reader leaves it, given by the three
fields the later phases read; `cpu_id` is filled in by position. -/
def raw_thread (cpu_id sym_pack_id sym_core_id thread_siblings : Int) : threadinfo_t :=
  { (default : threadinfo_t) with
    cpu_id := cpu_id
    sym_pack_id := sym_pack_id
    sym_core_id := sym_core_id
    thread_siblings := thread_siblings }

/-- Four cpus, one core each; the package id of cpu 1 could not be read. -/
def threads_with_sentinel : List threadinfo_t :=
  [raw_thread 0 5 0 1, raw_thread 1 (-1) 1 2, raw_thread 2 7 2 4, raw_thread 3 9 3 8]

/-- Eight cpus in two packages (symbolic ids 5 and 9) of two cores of two threads. -/
def threads_2x2x2 : List threadinfo_t :=
  [raw_thread 0 5 0 0x03, raw_thread 1 5 0 0x03, raw_thread 2 5 4 0x0c, raw_thread 3 5 4 0x0c,
   raw_thread 4 9 0 0x30, raw_thread 5 9 0 0x30, raw_thread 6 9 4 0xc0, raw_thread 7 9 4 0xc0]

/-- The value of `package[i].core[j].thread[k]`: `some l` when the slot holds
`&flat_threads[l]`, `none` when no statement assigned it (or the triple is
outside the allocated arrays). -/
def thread_slot (package : List packinfo_t) (i j k : Nat) : Option Nat :=
  match package[i]? with
  | none => none
  | some p =>
    match p.core[j]? with
    | none => none
    | some c =>
      match c.thread[k]? with
      | none => none
      | some slot => slot

/-! ## Further example inputs -/

/-- A C string of 2^32 characters `a`, with its terminator. -/
def four_gib_string : List Char := List.replicate (2 ^ 32) 'a' ++ [NUL]

/-- A machine of which sysfs shows the cpu directory with four cpus and nothing
else: no topology file can be opened, and there is neither a cache nor a node
directory. -/
def sysfs_cpu_only : sysfs :=
  { cpu_dir := true
    cpu_entries := 4
    cache_dir := false
    cache_entries := 0
    node_dir := false
    node_entries := 0
    topology := fun _ _ => none
    cache := fun _ _ _ => none
    node := fun _ _ => none }

/-- The tree `fs` with the topology file `f` of cpu `j` made unreadable. -/
def hide_topology (fs : sysfs) (j : Nat) (f : topology_file) : sysfs :=
  { fs with topology := fun i g => if i = j ∧ g = f then none else fs.topology i g }

/-- The tree `fs` with the file `f` of cache `k` of cpu `j` made unreadable. -/
def hide_cache (fs : sysfs) (j k : Nat) (f : cache_file) : sysfs :=
  { fs with cache := fun i l g => if i = j ∧ l = k ∧ g = f then none else fs.cache i l g }

/-- A machine with four cpus in two packages of two cores with one thread
each, the cores numbered 0, 1 in package 0 and 2, 3 in package 1; one memory
node and no cache directory. -/
def sysfs_disjoint_cores : sysfs :=
  { cpu_dir := true
    cpu_entries := 4
    cache_dir := false
    cache_entries := 0
    node_dir := true
    node_entries := 1
    topology := fun i f =>
      match f with
      | .core_id => (["0\n", "1\n", "2\n", "3\n"][i]?).map String.toList
      | .physical_package_id => (["0\n", "0\n", "1\n", "1\n"][i]?).map String.toList
      | .core_siblings => (["3\n", "3\n", "c\n", "c\n"][i]?).map String.toList
      | .thread_siblings => (["1\n", "2\n", "4\n", "8\n"][i]?).map String.toList
    cache := fun _ _ _ => none
    node := fun _ f =>
      match f with
      | .cpumap => some "f\n".toList
      | .meminfo => some "Node 0 MemTotal:       4096 kB\n".toList }

/-- A machine with two cpus, no cache directory and one memory node whose
`meminfo` file does not hold the label `MemTotal:`. -/
def sysfs_no_label : sysfs :=
  { sysfs_cpu_only with
    cpu_entries := 2
    node_dir := true
    node_entries := 1
    node := fun _ f =>
      match f with
      | .cpumap => some "3\n".toList
      | .meminfo => some "Node 0 MemFree:        2048 kB\n".toList }

/-- A tree in which the cpu directory cannot be opened. -/
def sysfs_no_cpu_dir : sysfs := { sysfs_cpu_only with cpu_dir := false, cpu_entries := 0 }

/-! ## The report (`procmap_report`, lines 601-742)

The text that `procmap_report` prints is kept as the values that its `fprintf`
calls receive, grouped by the loop that prints them. -/

/-- Value of the C expression `1<<i` for an `int` `i`, as gcc on x86-64
computes it: `2^i` for `0 <= i < 31` and `INT_MIN` for `i = 31`.  For every
other `i` the shift is undefined in C; an x86-64 `shl` takes the count modulo
32, which is what is written here. -/
def one_shl (i : Int) : Int := to_int (2 ^ (i % 32).toNat)

/-- The loop of lines 640-644 (also 691-695 and 717-721): the state is the
map, shifted right by one place in every pass (`map >>= 1`, arithmetic), and
the cpu ids `m` printed so far, one for every pass with `map & 1`. -/
def print_set_bits (num_cpus : Nat) (map : Int) : List Nat :=
  ((List.range num_cpus).foldl
    (fun (st : Int × List Nat) m => (st.1 / 2, if st.1 % 2 = 1 then st.2 ++ [m] else st.2))
    (map, [])).2

/-- What the report prints for one cache: `L<level><type>_pr` (flat view),
`L<level> <type> (priv)` (hierarchical view), or the shared form with the list
of cpu ids between the brackets. -/
inductive cache_report
  | priv (level : Int) (type : List Char)
  | shared (level : Int) (type : List Char) (sharers : List Nat)
deriving DecidableEq, Repr

/-- Whether the cache is reported as private. -/
def cache_report.is_private : cache_report → Bool
  | cache_report.priv _ _ => true
  | cache_report.shared _ _ _ => false

/-- The sharers printed for a cache reported as shared. -/
def cache_report.sharers : cache_report → List Nat
  | cache_report.priv _ _ => []
  | cache_report.shared _ _ s => s

/-- Lines 633-646 (flat view) and 682-697 (hierarchical view) for one cache of
the thread whose cpu id is `myid`; `type` is what the view prints of
`cache->type`. -/
def report_cache (num_cpus : Nat) (myid : Int) (cache : cacheinfo_t) (type : List Char) :
    cache_report :=
  if one_shl myid = cache.shared_cpu_map then cache_report.priv cache.level type
  else cache_report.shared cache.level type (print_set_bits num_cpus cache.shared_cpu_map)

/-- How `procmap_report` ends when it does not return. -/
inductive report_failure
  /-- An `assert` of the given line fails: `abort`. -/
  | assertion (line : Nat)
  /-- The given line reads through a pointer that is NULL, was never assigned
  or points behind its array. -/
  | invalid_pointer (line : Nat)
deriving DecidableEq, Repr

/-- A `for` loop whose body can end the function: the results of the passes
`i, i + 1, ..`, as many as the first argument counts, up to the first
failure. -/
def for_each {α : Type} (body : Nat → Except report_failure α) :
    Nat → Nat → Except report_failure (List α)
  | 0, _ => Except.ok []
  | fuel + 1, i =>
    match body i with
    | Except.error e => Except.error e
    | Except.ok a =>
      match for_each body fuel (i + 1) with
      | Except.error e => Except.error e
      | Except.ok rest => Except.ok (a :: rest)

/-- The loop over the caches of a thread `t` (lines 628-647, 672-698):
`&t.cache[l]` is NULL, and `assert(cache)` fails, exactly when `t.cache` is NULL
and `l = 0`; the flat view prints the first character of the type and the
hierarchical view the whole string. -/
def report_caches (num_cpus : Nat) (t : threadinfo_t) (flat : Bool) :
    Except report_failure (List cache_report) :=
  for_each
    (fun l =>
      if t.cache = [] ∧ l = 0 then Except.error (report_failure.assertion (if flat then 632 else 680))
      else if l < t.cache.length then
        Except.ok (report_cache num_cpus t.cpu_id (t.cache.getD l default)
          (if flat then [(t.cache.getD l default).type.headD NUL]
           else (t.cache.getD l default).type))
      else Except.error (report_failure.invalid_pointer (if flat then 633 else 682)))
    t.num_caches.toNat 0

/-- One line of the flat view. -/
structure flat_line where
  myid : Int
  sym_pack_id : Int
  sym_core_id : Int
  caches : List cache_report
deriving DecidableEq, Repr

/-- Lines 620-650: the flat view. -/
def report_flat_view (pi : procmap_t) : Except report_failure (List flat_line) :=
  for_each
    (fun i =>
      match report_caches pi.num_cpus (pi.flat_threads.getD i default) true with
      | Except.error e => Except.error e
      | Except.ok caches =>
        Except.ok
          { myid := (pi.flat_threads.getD i default).cpu_id
            sym_pack_id := (pi.flat_threads.getD i default).sym_pack_id
            sym_core_id := (pi.flat_threads.getD i default).sym_core_id
            caches := caches })
    pi.num_cpus 0

/-- One thread of the hierarchical view. -/
structure thread_line where
  k : Nat
  cpu_id : Int
  caches : List cache_report
deriving DecidableEq, Repr

/-- Lines 664-700 for thread `k` of core `j` of package `i`: line 666 reads
`cpu_id` through the slot `package[i].core[j].thread[k]`, line 668 asserts
`pi->package->core->thread`. -/
def report_thread (pi : procmap_t) (i j k : Nat) : Except report_failure thread_line :=
  match thread_slot pi.package i j k with
  | none => Except.error (report_failure.invalid_pointer 666)
  | some l =>
    if ((pi.package.getD 0 default).core.getD 0 default).thread = [] then
      Except.error (report_failure.assertion 668)
    else
      match report_caches pi.num_cpus (pi.flat_threads.getD l default) false with
      | Except.error e => Except.error e
      | Except.ok caches =>
        Except.ok { k := k, cpu_id := (pi.flat_threads.getD l default).cpu_id, caches := caches }

/-- Lines 654-705: the hierarchical view; line 657 asserts `pi->package` and
line 662 `pi->package->core`. -/
def report_hierarchy (pi : procmap_t) : Except report_failure (List (List (List thread_line))) :=
  for_each
    (fun i =>
      if pi.package = [] then Except.error (report_failure.assertion 657)
      else
        for_each
          (fun j =>
            if (pi.package.getD 0 default).core = [] then
              Except.error (report_failure.assertion 662)
            else for_each (fun k => report_thread pi i j k) pi.num_threads_per_core 0)
          pi.num_cores_per_package 0)
    pi.num_packages 0

/-- One line of the memory section: the node, its size and the cpus of its
`cpumap`. -/
structure memnode_line where
  node : Nat
  size : Nat
  cpus : List Nat
deriving DecidableEq, Repr

/-- Lines 713-723: the memory section, one line for every node. -/
def report_memory (pi : procmap_t) : List memnode_line :=
  (List.range pi.num_memnodes).map fun i =>
    { node := i
      size := (pi.memnode.getD i default).size
      cpus := print_set_bits pi.num_cpus (pi.memnode.getD i default).cpumap }

/-- Lines 726-740: the caches of `package[0].core[0].thread[0]`, as many as
`_get_num_caches()` counts now. -/
def report_cache_summary (fs : sysfs) (pi : procmap_t) :
    Except report_failure (List cacheinfo_t) :=
  match thread_slot pi.package 0 0 0 with
  | none => Except.error (report_failure.invalid_pointer 726)
  | some l =>
    for_each
      (fun i =>
        if i < (pi.flat_threads.getD l default).cache.length then
          Except.ok ((pi.flat_threads.getD l default).cache.getD i default)
        else Except.error (report_failure.invalid_pointer 729))
      (_get_num_caches fs) 0

/-- What `procmap_report` prints. -/
structure report where
  cpus : Nat
  packages : Nat
  cores_per_package : Nat
  threads_per_core : Nat
  flat : List flat_line
  hierarchy : List (List (List thread_line))
  memory : List memnode_line
  caches : List cacheinfo_t
deriving DecidableEq, Repr

/-- The function `procmap_report` (lines 601-742), compiled with its `assert`s;
`fs` is the sysfs tree at the time of the call (line 727 counts the caches
again).  Line 708 asserts `pi->memnode`. -/
def procmap_report (fs : sysfs) (pi : procmap_t) : Except report_failure report :=
  match report_flat_view pi with
  | Except.error e => Except.error e
  | Except.ok flat =>
    match report_hierarchy pi with
    | Except.error e => Except.error e
    | Except.ok hierarchy =>
      if pi.memnode = [] then Except.error (report_failure.assertion 708)
      else
        match report_cache_summary fs pi with
        | Except.error e => Except.error e
        | Except.ok caches =>
          Except.ok
            { cpus := pi.num_packages * pi.num_cores_per_package * pi.num_threads_per_core
              packages := pi.num_packages
              cores_per_package := pi.num_cores_per_package
              threads_per_core := pi.num_threads_per_core
              flat := flat
              hierarchy := hierarchy
              memory := report_memory pi
              caches := caches }

/-- A machine with two cpus in one core whose sysfs has neither a cache nor a
node directory. -/
def sysfs_no_node : sysfs :=
  { cpu_dir := true
    cpu_entries := 2
    cache_dir := false
    cache_entries := 0
    node_dir := false
    node_entries := 0
    topology := fun _ f =>
      match f with
      | .core_id => some "0\n".toList
      | .physical_package_id => some "0\n".toList
      | .core_siblings => some "00000000,00000003\n".toList
      | .thread_siblings => some "00000000,00000003\n".toList
    cache := fun _ _ _ => none
    node := fun _ _ => none }

/-! ## Bit arrays (`bitops.c`)

The memory that a bit array occupies is the list of its bytes, and an address
is an index into it.  The x86 instructions `bt`, `bts` and `btc` with a memory
operand address the bit `offset` places above bit 0 of the byte at `byte_addr`;
`setc` stores the carry flag, the old value of that bit. -/

/-- The function `bit_test_ll` (lines 131-139): `bt`, `setc`. -/
def bit_test_ll (mem : List Nat) (byte_addr offset : Nat) : Int :=
  if (mem.getD (byte_addr + offset / 8) 0).testBit (offset % 8) then 1 else 0

/-- The function `bit_test_and_set_ll` (lines 115-123): `bts`, `setc`; the
memory after the call and the value returned. -/
def bit_test_and_set_ll (mem : List Nat) (byte_addr offset : Nat) : List Nat × Int :=
  (mem.set (byte_addr + offset / 8) (mem.getD (byte_addr + offset / 8) 0 ||| 2 ^ (offset % 8)),
   if (mem.getD (byte_addr + offset / 8) 0).testBit (offset % 8) then 1 else 0)

/-- The function `bit_test_and_change_ll` (lines 99-107): `btc`, `setc`; the
memory after the call and the value returned. -/
def bit_test_and_change_ll (mem : List Nat) (byte_addr offset : Nat) : List Nat × Int :=
  (mem.set (byte_addr + offset / 8) (mem.getD (byte_addr + offset / 8) 0 ^^^ 2 ^ (offset % 8)),
   if (mem.getD (byte_addr + offset / 8) 0).testBit (offset % 8) then 1 else 0)

/-- The function `bit_test` (lines 147-152). -/
def bit_test (base : List Nat) (bit : Nat) : Int := bit_test_ll base (bit >>> 3) (bit &&& 7)

/-- The function `bit_test_and_set` (lines 160-165). -/
def bit_test_and_set (base : List Nat) (bit : Nat) : List Nat × Int :=
  bit_test_and_set_ll base (bit >>> 3) (bit &&& 7)

/-- The function `bit_test_and_change` (lines 173-178). -/
def bit_test_and_change (base : List Nat) (bit : Nat) : List Nat × Int :=
  bit_test_and_change_ll base (bit >>> 3) (bit &&& 7)

/-! ## Aligned allocation (`util.c`, lines 48-61) -/

/-- The function `malloc_aligned`: `malloc` maps a request to the address that
the inner `malloc` returns for it, 0 for NULL; `size_t` and `unsigned long` have
64 bits, so sums and differences are taken modulo 2^64 and `~x` is
`2^64 - 1 - x`.  The result is `none` for `exit(EXIT_FAILURE)`. -/
def malloc_aligned (malloc : Nat → Nat) (size alignment : Nat) : Option Nat :=
  if malloc ((size + alignment + (2 ^ 64 - 1)) % 2 ^ 64) = 0 then none
  else
    some (((malloc ((size + alignment + (2 ^ 64 - 1)) % 2 ^ 64) + alignment + (2 ^ 64 - 1)) % 2 ^ 64)
      &&& (2 ^ 64 - 1 - (alignment + (2 ^ 64 - 1)) % 2 ^ 64))

/-! ## Line input (`util.c`, lines 74-151) -/

/-- The state that `buffered_read` keeps between calls and the file behind the
descriptor: `pending` holds the `read_cnt` bytes of `read_buf` from `read_ptr`
on, `file` the bytes behind the file offset. -/
structure read_state where
  pending : List Char
  file : List Char
deriving DecidableEq, Repr

/-- The function `buffered_read` (lines 82-112) when `read` does not fail:
`some c` for the return value 1 with `*ptr = c`, `none` for the return value 0.
A `read` of a file hands over the next 8192 bytes, or all that is left. -/
def buffered_read (st : read_state) : Option Char × read_state :=
  match st.pending with
  | c :: rest => (some c, { st with pending := rest })
  | [] =>
    match st.file.take 8192 with
    | [] => (none, st)
    | c :: rest => (some c, { pending := rest, file := st.file.drop 8192 })

/-- What a call of `readline` leaves: the value it returns, the bytes it stored
through `ptr` (the target buffer from `vptr` up to `ptr`) and the state of the
reader. -/
structure readline_result where
  ret : Int
  stored : List Char
  st : read_state
deriving DecidableEq, Repr

/-- The loop of `readline` (lines 121-137) from the pass with counter `n` on,
`stored` being the bytes stored so far; the first argument bounds the number of
passes.  The result is `Sum.inl` for the `return 0` of line 130 and `Sum.inr`
with the counter when the loop is left. -/
def readline_loop (maxlen : Nat) :
    Nat → Nat → List Char → read_state → readline_result ⊕ (Nat × List Char × read_state)
  | 0, n, stored, st => Sum.inr (n, stored, st)
  | fuel + 1, n, stored, st =>
    if n < maxlen then
      match buffered_read st with
      | (some c, st1) =>
        if c = '\n' then Sum.inr (n, stored ++ [c], st1)
        else readline_loop maxlen fuel (n + 1) (stored ++ [c]) st1
      | (none, st1) =>
        if n = 1 then Sum.inl { ret := 0, stored := stored, st := st1 }
        else Sum.inr (n, stored, st1)
    else Sum.inr (n, stored, st)

/-- The function `readline` (lines 115-151) when `read` does not fail, for
`maxlen > 1` (with `maxlen <= 1` line 139 reads in front of the buffer).  The
counter starts at 1 and grows by one per pass, so `maxlen` passes are enough. -/
def readline (st : read_state) (maxlen : Nat) : readline_result :=
  match readline_loop maxlen maxlen 1 [] st with
  | Sum.inl r => r
  | Sum.inr (n, stored, st1) =>
    { ret := (n : Int)
      stored := if stored.getLast? = some '\n' then stored.dropLast ++ [NUL] else stored
      st := st1 }

/-! ## Affinity masks (`util.c`, lines 285-294) -/

/-- The function `get_mask_from_cpuset`: `s` is the cpu set, `CPU_ISSET(i, s)`
the membership of `i`.  The operand `1<<i` is an `int` (`one_shl`) and is
converted to `unsigned long` for the `|`. -/
def get_mask_from_cpuset (s : Finset Nat) : Nat :=
  (List.range 64).foldl
    (fun mask i => if i ∈ s then mask ||| to_ulong (one_shl (i : Int)) else mask) 0

/-! ## The shift register (`util.c`, lines 154-167) -/

/-- The function `galois_lfsr`: the value that one call stores in the static
`lfsr` and returns, from the value `lfsr` held before.  `0 - (lfsr & 1u)` is
computed in `unsigned int`, modulo 2^32. -/
def galois_lfsr (lfsr : Nat) : Nat :=
  (lfsr >>> 1) ^^^ (((2 ^ 32 - (lfsr &&& 1)) % 2 ^ 32) &&& 0xd0000001)

/-- The value returned by call number `k` (from 1), the static `lfsr` being
1 before the first call; `lfsr_sequence 0` is that initial value. -/
def lfsr_sequence (k : Nat) : Nat := galois_lfsr^[k] 1

/-! ## Example: two packages with disjoint core ids -/

/-- Four cpus in two packages whose cores report the disjoint symbolic ids
0, 1 and 2, 3. -/
def threads_disjoint_cores : List threadinfo_t :=
  [raw_thread 0 0 0 1, raw_thread 1 0 1 2, raw_thread 2 1 2 4, raw_thread 3 1 3 8]

/-! ## Specification-level functions used by the proofs -/

/-- Ids of a list in order of first appearance, after those of `acc`. -/
def first_seen (acc : List Int) : List Int → List Int
  | [] => acc
  | x :: xs => if x ∈ acc then first_seen acc xs else first_seen (acc ++ [x]) xs

/-- The symbolic ids that the scan of lines 380-397 records: those in front of
the first `-1`, in order of first appearance. -/
def sym_ids_found (sym : List Int) : List Int :=
  first_seen [] (sym.takeWhile (fun x => x != -1))

/-- The compact id that lines 401-410 give to a thread whose symbolic id is `s`. -/
def compact_id (sym : List Int) (s : Int) : Int :=
  if s ∈ sym_ids_found sym then ((sym_ids_found sym).indexOf s : Int) else -1

/-- Number of set bits of `m` at the positions below `j`. -/
def bits_below (m : Int) (j : Nat) : Nat := (List.range j).countP (fun c => int_bit m c)

/-- Rank of `c` in a set of cpu ids: how many members are smaller. -/
def rank_in (S : Finset Nat) (c : Nat) : Nat := (S.filter (fun x => x < c)).card

/-- The cpus of core `c` of package `p`: the indices of the flat array whose
record reports these two symbolic ids. -/
def core_set (ft : List threadinfo_t) (p c : Int) : Finset Nat :=
  (Finset.range ft.length).filter
    (fun x => (ft.getD x default).sym_pack_id = p ∧ (ft.getD x default).sym_core_id = c)

/-- The uniform rectangular shape with `T` threads per core: the array is not
empty, no symbolic id is -1, every pair of a package id and a core id of the
array has exactly `T` threads, and the `thread_siblings` mask of every thread is
a non-negative `int` whose bits below `num_cpus` are the cpus of its own core. -/
structure uniform_shape (ft : List threadinfo_t) (T : Nat) : Prop where
  nonempty : 0 < ft.length
  available : ∀ t ∈ ft, t.sym_pack_id ≠ -1 ∧ t.sym_core_id ≠ -1
  threads : ∀ p ∈ ft.map (fun t => t.sym_pack_id), ∀ c ∈ ft.map (fun t => t.sym_core_id),
    (core_set ft p c).card = T
  masks : ∀ l, l < ft.length →
    0 ≤ (ft.getD l default).thread_siblings ∧ (ft.getD l default).thread_siblings < 2 ^ 31 ∧
    ∀ x, x < ft.length → ((ft.getD l default).thread_siblings.testBit x = true ↔
      x ∈ core_set ft (ft.getD l default).sym_pack_id (ft.getD l default).sym_core_id)

/-- Bit `k` of a C `int`: an `int` has the bits 0 to 31. -/
def int32_bit (x : Int) (k : Nat) : Bool := decide (k < 32) && x.testBit k

/-- The thread record `t` with the attribute read from the topology file `f`
replaced by -1. -/
def topology_unavailable (t : threadinfo_t) : topology_file → threadinfo_t
  | .core_id => { t with sym_core_id := -1 }
  | .physical_package_id => { t with sym_pack_id := -1 }
  | .core_siblings => { t with core_siblings := -1 }
  | .thread_siblings => { t with thread_siblings := -1 }

/-- Value of a hexadecimal digit: its place among the digits `0` to `9`, and
10 more than its place among the letters `a` to `f` or `A` to `F`; `none` for
every other character. -/
def hex_digit_value (c : Char) : Option Nat :=
  if c ∈ "0123456789".toList then some ("0123456789".toList.indexOf c)
  else if c ∈ "abcdef".toList then some ("abcdef".toList.indexOf c + 10)
  else if c ∈ "ABCDEF".toList then some ("ABCDEF".toList.indexOf c + 10)
  else none

/-- The number that a string of hexadecimal digits denotes, the first digit
being the most significant. -/
def hex_number (ds : List Char) : Nat :=
  Nat.ofDigits 16 (ds.reverse.map fun c => (hex_digit_value c).getD 0)

/-- The number that a string of decimal digits denotes. -/
def dec_number (ds : List Char) : Nat :=
  Nat.ofDigits 10 (ds.reverse.map fun c => c.toNat - '0'.toNat)

/-- A bitmap file of sysfs: groups of digits with a comma between two groups
and a newline at the end. -/
def bitmap_text (groups : List (List Char)) : List Char :=
  [','].intercalate groups ++ ['\n']

/-- A bitmap file of 1026 bytes: 1024 digits `0`, the digit `1` and the
newline; its only group denotes the number 1. -/
def long_mask_groups : List (List Char) := [List.replicate 1024 '0' ++ ['1']]

/-- A machine with two cpus whose `thread_siblings` and `core_siblings` files
hold the bitmap of `long_mask_groups`. -/
def sysfs_long_mask : sysfs :=
  { cpu_dir := true
    cpu_entries := 2
    cache_dir := false
    cache_entries := 0
    node_dir := false
    node_entries := 0
    topology := fun _ f =>
      match f with
      | .core_id => some "0\n".toList
      | .physical_package_id => some "0\n".toList
      | .core_siblings => some (bitmap_text long_mask_groups)
      | .thread_siblings => some (bitmap_text long_mask_groups)
    cache := fun _ _ _ => none
    node := fun _ _ => none }

/-- The tree `sysfs_long_mask` with the text `00000000,0000000c` in every
`thread_siblings` file. -/
def sysfs_long_core_mask : sysfs :=
  { sysfs_long_mask with
    topology := fun i f =>
      match f with
      | .thread_siblings => some "00000000,0000000c\n".toList
      | g => sysfs_long_mask.topology i g }

/-- A `meminfo` text of 1030 bytes: 1010 blanks in front of the line
`MemTotal: 123456 kB`, so that byte 1024 of the file is the digit `5`. -/
def long_meminfo : List Char := List.replicate 1010 ' ' ++ "MemTotal: 123456 kB\n".toList

/-- A map of 32-bit words that is linear over xor, given by the images of the
words `2^0 .. 2^31`, applied to the word `v`. -/
def lin_apply (cols : List Nat) (v : Nat) : Nat :=
  (List.range 32).foldl (fun acc j => if v.testBit j then acc ^^^ cols.getD j 0 else acc) 0

/-- The images of `2^0 .. 2^31` under `f`. -/
def lin_cols (f : Nat → Nat) : List Nat := (List.range 32).map fun j => f (2 ^ j)

/-- The composition of two maps given by their columns. -/
def lin_comp (A B : List Nat) : List Nat := B.map (lin_apply A)

/-- Columns of `2^i` calls of `galois_lfsr`, by repeated squaring. -/
def lfsr_pow2 : Nat → List Nat
  | 0 => lin_cols galois_lfsr
  | i + 1 => lin_comp (lfsr_pow2 i) (lfsr_pow2 i)

/-- The word after `k` calls of `galois_lfsr` from the word 1, for `k < 2^33`,
by the binary digits of `k`. -/
def lfsr_jump (k : Nat) : Nat :=
  (List.range 33).foldl (fun v i => if k.testBit i then lin_apply (lfsr_pow2 i) v else v) 1

/-- A map on words that respects xor and keeps 32-bit words within 32 bits. -/
structure xor_linear (f : Nat → Nat) : Prop where
  map_xor : ∀ a b, f (a ^^^ b) = f a ^^^ f b
  map_lt : ∀ v, v < 2 ^ 32 → f v < 2 ^ 32

/-! ## Lemmas on the embedding -/

theorem first_seen_mem (l : List Int) : ∀ (acc : List Int) (x : Int),
    x ∈ first_seen acc l ↔ x ∈ acc ∨ x ∈ l := by
  induction l with
  | nil => intro acc x; simp [first_seen]
  | cons y ys ih =>
    intro acc x
    unfold first_seen
    split
    · rename_i hy
      rw [ih]
      constructor
      · rintro (h | h)
        · exact Or.inl h
        · exact Or.inr (List.mem_cons_of_mem _ h)
      · rintro (h | h)
        · exact Or.inl h
        · rcases List.mem_cons.mp h with rfl | h
          · exact Or.inl hy
          · exact Or.inr h
    · rw [ih]
      simp only [List.mem_append, List.mem_singleton, List.mem_cons]
      tauto

theorem first_seen_nodup (l : List Int) : ∀ (acc : List Int), acc.Nodup →
    (first_seen acc l).Nodup := by
  induction l with
  | nil => intro acc h; simpa [first_seen] using h
  | cons y ys ih =>
    intro acc h
    unfold first_seen
    split
    · exact ih acc h
    · rename_i hy
      apply ih
      rw [List.nodup_append]
      refine ⟨h, List.nodup_singleton y, ?_⟩
      intro a ha hb
      rw [List.mem_singleton] at hb
      exact hy (hb ▸ ha)

theorem first_seen_extends (l : List Int) : ∀ (acc : List Int),
    ∃ rest, first_seen acc l = acc ++ rest := by
  induction l with
  | nil => intro acc; exact ⟨[], by simp [first_seen]⟩
  | cons y ys ih =>
    intro acc
    unfold first_seen
    split
    · exact ih acc
    · obtain ⟨r, hr⟩ := ih (acc ++ [y])
      exact ⟨y :: r, by rw [hr]; simp⟩

theorem first_seen_length_le (l : List Int) : ∀ (acc : List Int),
    (first_seen acc l).length ≤ acc.length + l.length := by
  induction l with
  | nil => intro acc; simp [first_seen]
  | cons y ys ih =>
    intro acc
    unfold first_seen
    split
    · have := ih acc
      simp only [List.length_cons]; omega
    · have := ih (acc ++ [y])
      simp only [List.length_append, List.length_cons, List.length_nil] at this ⊢
      omega

theorem any_range_getD (sym : List Int) (i : Nat) (hi : i ≤ sym.length) (c : Int) :
    (List.range i).any (fun j => sym.getD j 0 == c) = true ↔ c ∈ sym.take i := by
  rw [List.any_eq_true, List.mem_take_iff_getElem]
  constructor
  · rintro ⟨j, hj, hc⟩
    rw [List.mem_range] at hj
    have hjl : j < sym.length := by omega
    refine ⟨j, by simp; omega, ?_⟩
    rw [List.getD_eq_getElem _ _ hjl] at hc
    simpa using hc
  · rintro ⟨j, hj, hc⟩
    have hj2 : j < i ∧ j < sym.length := by simpa using hj
    refine ⟨j, List.mem_range.mpr hj2.1, ?_⟩
    rw [List.getD_eq_getElem _ _ hj2.2]
    simpa using hc

theorem find_sym_ids_eq (sym : List Int) : ∀ (fuel i : Nat) (F : List Int),
    i + fuel = sym.length → F.length ≤ i → (∀ x, x ∈ F ↔ x ∈ sym.take i) →
    find_sym_ids sym fuel i (F ++ List.replicate (sym.length - F.length) (-1)) F.length =
      (first_seen F ((sym.drop i).takeWhile (fun x => x != -1)) ++
        List.replicate (sym.length -
          (first_seen F ((sym.drop i).takeWhile (fun x => x != -1))).length) (-1),
       (first_seen F ((sym.drop i).takeWhile (fun x => x != -1))).length) := by
  intro fuel
  induction fuel with
  | zero =>
    intro i F hi _ _
    have : sym.drop i = [] := List.drop_eq_nil_of_le (by omega)
    simp [find_sym_ids, this, first_seen]
  | succ fuel ih =>
    intro i F hi hF hmem
    have hil : i < sym.length := by omega
    have hdrop : sym.drop i = sym[i] :: sym.drop (i + 1) := List.drop_eq_getElem_cons hil
    have hget : sym.getD i 0 = sym[i] := List.getD_eq_getElem _ _ hil
    have htake : sym.take (i + 1) = sym.take i ++ [sym[i]] := by
      rw [List.take_succ, List.getElem?_eq_getElem hil]; rfl
    unfold find_sym_ids
    simp only [hget]
    by_cases hm1 : sym[i] = -1
    · simp [hm1, hdrop, List.takeWhile_cons, first_seen]
    · rw [if_neg hm1, hdrop, List.takeWhile_cons]
      have hne : (sym[i] != -1) = true := by simpa using hm1
      rw [if_pos hne]
      by_cases hfound : (List.range i).any (fun j => sym.getD j 0 == sym[i]) = true
      · have hin : sym[i] ∈ F := (hmem _).mpr ((any_range_getD sym i (by omega) _).mp hfound)
        rw [if_pos hfound]
        have hfs : first_seen F (sym[i] :: (sym.drop (i+1)).takeWhile (fun x => x != -1)) =
            first_seen F ((sym.drop (i+1)).takeWhile (fun x => x != -1)) := by
          rw [first_seen, if_pos hin]
        rw [hfs]
        apply ih (i + 1) F (by omega) (by omega)
        intro x
        rw [htake, List.mem_append, List.mem_singleton, hmem]
        constructor
        · exact Or.inl
        · rintro (h | h)
          · exact h
          · rw [h]; exact (hmem _).mp hin
      · have hnin : sym[i] ∉ F := fun h =>
          hfound ((any_range_getD sym i (by omega) _).mpr ((hmem _).mp h))
        rw [if_neg hfound]
        have hfs : first_seen F (sym[i] :: (sym.drop (i+1)).takeWhile (fun x => x != -1)) =
            first_seen (F ++ [sym[i]]) ((sym.drop (i+1)).takeWhile (fun x => x != -1)) := by
          rw [first_seen, if_neg hnin]
        rw [hfs]
        have hset : (F ++ List.replicate (sym.length - F.length) (-1)).set F.length sym[i] =
            (F ++ [sym[i]]) ++ List.replicate (sym.length - (F ++ [sym[i]]).length) (-1) := by
          rw [List.set_append_right _ _ (le_refl _)]
          have : sym.length - F.length = (sym.length - (F.length + 1)) + 1 := by omega
          rw [this, List.replicate_succ]
          simp
        rw [hset]
        have hlen : F.length + 1 = (F ++ [sym[i]]).length := by simp
        rw [hlen]
        apply ih (i + 1) (F ++ [sym[i]]) (by omega) (by simp; omega)
        intro x
        rw [htake, List.mem_append, List.mem_append, hmem]

theorem scan_sym_ids_eq (sym : List Int) :
    scan_sym_ids sym =
      (sym_ids_found sym ++ List.replicate (sym.length - (sym_ids_found sym).length) (-1),
        (sym_ids_found sym).length) := by
  have h := find_sym_ids_eq sym sym.length 0 [] (by simp) (by simp) (by simp)
  simpa [scan_sym_ids, sym_ids_found] using h

theorem sym_ids_found_nodup (sym : List Int) : (sym_ids_found sym).Nodup :=
  first_seen_nodup _ [] List.nodup_nil

theorem mem_sym_ids_found (sym : List Int) (x : Int) :
    x ∈ sym_ids_found sym ↔ x ∈ sym.takeWhile (fun x => x != -1) := by
  simp [sym_ids_found, first_seen_mem]

theorem sym_ids_found_ne (sym : List Int) : (-1 : Int) ∉ sym_ids_found sym := by
  intro h
  rw [mem_sym_ids_found] at h
  have := List.mem_takeWhile_imp h
  simp at this

theorem sym_ids_found_length_le (sym : List Int) : (sym_ids_found sym).length ≤ sym.length := by
  have h1 := first_seen_length_le (sym.takeWhile (fun x => x != -1)) []
  have h2 : (sym.takeWhile (fun x => x != -1)).length ≤ sym.length :=
    (List.takeWhile_sublist (fun x => x != -1)).length_le
  simp only [sym_ids_found, List.length_nil] at *
  omega

theorem compact_id_loop_eq (s : Int) (G : List Int) (pad : Nat) (hG : G.Nodup)
    (hne : (-1 : Int) ∉ G) : ∀ (fuel j : Nat) (id : Int), j + fuel = G.length + pad →
    compact_id_loop s (G ++ List.replicate pad (-1)) fuel j id =
      if s ∈ G.drop j then (G.indexOf s : Int) else id := by
  intro fuel
  induction fuel with
  | zero =>
    intro j id hj
    have : G.drop j = [] := List.drop_eq_nil_of_le (by omega)
    simp [compact_id_loop, this]
  | succ fuel ih =>
    intro j id hj
    unfold compact_id_loop
    by_cases hjG : j < G.length
    · have hget : (G ++ List.replicate pad (-1)).getD j 0 = G[j] := by
        rw [List.getD_append _ _ _ _ hjG, List.getD_eq_getElem _ _ hjG]
      have hdrop : G.drop j = G[j] :: G.drop (j + 1) := List.drop_eq_getElem_cons hjG
      have hGj : G[j] ≠ -1 := fun h => hne (h ▸ List.getElem_mem hjG)
      rw [hget, if_neg hGj, hdrop]
      by_cases hs : s = G[j]
      · rw [if_pos hs, ih (j + 1) _ (by omega)]
        have hnot : s ∉ G.drop (j + 1) := by
          intro hmem
          have hnd : (G[j] :: G.drop (j + 1)).Nodup := hdrop ▸ hG.sublist (List.drop_sublist j G)
          rw [List.nodup_cons] at hnd
          exact hnd.1 (hs ▸ hmem)
        rw [if_neg hnot, if_pos (by rw [hs]; exact List.mem_cons_self _ _)]
        rw [hs, List.indexOf_getElem hG j hjG]
      · rw [if_neg hs, ih (j + 1) _ (by omega)]
        have : s ∈ G[j] :: G.drop (j + 1) ↔ s ∈ G.drop (j + 1) := by
          rw [List.mem_cons]
          constructor
          · rintro (h | h)
            · exact absurd h hs
            · exact h
          · exact Or.inr
        simp only [this]
    · have hjG2 : G.length ≤ j := by omega
      have hget : (G ++ List.replicate pad (-1)).getD j 0 = -1 := by
        rw [List.getD_append_right _ _ _ _ hjG2, List.getD_eq_getElem _ _ (by simp; omega)]
        simp
      have : G.drop j = [] := List.drop_eq_nil_of_le hjG2
      rw [hget, if_pos rfl, this]
      simp

theorem compact_id_loop_scan (sym : List Int) (s : Int) :
    compact_id_loop s (scan_sym_ids sym).1 sym.length 0 (-1) = compact_id sym s := by
  rw [scan_sym_ids_eq]
  have h := compact_id_loop_eq s (sym_ids_found sym)
    (sym.length - (sym_ids_found sym).length) (sym_ids_found_nodup sym) (sym_ids_found_ne sym)
    sym.length 0 (-1) (by have := sym_ids_found_length_le sym; omega)
  simpa [compact_id] using h

theorem getD_range_map {α : Type} [Inhabited α] (n : Nat) (g : Nat → α) (i : Nat) (hi : i < n) :
    ((List.range n).map g).getD i default = g i := by
  rw [List.getD_eq_getElem _ _ (by simpa using hi)]
  simp

theorem with_pack_ids_length (ft : List threadinfo_t) : (with_pack_ids ft).length = ft.length := by
  simp [with_pack_ids, populate_pack_ids]

theorem with_core_ids_length (ft : List threadinfo_t) : (with_core_ids ft).length = ft.length := by
  simp [with_core_ids, populate_core_ids, with_pack_ids_length]

theorem annotate_threads_length (ft : List threadinfo_t) :
    (annotate_threads ft).length = ft.length := by
  simp [annotate_threads, populate_thread_ids, with_core_ids_length]

theorem with_pack_ids_getD (ft : List threadinfo_t) (i : Nat) (hi : i < ft.length) :
    (with_pack_ids ft).getD i default =
      { ft.getD i default with
        pack_id := compact_id (ft.map fun t => t.sym_pack_id) (ft.getD i default).sym_pack_id } := by
  unfold with_pack_ids populate_pack_ids
  rw [getD_range_map _ _ _ hi]
  have := compact_id_loop_scan (ft.map fun t => t.sym_pack_id) (ft.getD i default).sym_pack_id
  rw [List.length_map] at this
  simp only [this]

theorem with_pack_ids_sym_core (ft : List threadinfo_t) :
    (with_pack_ids ft).map (fun t => t.sym_core_id) = ft.map (fun t => t.sym_core_id) := by
  apply List.ext_getElem
  · simp [with_pack_ids_length]
  · intro i h1 h2
    have hi : i < ft.length := by simpa using h2
    have := with_pack_ids_getD ft i hi
    rw [List.getD_eq_getElem _ _ (by rw [with_pack_ids_length]; exact hi),
      List.getD_eq_getElem _ _ hi] at this
    simp [this]

theorem with_core_ids_getD (ft : List threadinfo_t) (i : Nat) (hi : i < ft.length) :
    (with_core_ids ft).getD i default =
      { ft.getD i default with
        pack_id := compact_id (ft.map fun t => t.sym_pack_id) (ft.getD i default).sym_pack_id
        core_id := compact_id (ft.map fun t => t.sym_core_id) (ft.getD i default).sym_core_id } := by
  unfold with_core_ids populate_core_ids
  rw [getD_range_map _ _ _ (by rw [with_pack_ids_length]; exact hi)]
  have := compact_id_loop_scan (ft.map fun t => t.sym_core_id) (ft.getD i default).sym_core_id
  rw [List.length_map] at this
  simp only [with_pack_ids_sym_core, with_pack_ids_getD ft i hi, with_pack_ids_length, this]

theorem annotate_threads_getD (ft : List threadinfo_t) (i : Nat) (hi : i < ft.length) :
    (annotate_threads ft).getD i default =
      { ft.getD i default with
        pack_id := compact_id (ft.map fun t => t.sym_pack_id) (ft.getD i default).sym_pack_id
        core_id := compact_id (ft.map fun t => t.sym_core_id) (ft.getD i default).sym_core_id
        thread_id := compute_thread_id ft.length i (ft.getD i default).thread_siblings } := by
  unfold annotate_threads populate_thread_ids
  rw [getD_range_map _ _ _ (by rw [with_core_ids_length]; exact hi)]
  simp only [with_core_ids_getD ft i hi, with_core_ids_length]

theorem mem_annotate_threads (ft : List threadinfo_t) (t : threadinfo_t) :
    t ∈ annotate_threads ft ↔ ∃ i, i < ft.length ∧ t = (annotate_threads ft).getD i default := by
  rw [List.mem_iff_getElem]
  constructor
  · rintro ⟨i, hi, rfl⟩
    refine ⟨i, by rw [annotate_threads_length] at hi; exact hi, ?_⟩
    rw [List.getD_eq_getElem _ _ hi]
  · rintro ⟨i, hi, rfl⟩
    have hi2 : i < (annotate_threads ft).length := by rw [annotate_threads_length]; exact hi
    exact ⟨i, hi2, by rw [List.getD_eq_getElem _ _ hi2]⟩

theorem num_packages_eq (ft : List threadinfo_t) :
    num_packages ft = (sym_ids_found (ft.map fun t => t.sym_pack_id)).length := by
  simp [num_packages, scan_sym_ids_eq]

theorem num_cores_per_package_eq (ft : List threadinfo_t) :
    num_cores_per_package ft = (sym_ids_found (ft.map fun t => t.sym_core_id)).length := by
  simp [num_cores_per_package, scan_sym_ids_eq, with_pack_ids_sym_core]

theorem compact_id_eq_neg_one_iff (sym : List Int) (s : Int) :
    compact_id sym s = -1 ↔ s ∉ sym_ids_found sym := by
  unfold compact_id
  split
  · rename_i h
    constructor
    · intro h2
      have : (0 : Int) ≤ ((sym_ids_found sym).indexOf s : Int) := Int.natCast_nonneg _
      omega
    · intro h2; exact absurd h h2
  · rename_i h
    simp [h]

theorem compact_id_of_mem (sym : List Int) (s : Int) (h : s ∈ sym_ids_found sym) :
    compact_id sym s = ((sym_ids_found sym).indexOf s : Int) := by
  simp [compact_id, h]

theorem compact_id_getElem (sym : List Int) (k : Nat) (hk : k < (sym_ids_found sym).length) :
    compact_id sym ((sym_ids_found sym).getD k 0) = (k : Int) := by
  rw [List.getD_eq_getElem _ _ hk, compact_id_of_mem _ _ (List.getElem_mem hk),
    List.indexOf_getElem (sym_ids_found_nodup sym) k hk]

theorem compact_id_lt (sym : List Int) (s : Int) :
    compact_id sym s < ((sym_ids_found sym).length : Int) := by
  unfold compact_id
  split
  · rename_i h
    exact_mod_cast List.indexOf_lt_length.mpr h
  · have : (0 : Int) ≤ ((sym_ids_found sym).length : Int) := Int.natCast_nonneg _
    omega

theorem compact_id_inj (sym : List Int) (s s' : Int) (h : compact_id sym s = compact_id sym s')
    (hs : compact_id sym s ≠ -1) : s = s' := by
  have h1 : s ∈ sym_ids_found sym := by
    by_contra hc; exact hs ((compact_id_eq_neg_one_iff sym s).mpr hc)
  have h2 : s' ∈ sym_ids_found sym := by
    by_contra hc; exact hs (h ▸ (compact_id_eq_neg_one_iff sym s').mpr hc)
  rw [compact_id_of_mem _ _ h1, compact_id_of_mem _ _ h2] at h
  exact (List.indexOf_inj h1 h2).mp (by exact_mod_cast h)

theorem takeWhile_ne_self (sym : List Int) (h : ∀ x ∈ sym, x ≠ -1) :
    sym.takeWhile (fun x => x != -1) = sym := by
  rw [List.takeWhile_eq_self_iff]
  intro x hx
  simpa using h x hx

theorem mem_sym_ids_found_of_no_sentinel (sym : List Int) (h : ∀ x ∈ sym, x ≠ -1) (x : Int) :
    x ∈ sym_ids_found sym ↔ x ∈ sym := by
  rw [mem_sym_ids_found, takeWhile_ne_self sym h]

theorem mem_sym_of_mem_found (sym : List Int) (x : Int) (h : x ∈ sym_ids_found sym) : x ∈ sym :=
  (List.takeWhile_sublist _).subset ((mem_sym_ids_found sym x).mp h)

theorem first_seen_length_card (l : List Int) (acc : List Int) (h : acc.Nodup) :
    (first_seen acc l).length = (acc.toFinset ∪ l.toFinset).card := by
  rw [← List.toFinset_card_of_nodup (first_seen_nodup l acc h)]
  congr 1
  ext x
  simp [first_seen_mem]

theorem first_seen_indexOf (s : Int) (l : List Int) : ∀ (acc : List Int), s ∉ acc → s ∈ l →
    (first_seen acc l).indexOf s = (first_seen acc (l.take (l.indexOf s))).length := by
  induction l with
  | nil => intro acc _ h; simp at h
  | cons y ys ih =>
    intro acc hacc hl
    by_cases hy : y = s
    · subst hy
      rw [List.indexOf_cons_self, List.take_zero]
      simp only [first_seen, if_neg hacc]
      obtain ⟨r, hr⟩ := first_seen_extends ys (acc ++ [y])
      rw [hr, List.append_assoc, List.indexOf_append_of_not_mem hacc]
      simp
    · have hs : s ∈ ys := by
        rcases List.mem_cons.mp hl with h | h
        · exact absurd h.symm hy
        · exact h
      rw [List.indexOf_cons_ne _ hy, Nat.succ_eq_add_one, List.take_succ_cons]
      unfold first_seen
      split
      · exact ih acc hacc hs
      · apply ih _ _ hs
        simp only [List.mem_append, List.mem_singleton, not_or]
        exact ⟨hacc, fun h => hy h.symm⟩

theorem int_bit_eq_testBit (x : Int) (k : Nat) : int_bit x k = x.testBit k := by
  unfold int_bit
  cases x with
  | ofNat n =>
    simp only [Int.testBit, Nat.testBit_to_div_mod]
    have h : (Int.ofNat n / 2 ^ k : Int) = ((n / 2 ^ k : Nat) : Int) := by
      simp [Int.ofNat_ediv]
    rw [h]
    generalize n / 2 ^ k = q
    congr 1
    apply propext
    omega
  | negSucc n =>
    simp only [Int.testBit, Nat.testBit_to_div_mod]
    have hpos : (0 : Int) < 2 ^ k := by positivity
    have h : (Int.negSucc n / 2 ^ k : Int) = -(((n / 2 ^ k : Nat) : Int) + 1) := by
      rw [Int.negSucc_ediv n hpos]
      simp [Int.ofNat_ediv]
      rfl
    rw [h]
    generalize n / 2 ^ k = q
    by_cases hq : q % 2 = 1
    · have : ¬ ((-((q : Int) + 1)) % 2 = 1) := by omega
      rw [decide_eq_false this, decide_eq_true hq]
      rfl
    · have : (-((q : Int) + 1)) % 2 = 1 := by omega
      rw [decide_eq_true this, decide_eq_false hq]
      rfl

theorem bits_below_succ (m : Int) (j : Nat) :
    bits_below m (j + 1) = bits_below m j + (if int_bit m j then 1 else 0) := by
  unfold bits_below
  rw [List.range_succ, List.countP_append]
  simp [List.countP_cons]

theorem bits_below_eq_card (m : Int) (j : Nat) :
    bits_below m j = ((Finset.range j).filter (fun c => m.testBit c = true)).card := by
  induction j with
  | zero => simp [bits_below]
  | succ j ih =>
    rw [bits_below_succ, ih, Finset.range_succ, Finset.filter_insert, int_bit_eq_testBit]
    by_cases h : m.testBit j = true
    · rw [if_pos h, if_pos h, Finset.card_insert_of_not_mem (by simp)]
    · rw [if_neg h, if_neg h]; simp

theorem thread_id_fold (i : Nat) (m : Int) (j : Nat) :
    (List.range j).foldl (thread_id_step i) (m, 0, -1) =
      (m / 2 ^ j, (bits_below m j : Int),
        if i < j ∧ int_bit m i = true then (bits_below m i : Int) else -1) := by
  induction j with
  | zero => simp [bits_below]
  | succ j ih =>
    rw [List.range_succ, List.foldl_append, ih]
    simp only [List.foldl_cons, List.foldl_nil, thread_id_step]
    have hdiv : m / 2 ^ j / 2 = m / 2 ^ (j + 1) := by
      have h1 := Int.shiftRight_eq_div_pow m (j + 1)
      have h2 := Int.shiftRight_eq_div_pow m j
      have h3 := Int.shiftRight_eq_div_pow (m >>> j) 1
      rw [Int.shiftRight_add, h3, h2] at h1
      push_cast at h1
      simpa using h1
    have hbit : (m / 2 ^ j % 2 = 1) ↔ int_bit m j = true := by simp [int_bit]
    by_cases hb : int_bit m j = true
    · rw [if_pos (hbit.mpr hb), hdiv, bits_below_succ, if_pos hb]
      refine Prod.ext rfl (Prod.ext (by simp) ?_)
      simp only
      by_cases hji : j = i
      · subst hji
        simp [hb]
      · rw [if_neg hji]
        have : (i < j + 1 ∧ int_bit m i = true) ↔ (i < j ∧ int_bit m i = true) := by
          constructor
          · rintro ⟨h1, h2⟩; exact ⟨by omega, h2⟩
          · rintro ⟨h1, h2⟩; exact ⟨by omega, h2⟩
        simp only [this]
    · rw [if_neg (fun h => hb (hbit.mp h)), hdiv, bits_below_succ, if_neg hb]
      refine Prod.ext rfl (Prod.ext (by simp) ?_)
      simp only
      have : (i < j + 1 ∧ int_bit m i = true) ↔ (i < j ∧ int_bit m i = true) := by
        constructor
        · rintro ⟨h1, h2⟩
          refine ⟨?_, h2⟩
          by_contra hc
          have : i = j := by omega
          subst this
          exact hb h2
        · rintro ⟨h1, h2⟩; exact ⟨by omega, h2⟩
      simp only [this]

theorem compute_thread_id_eq (n i : Nat) (m : Int) :
    compute_thread_id n i m =
      if m ≠ -1 ∧ i < n ∧ m.testBit i = true then (bits_below m i : Int) else -1 := by
  unfold compute_thread_id
  rw [thread_id_fold, ← int_bit_eq_testBit]
  by_cases h : m = -1
  · simp [h]
  · simp [h]

theorem rank_in_lt_of_lt (S : Finset Nat) (a b : Nat) (ha : a ∈ S) (hab : a < b) :
    rank_in S a < rank_in S b := by
  apply Finset.card_lt_card
  rw [Finset.ssubset_iff_of_subset]
  · exact ⟨a, by simp [ha, hab], by simp⟩
  · intro x hx
    simp only [Finset.mem_filter] at hx ⊢
    exact ⟨hx.1, by omega⟩

theorem rank_in_lt_card (S : Finset Nat) (a : Nat) (ha : a ∈ S) : rank_in S a < S.card := by
  apply Finset.card_lt_card
  rw [Finset.ssubset_iff_of_subset (Finset.filter_subset _ _)]
  exact ⟨a, ha, by simp⟩

theorem rank_in_injOn (S : Finset Nat) : Set.InjOn (rank_in S) (S : Set Nat) := by
  intro a ha b hb hab
  by_contra hne
  rcases Nat.lt_or_gt_of_ne hne with h | h
  · have := rank_in_lt_of_lt S a b ha h; omega
  · have := rank_in_lt_of_lt S b a hb h; omega

theorem rank_in_image (S : Finset Nat) : S.image (rank_in S) = Finset.range S.card := by
  apply Finset.eq_of_subset_of_card_le
  · intro k hk
    obtain ⟨a, ha, rfl⟩ := Finset.mem_image.mp hk
    exact Finset.mem_range.mpr (rank_in_lt_card S a ha)
  · rw [Finset.card_image_of_injOn (rank_in_injOn S)]
    simp

theorem bits_below_eq_rank (m : Int) (S : Finset Nat) (n c : Nat) (hc : c < n)
    (hbits : ∀ x, x < n → (m.testBit x = true ↔ x ∈ S)) :
    bits_below m c = rank_in S c := by
  rw [bits_below_eq_card, rank_in]
  congr 1
  ext x
  simp only [Finset.mem_filter, Finset.mem_range]
  constructor
  · rintro ⟨h1, h2⟩
    exact ⟨(hbits x (by omega)).mp h2, h1⟩
  · rintro ⟨h1, h2⟩
    exact ⟨h2, (hbits x (by omega)).mpr h1⟩

theorem thread_id_eq_rank (ft : List threadinfo_t) (S : Finset Nat) (c : Nat)
    (hc : c < ft.length) (hcS : c ∈ S) (hm : (ft.getD c default).thread_siblings ≠ -1)
    (hbits : ∀ x, x < ft.length → ((ft.getD c default).thread_siblings.testBit x = true ↔ x ∈ S)) :
    ((annotate_threads ft).getD c default).thread_id = (rank_in S c : Int) := by
  rw [annotate_threads_getD ft c hc]
  simp only
  rw [compute_thread_id_eq, if_pos ⟨hm, hc, (hbits c hc).mpr hcS⟩,
    bits_below_eq_rank _ S ft.length c hc hbits]

theorem last_match_fold (p : Nat → Bool) (n : Nat) :
    ((List.range n).foldl (fun slot l => if p l then some l else slot) none = none ∧
      ∀ l, l < n → p l = false) ∨
    ∃ l, (List.range n).foldl (fun slot l => if p l then some l else slot) none = some l ∧
      l < n ∧ p l = true ∧ ∀ l', l < l' → l' < n → p l' = false := by
  induction n with
  | zero => left; simp
  | succ n ih =>
    rw [List.range_succ, List.foldl_append]
    simp only [List.foldl_cons, List.foldl_nil]
    by_cases hp : p n = true
    · right
      refine ⟨n, by simp [hp], by omega, hp, ?_⟩
      intro l' h1 h2; omega
    · have hpf : p n = false := by simpa using hp
      rcases ih with ⟨h1, h2⟩ | ⟨l, h1, h2, h3, h4⟩
      · left
        refine ⟨by simp [hpf, h1], ?_⟩
        intro l hl
        by_cases hln : l = n
        · rw [hln]; exact hpf
        · exact h2 l (by omega)
      · right
        refine ⟨l, by simp [hpf, h1], by omega, h3, ?_⟩
        intro l' hl1 hl2
        by_cases hln : l' = n
        · rw [hln]; exact hpf
        · exact h4 l' hl1 (by omega)

theorem assemble_thread_cases (ft : List threadinfo_t) (i j k : Nat) :
    (assemble_thread ft i j k = none ∧ ∀ l, l < ft.length → thread_matches ft i j k l = false) ∨
    ∃ l, assemble_thread ft i j k = some l ∧ l < ft.length ∧ thread_matches ft i j k l = true ∧
      ∀ l', l < l' → l' < ft.length → thread_matches ft i j k l' = false :=
  last_match_fold (thread_matches ft i j k) ft.length

theorem thread_matches_iff (ft : List threadinfo_t) (i j k l : Nat) :
    thread_matches ft i j k l = true ↔
      (ft.getD l default).pack_id = (i : Int) ∧ (ft.getD l default).core_id = (j : Int) ∧
        (ft.getD l default).thread_id = (k : Int) := by
  simp [thread_matches, and_assoc]

theorem thread_slot_assemble (ft : List threadinfo_t) (P C T i j k : Nat) :
    thread_slot (assemble_packages ft P C T) i j k =
      if i < P ∧ j < C ∧ k < T then assemble_thread ft i j k else none := by
  unfold thread_slot assemble_packages
  by_cases hi : i < P
  · rw [List.getElem?_map, List.getElem?_range hi]
    simp only [Option.map_some']
    by_cases hj : j < C
    · simp only [assemble_package]
      rw [List.getElem?_map, List.getElem?_range hj]
      simp only [Option.map_some', assemble_core]
      by_cases hk : k < T
      · rw [List.getElem?_map, List.getElem?_range hk]
        simp [hi, hj, hk]
      · rw [List.getElem?_eq_none (by simp; omega)]
        simp [hk]
    · simp only [assemble_package]
      rw [List.getElem?_eq_none (by simp; omega)]
      simp [hj]
  · rw [List.getElem?_eq_none (by simp; omega)]
    simp [hi]

theorem thread_slot_build (ft : List threadinfo_t) (i j k : Nat) :
    thread_slot (build_packages ft) i j k =
      if i < num_packages ft ∧ j < num_cores_per_package ft ∧ k < num_threads_per_core ft
      then assemble_thread (annotate_threads ft) i j k else none :=
  thread_slot_assemble _ _ _ _ _ _ _

theorem thread_slot_some (ft : List threadinfo_t) (i j k l : Nat)
    (h : thread_slot (build_packages ft) i j k = some l) :
    i < num_packages ft ∧ j < num_cores_per_package ft ∧ k < num_threads_per_core ft ∧
    l < ft.length ∧
    ((annotate_threads ft).getD l default).pack_id = (i : Int) ∧
    ((annotate_threads ft).getD l default).core_id = (j : Int) ∧
    ((annotate_threads ft).getD l default).thread_id = (k : Int) ∧
    ∀ l', l < l' → l' < ft.length → thread_matches (annotate_threads ft) i j k l' = false := by
  rw [thread_slot_build] at h
  split at h
  · rename_i hr
    rcases assemble_thread_cases (annotate_threads ft) i j k with ⟨h1, _⟩ | ⟨l0, h1, h2, h3, h4⟩
    · rw [h1] at h; cases h
    · rw [h1] at h
      cases h
      rw [annotate_threads_length] at h2 h4
      rw [thread_matches_iff] at h3
      exact ⟨hr.1, hr.2.1, hr.2.2, h2, h3.1, h3.2.1, h3.2.2, h4⟩
  · cases h

theorem read_memnodes_some (fs : sysfs) : ∀ (fuel i : Nat),
    (∀ i', i ≤ i' → i' < i + fuel → ∀ data, fs.node i' node_file.meminfo = some data →
      (read_meminfo data).isSome = true) →
    ∃ ms, read_memnodes fs fuel i = some ms := by
  intro fuel
  induction fuel with
  | zero => intro i _; exact ⟨[], rfl⟩
  | succ fuel ih =>
    intro i h
    obtain ⟨ms, hms⟩ := ih (i + 1) (fun i' h1 h2 => h i' (by omega) (by omega))
    have hnode : ∃ m, read_memnode fs i = some m := by
      unfold read_memnode
      cases hm : fs.node i node_file.meminfo with
      | none => exact ⟨_, rfl⟩
      | some data =>
        have := h i (le_refl _) (by omega) data hm
        obtain ⟨size, hsize⟩ := Option.isSome_iff_exists.mp this
        simp only [hsize]
        exact ⟨_, rfl⟩
    obtain ⟨m, hm⟩ := hnode
    exact ⟨m :: ms, by simp [read_memnodes, hm, hms]⟩

theorem read_flat_threads_cpu_id (fs : sysfs) (num_cpus num_caches : Nat) :
    (read_flat_threads fs num_cpus num_caches).map (fun t => t.cpu_id) =
      (List.range num_cpus).map (fun i : Nat => (i : Int)) := by
  simp [read_flat_threads, read_thread, Function.comp_def]

theorem annotate_threads_cpu_id (ft : List threadinfo_t) :
    (annotate_threads ft).map (fun t => t.cpu_id) = ft.map (fun t => t.cpu_id) := by
  apply List.ext_getElem
  · simp [annotate_threads_length]
  · intro i h1 h2
    have hi : i < ft.length := by simpa using h2
    have := annotate_threads_getD ft i hi
    rw [List.getD_eq_getElem _ _ (by rw [annotate_threads_length]; exact hi),
      List.getD_eq_getElem _ _ hi] at this
    simp [this]

theorem sym_ids_found_length_of_no_sentinel (sym : List Int) (h : ∀ x ∈ sym, x ≠ -1) :
    (sym_ids_found sym).length = sym.toFinset.card := by
  unfold sym_ids_found
  rw [takeWhile_ne_self sym h, first_seen_length_card _ [] List.nodup_nil]
  simp

theorem countP_range_eq_card (p : Nat → Bool) (n : Nat) :
    (List.range n).countP p = ((Finset.range n).filter (fun c => p c = true)).card := by
  induction n with
  | zero => simp
  | succ n ih =>
    rw [List.range_succ, List.countP_append, ih, Finset.range_succ, Finset.filter_insert]
    by_cases h : p n = true
    · rw [if_pos h, Finset.card_insert_of_not_mem (by simp)]
      simp [List.countP_cons, h]
    · rw [if_neg h]
      simp [List.countP_cons, h]

theorem count_fold_eq_countP (p : Nat → Bool) (l : List Nat) (a : Nat) :
    l.foldl (fun num i => if p i then num + 1 else num) a = a + l.countP p := by
  induction l generalizing a with
  | nil => simp
  | cons x xs ih =>
    rw [List.foldl_cons, ih, List.countP_cons]
    by_cases h : p x = true
    · simp [h]; omega
    · simp [h]

theorem count_threads_per_core_eq (ft : List threadinfo_t) :
    count_threads_per_core ft =
      ((Finset.range ft.length).filter
        (fun i => one_shl_and i (ft.getD 0 default).thread_siblings = true)).card := by
  unfold count_threads_per_core
  rw [count_fold_eq_countP, countP_range_eq_card]
  simp

theorem testBit_lt_of_bounds (m : Int) (k l : Nat) (h0 : 0 ≤ m) (hk : m < 2 ^ k)
    (hl : m.testBit l = true) : l < k := by
  obtain ⟨a, rfl⟩ := Int.eq_ofNat_of_zero_le h0
  have h1 : a.testBit l = true := by simpa [Int.testBit] using hl
  have h2 : 2 ^ l ≤ a := Nat.testBit_implies_ge h1
  have h3 : a < 2 ^ k := by exact_mod_cast hk
  exact (Nat.pow_lt_pow_iff_right (by decide)).mp (lt_of_le_of_lt h2 h3)

theorem mem_core_set_self (ft : List threadinfo_t) (l : Nat) (hl : l < ft.length) :
    l ∈ core_set ft (ft.getD l default).sym_pack_id (ft.getD l default).sym_core_id := by
  simp [core_set, hl]

theorem getD_mem (ft : List threadinfo_t) (l : Nat) (hl : l < ft.length) :
    ft.getD l default ∈ ft := by
  rw [List.getD_eq_getElem _ _ hl]
  exact List.getElem_mem hl

theorem num_threads_per_core_eq (ft : List threadinfo_t) (hn : 0 < ft.length) :
    num_threads_per_core ft =
      ((Finset.range ft.length).filter
        (fun i => one_shl_and i (ft.getD 0 default).thread_siblings = true)).card := by
  unfold num_threads_per_core
  rw [count_threads_per_core_eq, with_core_ids_length, with_core_ids_getD ft 0 hn]

theorem num_packages_of_no_sentinel (ft : List threadinfo_t)
    (h : ∀ t ∈ ft, t.sym_pack_id ≠ -1) :
    num_packages ft = (ft.map fun t => t.sym_pack_id).toFinset.card := by
  rw [num_packages_eq, sym_ids_found_length_of_no_sentinel]
  intro x hx
  obtain ⟨t, ht, rfl⟩ := List.mem_map.mp hx
  exact h t ht

theorem num_cores_of_no_sentinel (ft : List threadinfo_t)
    (h : ∀ t ∈ ft, t.sym_core_id ≠ -1) :
    num_cores_per_package ft = (ft.map fun t => t.sym_core_id).toFinset.card := by
  rw [num_cores_per_package_eq, sym_ids_found_length_of_no_sentinel]
  intro x hx
  obtain ⟨t, ht, rfl⟩ := List.mem_map.mp hx
  exact h t ht

theorem mem_core_set_lt (ft : List threadinfo_t) (p c : Int) (x : Nat)
    (h : x ∈ core_set ft p c) : x < ft.length := by
  simp only [core_set, Finset.mem_filter, Finset.mem_range] at h
  exact h.1

theorem nonneg_of_testBit_bounded (m : Int) (n : Nat)
    (h : ∀ x, m.testBit x = true → x < n) : 0 ≤ m := by
  cases m with
  | ofNat a => exact Int.natCast_nonneg a
  | negSucc k =>
    exfalso
    have hk : k < 2 ^ (n + k) :=
      lt_of_lt_of_le (Nat.lt_two_pow k) (Nat.pow_le_pow_right (by decide) (by omega))
    have := h (n + k) (by simp [Int.testBit, Nat.testBit_lt_two_pow hk])
    omega

theorem testBit_of_small (m : Int) (n : Nat) (S : Finset Nat) (h0 : 0 ≤ m) (hlt : m < 2 ^ n)
    (hS : ∀ x ∈ S, x < n) (hb : ∀ x, x < n → (m.testBit x = true ↔ x ∈ S)) :
    ∀ x, m.testBit x = true ↔ x ∈ S := by
  intro x
  by_cases hx : x < n
  · exact hb x hx
  · constructor
    · intro h
      exact absurd (testBit_lt_of_bounds m n x h0 hlt h) hx
    · intro h
      exact absurd (hS x h) hx

theorem uniform_shape_length_le (ft : List threadinfo_t) (T : Nat) (h : uniform_shape ft T) :
    ft.length ≤ 31 := by
  have hn := h.nonempty
  obtain ⟨h0, h1, h2⟩ := h.masks (ft.length - 1) (by omega)
  have := testBit_lt_of_bounds _ 31 (ft.length - 1) h0 h1
    ((h2 (ft.length - 1) (by omega)).mpr (mem_core_set_self ft _ (by omega)))
  omega

theorem sym_pack_mem (ft : List threadinfo_t) (l : Nat) (hl : l < ft.length) :
    (ft.getD l default).sym_pack_id ∈ ft.map (fun t => t.sym_pack_id) :=
  List.mem_map.mpr ⟨_, getD_mem ft l hl, rfl⟩

theorem sym_core_mem (ft : List threadinfo_t) (l : Nat) (hl : l < ft.length) :
    (ft.getD l default).sym_core_id ∈ ft.map (fun t => t.sym_core_id) :=
  List.mem_map.mpr ⟨_, getD_mem ft l hl, rfl⟩

theorem uniform_shape_threads_per_core (ft : List threadinfo_t) (T : Nat)
    (h : uniform_shape ft T) : num_threads_per_core ft = T := by
  have hn := h.nonempty
  have hle := uniform_shape_length_le ft T h
  rw [num_threads_per_core_eq ft hn,
    ← h.threads _ (sym_pack_mem ft 0 hn) _ (sym_core_mem ft 0 hn)]
  congr 1
  ext x
  simp only [Finset.mem_filter, Finset.mem_range]
  constructor
  · rintro ⟨hx, hb⟩
    unfold one_shl_and at hb
    rw [Nat.mod_eq_of_lt (by omega), int_bit_eq_testBit] at hb
    exact ((h.masks 0 hn).2.2 x hx).mp hb
  · intro hx
    have hxn : x < ft.length := by
      simp only [core_set, Finset.mem_filter, Finset.mem_range] at hx
      exact hx.1
    refine ⟨hxn, ?_⟩
    unfold one_shl_and
    rw [Nat.mod_eq_of_lt (by omega), int_bit_eq_testBit]
    exact ((h.masks 0 hn).2.2 x hxn).mpr hx

theorem uniform_shape_pack_mem (ft : List threadinfo_t) (T : Nat) (h : uniform_shape ft T)
    (l : Nat) (hl : l < ft.length) :
    (ft.getD l default).sym_pack_id ∈ sym_ids_found (ft.map fun t => t.sym_pack_id) := by
  rw [mem_sym_ids_found_of_no_sentinel]
  · exact sym_pack_mem ft l hl
  · intro x hx
    obtain ⟨t, ht, rfl⟩ := List.mem_map.mp hx
    exact (h.available t ht).1

theorem uniform_shape_core_mem (ft : List threadinfo_t) (T : Nat) (h : uniform_shape ft T)
    (l : Nat) (hl : l < ft.length) :
    (ft.getD l default).sym_core_id ∈ sym_ids_found (ft.map fun t => t.sym_core_id) := by
  rw [mem_sym_ids_found_of_no_sentinel]
  · exact sym_core_mem ft l hl
  · intro x hx
    obtain ⟨t, ht, rfl⟩ := List.mem_map.mp hx
    exact (h.available t ht).2

theorem uniform_shape_ids (ft : List threadinfo_t) (T : Nat) (h : uniform_shape ft T)
    (l : Nat) (hl : l < ft.length) :
    ((annotate_threads ft).getD l default).pack_id =
      (((sym_ids_found (ft.map fun t => t.sym_pack_id)).indexOf
        (ft.getD l default).sym_pack_id : Nat) : Int) ∧
    ((annotate_threads ft).getD l default).core_id =
      (((sym_ids_found (ft.map fun t => t.sym_core_id)).indexOf
        (ft.getD l default).sym_core_id : Nat) : Int) ∧
    ((annotate_threads ft).getD l default).thread_id =
      ((rank_in (core_set ft (ft.getD l default).sym_pack_id (ft.getD l default).sym_core_id) l
        : Nat) : Int) := by
  refine ⟨?_, ?_, ?_⟩
  · rw [annotate_threads_getD ft l hl]
    exact compact_id_of_mem _ _ (uniform_shape_pack_mem ft T h l hl)
  · rw [annotate_threads_getD ft l hl]
    exact compact_id_of_mem _ _ (uniform_shape_core_mem ft T h l hl)
  · obtain ⟨h0, _, h2⟩ := h.masks l hl
    exact thread_id_eq_rank ft _ l hl (mem_core_set_self ft l hl) (by omega) h2

theorem uniform_shape_match_iff (ft : List threadinfo_t) (T : Nat) (h : uniform_shape ft T)
    (i j k l : Nat) (hi : i < (sym_ids_found (ft.map fun t => t.sym_pack_id)).length)
    (hj : j < (sym_ids_found (ft.map fun t => t.sym_core_id)).length) (hl : l < ft.length) :
    (((annotate_threads ft).getD l default).pack_id = (i : Int) ∧
      ((annotate_threads ft).getD l default).core_id = (j : Int) ∧
      ((annotate_threads ft).getD l default).thread_id = (k : Int)) ↔
    (l ∈ core_set ft ((sym_ids_found (ft.map fun t => t.sym_pack_id)).getD i 0)
        ((sym_ids_found (ft.map fun t => t.sym_core_id)).getD j 0) ∧
      rank_in (core_set ft ((sym_ids_found (ft.map fun t => t.sym_pack_id)).getD i 0)
        ((sym_ids_found (ft.map fun t => t.sym_core_id)).getD j 0)) l = k) := by
  obtain ⟨hp, hc, ht⟩ := uniform_shape_ids ft T h l hl
  have hpm := uniform_shape_pack_mem ft T h l hl
  have hcm := uniform_shape_core_mem ft T h l hl
  rw [hp, hc, ht, List.getD_eq_getElem _ _ hi, List.getD_eq_getElem _ _ hj]
  constructor
  · rintro ⟨h1, h2, h3⟩
    have e1 : (sym_ids_found (ft.map fun t => t.sym_pack_id))[i] =
        (ft.getD l default).sym_pack_id := by
      have hidx : (sym_ids_found (ft.map fun t => t.sym_pack_id)).indexOf
          (ft.getD l default).sym_pack_id = i := by exact_mod_cast h1
      subst hidx
      exact List.getElem_indexOf _
    have e2 : (sym_ids_found (ft.map fun t => t.sym_core_id))[j] =
        (ft.getD l default).sym_core_id := by
      have hidx : (sym_ids_found (ft.map fun t => t.sym_core_id)).indexOf
          (ft.getD l default).sym_core_id = j := by exact_mod_cast h2
      subst hidx
      exact List.getElem_indexOf _
    rw [e1, e2]
    exact ⟨mem_core_set_self ft l hl, by exact_mod_cast h3⟩
  · rintro ⟨h1, h2⟩
    have hmem := h1
    simp only [core_set, Finset.mem_filter, Finset.mem_range] at hmem
    obtain ⟨_, e1, e2⟩ := hmem
    rw [e1, e2]
    refine ⟨?_, ?_, ?_⟩
    · rw [List.indexOf_getElem (sym_ids_found_nodup _) i hi]
    · rw [List.indexOf_getElem (sym_ids_found_nodup _) j hj]
    · rw [h2]

theorem uniform_shape_unique (ft : List threadinfo_t) (T : Nat) (h : uniform_shape ft T)
    (i j k : Nat) (hi : i < num_packages ft) (hj : j < num_cores_per_package ft) (hk : k < T) :
    ∃! l, l < ft.length ∧
      ((annotate_threads ft).getD l default).pack_id = (i : Int) ∧
      ((annotate_threads ft).getD l default).core_id = (j : Int) ∧
      ((annotate_threads ft).getD l default).thread_id = (k : Int) := by
  rw [num_packages_eq] at hi
  rw [num_cores_per_package_eq] at hj
  have hcard := h.threads _
    (mem_sym_of_mem_found _ _ (List.getElem_mem hi)) _
    (mem_sym_of_mem_found _ _ (List.getElem_mem hj))
  rw [← List.getD_eq_getElem _ 0 hi, ← List.getD_eq_getElem _ 0 hj] at hcard
  have hk2 : k ∈ (core_set ft ((sym_ids_found (ft.map fun t => t.sym_pack_id)).getD i 0)
      ((sym_ids_found (ft.map fun t => t.sym_core_id)).getD j 0)).image
      (rank_in (core_set ft ((sym_ids_found (ft.map fun t => t.sym_pack_id)).getD i 0)
        ((sym_ids_found (ft.map fun t => t.sym_core_id)).getD j 0))) := by
    rw [rank_in_image, hcard]
    exact Finset.mem_range.mpr hk
  obtain ⟨l, hlS, hlk⟩ := Finset.mem_image.mp hk2
  have hl : l < ft.length := by
    simp only [core_set, Finset.mem_filter, Finset.mem_range] at hlS
    exact hlS.1
  refine ⟨l, ⟨hl, (uniform_shape_match_iff ft T h i j k l hi hj hl).mpr ⟨hlS, hlk⟩⟩, ?_⟩
  rintro l' ⟨hl', hm'⟩
  obtain ⟨h1, h2⟩ := (uniform_shape_match_iff ft T h i j k l' hi hj hl').mp hm'
  exact rank_in_injOn _ h1 hlS (by rw [h2, hlk])

theorem drop_eq_cons_iff {α : Type} (l : List α) (i : Nat) (x : α) (rest : List α)
    (h : l.drop i = x :: rest) : ∃ hi : i < l.length, l[i] = x ∧ l.drop (i + 1) = rest := by
  have hi : i < l.length := by
    by_contra hc
    rw [List.drop_eq_nil_of_le (by omega)] at h
    cases h
  rw [List.drop_eq_getElem_cons hi] at h
  injection h with h1 h2
  exact ⟨hi, h1, h2⟩

theorem trim_loop_spec (tc : Char) : ∀ (R cur T : List Char) (i j fuel : Nat),
    (∀ c ∈ R, c ≠ NUL) → cur.drop i = R ++ NUL :: T → j ≤ i → i + R.length < 2 ^ 32 →
    R.length < fuel →
    ∃ T', trim_loop tc fuel cur i j =
      some (cur.take j ++ R.filter (fun c => c != tc) ++ NUL :: T') := by
  intro R
  induction R with
  | nil =>
    intro cur T i j fuel _ hdrop hji _ hfuel
    obtain ⟨hi, hget, _⟩ := drop_eq_cons_iff cur i NUL T (by simpa using hdrop)
    obtain ⟨f, rfl⟩ : ∃ f, fuel = f + 1 := ⟨fuel - 1, by simp at hfuel; omega⟩
    have hgetD : cur.getD i NUL = NUL := by rw [List.getD_eq_getElem _ _ hi, hget]
    have hstep : trim_step tc cur i j = none := by
      unfold trim_step
      rw [hgetD]
      simp
    refine ⟨cur.drop (j + 1), ?_⟩
    rw [trim_loop, hstep]
    simp only [List.filter_nil, List.append_nil]
    rw [List.set_eq_take_cons_drop _ (by omega)]
  | cons c R ih =>
    intro cur T i j fuel hR hdrop hji hlen hfuel
    obtain ⟨hi, hget, hdrop'⟩ := drop_eq_cons_iff cur i c (R ++ NUL :: T) (by simpa using hdrop)
    obtain ⟨f, rfl⟩ : ∃ f, fuel = f + 1 := ⟨fuel - 1, by simp at hfuel; omega⟩
    have hc : c ≠ NUL := hR c (List.mem_cons_self _ _)
    have hR' : ∀ c ∈ R, c ≠ NUL := fun x hx => hR x (List.mem_cons_of_mem _ hx)
    simp only [List.length_cons] at hlen hfuel
    have hi1 : (i + 1) % 2 ^ 32 = i + 1 := Nat.mod_eq_of_lt (by omega)
    have hj1 : (j + 1) % 2 ^ 32 = j + 1 := Nat.mod_eq_of_lt (by omega)
    have hgetD : cur.getD i NUL = c := by rw [List.getD_eq_getElem _ _ hi, hget]
    by_cases htc : c = tc
    · have hstep : trim_step tc cur i j = some (cur, i + 1, j) := by
        unfold trim_step
        rw [hgetD, hi1]
        simp [hc, htc, htc ▸ hc]
      obtain ⟨T', hT'⟩ := ih cur T (i + 1) j f hR' hdrop' (by omega) (by omega) (by omega)
      refine ⟨T', ?_⟩
      rw [trim_loop, hstep]
      simp only
      rw [hT', List.filter_cons]
      simp [htc]
    · have hstep : trim_step tc cur i j = some (cur.set j c, i + 1, j + 1) := by
        unfold trim_step
        rw [hgetD, hi1, hj1]
        simp [hc, htc]
      have hdrop2 : (cur.set j c).drop (i + 1) = R ++ NUL :: T := by
        rw [List.drop_set_of_lt _ _ (by omega), hdrop']
      obtain ⟨T', hT'⟩ := ih (cur.set j c) T (i + 1) (j + 1) f hR' hdrop2 (by omega)
        (by omega) (by omega)
      refine ⟨T', ?_⟩
      rw [trim_loop, hstep]
      simp only
      rw [hT', List.filter_cons]
      have htake : (cur.set j c).take (j + 1) = cur.take j ++ [c] := by
        rw [List.set_eq_take_cons_drop _ (by omega : j < cur.length)]
        have hl : (cur.take j).length = j := by simp; omega
        rw [List.take_append_eq_append_take, hl]
        simp
      rw [htake]
      simp [htc]

theorem c_string_append_nul (X T : List Char) (h : ∀ c ∈ X, c ≠ NUL) :
    c_string (X ++ NUL :: T) = X := by
  unfold c_string
  rw [List.takeWhile_append_of_pos (by intro a ha; simpa using h a ha)]
  simp [List.takeWhile_cons]

theorem split_at_nul (src : List Char) (h : NUL ∈ src) :
    ∃ T, src = c_string src ++ NUL :: T := by
  unfold c_string
  have h1 := List.takeWhile_append_dropWhile (fun c => c != NUL) src
  cases hd : src.dropWhile (fun c => c != NUL) with
  | nil =>
    exfalso
    rw [hd, List.append_nil] at h1
    have := (List.takeWhile_eq_self_iff.mp h1) NUL h
    simp at this
  | cons x T =>
    have hx : x = NUL := by
      have := List.head_dropWhile_not (fun c => c != NUL) src (by rw [hd]; simp)
      simp only [hd, List.head_cons] at this
      simpa using this
    rw [hd, hx] at h1
    exact ⟨T, h1.symm⟩

theorem c_string_ne_nul (src : List Char) : ∀ c ∈ c_string src, c ≠ NUL := by
  intro c hc
  have := List.mem_takeWhile_imp hc
  simpa using this

theorem trim_loop_mono (tc : Char) : ∀ (fuel : Nat) (src : List Char) (i j : Nat) (r : List Char),
    trim_loop tc fuel src i j = some r → ∀ k, trim_loop tc (fuel + k) src i j = some r := by
  intro fuel
  induction fuel with
  | zero => intro src i j r h; simp [trim_loop] at h
  | succ f ih =>
    intro src i j r h k
    rw [show f + 1 + k = (f + k) + 1 by omega]
    rw [trim_loop] at h ⊢
    cases hs : trim_step tc src i j with
    | none => rw [hs] at h; exact h
    | some st =>
      obtain ⟨src', i', j'⟩ := st
      rw [hs] at h
      exact ih src' i' j' r h k

theorem trim_spec (src : List Char) (tc : Char) (hnul : NUL ∈ src)
    (hlen : (c_string src).length < 2 ^ 32) :
    ∃ T', (∀ fuel, (c_string src).length < fuel → trim_loop tc fuel src 0 0 =
        some ((c_string src).filter (fun c => c != tc) ++ NUL :: T')) ∧
      trim src tc = (c_string src).filter (fun c => c != tc) ++ NUL :: T' := by
  obtain ⟨T, hT⟩ := split_at_nul src hnul
  obtain ⟨T', h1⟩ := trim_loop_spec tc (c_string src) src T 0 0 ((c_string src).length + 1)
    (c_string_ne_nul src) (by simpa using hT) (le_refl _) (by omega) (by omega)
  simp only [List.take_zero, List.nil_append] at h1
  have hall : ∀ fuel, (c_string src).length < fuel → trim_loop tc fuel src 0 0 =
      some ((c_string src).filter (fun c => c != tc) ++ NUL :: T') := by
    intro fuel hf
    have := trim_loop_mono tc _ src 0 0 _ h1 (fuel - ((c_string src).length + 1))
    rwa [show (c_string src).length + 1 + (fuel - ((c_string src).length + 1)) = fuel by omega]
      at this
  refine ⟨T', hall, ?_⟩
  have hle : (c_string src).length < src.length + 1 := by
    have : (c_string src).length ≤ src.length := (List.takeWhile_sublist _).length_le
    omega
  unfold trim
  rw [hall _ hle]
  rfl

theorem getD_set_other {α : Type} (l : List α) (i k : Nat) (x d : α) :
    (l.set i x).getD k d = if i = k ∧ i < l.length then x else l.getD k d := by
  rw [List.getD_eq_getElem?_getD, List.getD_eq_getElem?_getD, List.getElem?_set]
  by_cases h1 : i = k
  · subst h1
    by_cases h2 : i < l.length
    · simp [h2]
    · rw [List.getElem?_eq_none (by omega)]
      simp [h2]
  · simp [h1]

theorem trim_loop_runs_on (tc : Char) (a : Char) (ha : a ≠ NUL) (hat : a ≠ tc) :
    ∀ (fuel : Nat) (s : List Char) (i : Nat),
      (∀ k, k < 2 ^ 32 → s.getD k NUL = a) → i < 2 ^ 32 → trim_loop tc fuel s i i = none := by
  intro fuel
  induction fuel with
  | zero => intro s i _ _; rfl
  | succ f ih =>
    intro s i hs hi
    have hstep : trim_step tc s i i = some (s.set i a, (i + 1) % 2 ^ 32, (i + 1) % 2 ^ 32) := by
      unfold trim_step
      rw [hs i hi]
      simp [ha, hat]
    rw [trim_loop, hstep]
    simp only
    apply ih
    · intro k hk
      rw [getD_set_other]
      split
      · rfl
      · exact hs k hk
    · exact Nat.mod_lt _ (by positivity)

theorem four_gib_string_getD (k : Nat) (hk : k < 2 ^ 32) : four_gib_string.getD k NUL = 'a' := by
  unfold four_gib_string
  have hlen : (List.replicate (2 ^ 32) 'a').length = 2 ^ 32 := List.length_replicate _ _
  rw [List.getD_append _ _ _ _ (by rw [hlen]; exact hk),
    List.getD_eq_getElem _ _ (by rw [hlen]; exact hk), List.getElem_replicate]

theorem one_shl_of_lt : ∀ n : Nat, n < 32 →
    one_shl (n : Int) = if n < 31 then ((2 ^ n : Nat) : Int) else -(2 ^ 31) := by
  decide

theorem testBit_ofNat (a k : Nat) : ((a : Nat) : Int).testBit k = a.testBit k := rfl

theorem testBit_negSucc (b k : Nat) : (Int.negSucc b).testBit k = !b.testBit k := rfl

theorem one_shl_eq_iff (c : Nat) (hc : c < 32) (x : Int) (hlo : -(2 ^ 31) ≤ x)
    (hhi : x < 2 ^ 31) :
    one_shl (c : Int) = x ↔ ∀ k, k < 32 → (x.testBit k = true ↔ k = c) := by
  rw [one_shl_of_lt c hc]
  constructor
  · intro h k hk
    rw [← h]
    split
    · rw [testBit_ofNat, Nat.testBit_two_pow]
      simp [eq_comm]
    · have hc31 : c = 31 := by omega
      subst hc31
      have : (-(2 ^ 31) : Int) = Int.negSucc (2 ^ 31 - 1) := by decide
      rw [this, testBit_negSucc, Nat.testBit_two_pow_sub_one]
      simp
      omega
  · intro h
    cases x with
    | ofNat a =>
      have ha : a < 2 ^ 31 := by
        have : ((a : Nat) : Int) < 2 ^ 31 := hhi
        exact_mod_cast this
      have h : ∀ k, k < 32 → (((a : Nat) : Int).testBit k = true ↔ k = c) := h
      have hbits : ∀ i, a.testBit i = (2 ^ c).testBit i := by
        intro i
        rw [Nat.testBit_two_pow]
        by_cases hi : i < 32
        · have := h i hi
          rw [testBit_ofNat] at this
          by_cases hic : i = c
          · rw [this.mpr hic]; simp [hic]
          · have hf : a.testBit i = false := by
              by_contra hcon
              exact hic (this.mp (by simpa using hcon))
            rw [hf]
            simp
            omega
        · have hf : a.testBit i = false :=
            Nat.testBit_lt_two_pow (lt_of_lt_of_le ha (Nat.pow_le_pow_right (by decide) (by omega)))
          rw [hf]
          simp
          omega
      have hac : a = 2 ^ c := Nat.eq_of_testBit_eq hbits
      have hc31 : c < 31 := by
        by_contra hcon
        have : c = 31 := by omega
        subst this
        omega
      rw [if_pos hc31, hac]
      rfl
    | negSucc b =>
      have hb : b < 2 ^ 31 := by
        have : (Int.negSucc b : Int) = -((b : Int) + 1) := Int.negSucc_eq b
        rw [this] at hlo
        have : (b : Int) < 2 ^ 31 := by omega
        exact_mod_cast this
      have h31 : c = 31 := by
        have := (h 31 (by decide)).mp (by
          rw [testBit_negSucc, Nat.testBit_lt_two_pow hb]
          rfl)
        omega
      subst h31
      have hbits : ∀ i, b.testBit i = (2 ^ 31 - 1).testBit i := by
        intro i
        rw [Nat.testBit_two_pow_sub_one]
        by_cases hi : i < 31
        · have := h i (by omega)
          rw [testBit_negSucc] at this
          have hne : ¬ (i = 31) := by omega
          have hf : (!b.testBit i) = false := by
            by_contra hcon
            exact hne (this.mp (by simpa using hcon))
          simp only [Bool.not_eq_false'] at hf
          rw [hf]
          simp [hi]
        · have hf : b.testBit i = false :=
            Nat.testBit_lt_two_pow (lt_of_lt_of_le hb (Nat.pow_le_pow_right (by decide) (by omega)))
          rw [hf]
          simp [hi]
      have hbe : b = 2 ^ 31 - 1 := Nat.eq_of_testBit_eq hbits
      rw [if_neg (by decide), hbe]
      rfl

theorem report_cache_is_private (n : Nat) (myid : Int) (cache : cacheinfo_t) (type : List Char) :
    (report_cache n myid cache type).is_private = true ↔ one_shl myid = cache.shared_cpu_map := by
  unfold report_cache
  split <;> simp [cache_report.is_private, *]

theorem for_each_ok {α : Type} (body : Nat → Except report_failure α) (g : Nat → α) :
    ∀ (fuel i : Nat), (∀ l, l < fuel → body (i + l) = Except.ok (g (i + l))) →
      for_each body fuel i = Except.ok ((List.range fuel).map fun l => g (i + l)) := by
  intro fuel
  induction fuel with
  | zero => intro i _; rfl
  | succ f ih =>
    intro i h
    have h0 := h 0 (by omega)
    rw [Nat.add_zero] at h0
    have hrest := ih (i + 1) (fun l hl => by
      have := h (l + 1) (by omega)
      rw [show i + (l + 1) = i + 1 + l by omega] at this
      exact this)
    rw [for_each, h0]
    simp only [hrest]
    rw [List.range_succ_eq_map]
    simp [Function.comp_def, Nat.add_assoc, Nat.add_comm 1]

theorem report_caches_eq (n : Nat) (t : threadinfo_t) (flat : Bool)
    (hlen : t.num_caches.toNat = t.cache.length) :
    report_caches n t flat =
      Except.ok (t.cache.map fun c =>
        report_cache n t.cpu_id c (if flat then [c.type.headD NUL] else c.type)) := by
  unfold report_caches
  rw [hlen, for_each_ok _ (fun l => report_cache n t.cpu_id (t.cache.getD l default)
    (if flat then [(t.cache.getD l default).type.headD NUL] else (t.cache.getD l default).type))]
  · congr 1
    apply List.ext_getElem
    · simp
    · intro l h1 h2
      have hl : l < t.cache.length := by simpa using h2
      simp only [List.getElem_map, List.getElem_range, Nat.zero_add,
        List.getD_eq_getElem _ _ hl]
  · intro l hl
    have hne : t.cache ≠ [] := by
      intro h
      rw [h] at hl
      simp at hl
    simp only [Nat.zero_add]
    rw [if_neg (fun h => hne h.1), if_pos hl]

theorem int_div_two_pow_succ (m : Int) (j : Nat) : m / 2 ^ j / 2 = m / 2 ^ (j + 1) := by
  have h1 := Int.shiftRight_eq_div_pow m (j + 1)
  have h2 := Int.shiftRight_eq_div_pow m j
  have h3 := Int.shiftRight_eq_div_pow (m >>> j) 1
  rw [Int.shiftRight_add, h3, h2] at h1
  push_cast at h1
  simpa using h1

theorem print_set_bits_fold (x : Int) (j : Nat) :
    (List.range j).foldl
      (fun (st : Int × List Nat) m => (st.1 / 2, if st.1 % 2 = 1 then st.2 ++ [m] else st.2))
      (x, []) = (x / 2 ^ j, (List.range j).filter (fun m => int_bit x m)) := by
  induction j with
  | zero => simp
  | succ j ih =>
    rw [List.range_succ, List.foldl_append, ih, List.filter_append]
    simp only [List.foldl_cons, List.foldl_nil, int_div_two_pow_succ]
    by_cases hb : x / 2 ^ j % 2 = 1
    · have : int_bit x j = true := by simp [int_bit, hb]
      simp [hb, this]
    · have : int_bit x j = false := by simp [int_bit, hb]
      simp [hb, this]

theorem print_set_bits_eq (n : Nat) (x : Int) :
    print_set_bits n x = (List.range n).filter (fun m => x.testBit m) := by
  unfold print_set_bits
  rw [print_set_bits_fold]
  simp only [int_bit_eq_testBit]

theorem print_set_bits_int32 (n : Nat) (x : Int) (h : n ≤ 32 ∨ (0 ≤ x ∧ x < 2 ^ 31)) :
    print_set_bits n x = (List.range n).filter (fun m => int32_bit x m) := by
  rw [print_set_bits_eq]
  apply List.filter_congr
  intro m hm
  rw [List.mem_range] at hm
  unfold int32_bit
  by_cases hm32 : m < 32
  · simp [hm32]
  · rcases h with h | ⟨h0, h1⟩
    · omega
    · have hf : x.testBit m = false := by
        by_contra hc
        have := testBit_lt_of_bounds x 31 m h0 h1 (by simpa using hc)
        omega
      simp [hm32, hf]

theorem fills_buf_of_short (file : Option (List Char))
    (h : ∀ data, file = some data → data.length < 1024) : fills_buf file = false := by
  cases file with
  | none => rfl
  | some d =>
    have := h d rfl
    simp only [fills_buf, decide_eq_false_iff_not]
    omega

theorem read_cache_congr (fs fs2 : sysfs) (i j : Nat)
    (h : ∀ g, fs2.cache i j g = fs.cache i j g) (s : Bool) :
    read_cache fs2 i j s = read_cache fs i j s := by
  simp only [read_cache, h]

theorem read_caches_congr (fs fs2 : sysfs) (i : Nat)
    (h : ∀ j g, fs2.cache i j g = fs.cache i j g) :
    ∀ n j s, read_caches fs2 i n j s = read_caches fs i n j s := by
  intro n
  induction n with
  | zero => intro j s; rfl
  | succ n ih =>
    intro j s
    simp only [read_caches, read_cache_congr fs fs2 i j (h j), ih]

theorem read_thread_congr (fs fs2 : sysfs) (nc i : Nat)
    (ht : ∀ g, fs2.topology i g = fs.topology i g)
    (hc : ∀ j g, fs2.cache i j g = fs.cache i j g) :
    read_thread fs2 nc i = read_thread fs nc i := by
  simp only [read_thread, ht, read_caches_congr fs fs2 i hc]

theorem read_thread_hide_topology_other (fs : sysfs) (nc i j : Nat) (f : topology_file)
    (hij : i ≠ j) : read_thread (hide_topology fs j f) nc i = read_thread fs nc i := by
  apply read_thread_congr
  · intro g
    simp [hide_topology, hij]
  · intro l g
    rfl

theorem read_thread_hide_cache_other (fs : sysfs) (nc i j k : Nat) (f : cache_file)
    (hij : i ≠ j) : read_thread (hide_cache fs j k f) nc i = read_thread fs nc i := by
  apply read_thread_congr
  · intro g
    rfl
  · intro l g
    simp [hide_cache, hij]

theorem read_thread_hide_topology_self (fs : sysfs) (nc j : Nat) (f : topology_file)
    (hfit : ∀ g, fills_buf (fs.topology j g) = false) :
    read_thread (hide_topology fs j f) nc j = topology_unavailable (read_thread fs nc j) f := by
  have hc : ∀ n l s, read_caches (hide_topology fs j f) j n l s = read_caches fs j n l s :=
    read_caches_congr fs (hide_topology fs j f) j (fun _ _ => rfl)
  have h : ∀ g, (hide_topology fs j f).topology j g = if g = f then none else fs.topology j g := by
    intro g
    simp [hide_topology]
  have hn : fills_buf none = false := rfl
  cases f <;>
    simp [read_thread, h, hc, hn, hfit, open_cpu_file, topology_unavailable, read_int]

theorem read_thread_core_siblings (fs : sysfs) (nc i : Nat)
    (h1 : fills_buf (fs.topology i topology_file.core_id) = false)
    (h2 : fills_buf (fs.topology i topology_file.physical_package_id) = false) :
    (read_thread fs nc i).core_siblings =
      read_int (fs.topology i topology_file.core_siblings) [',', '\n'] 16 := by
  simp [read_thread, open_cpu_file, h1, h2]

theorem read_thread_thread_siblings (fs : sysfs) (nc i : Nat)
    (h1 : fills_buf (fs.topology i topology_file.core_id) = false)
    (h2 : fills_buf (fs.topology i topology_file.physical_package_id) = false)
    (h3 : fills_buf (fs.topology i topology_file.core_siblings) = false) :
    (read_thread fs nc i).thread_siblings =
      read_int (fs.topology i topology_file.thread_siblings) [',', '\n'] 16 := by
  simp [read_thread, open_cpu_file, h1, h2, h3]

theorem read_thread_thread_siblings_lost (fs : sysfs) (nc i : Nat)
    (h1 : fills_buf (fs.topology i topology_file.core_id) = false)
    (h2 : fills_buf (fs.topology i topology_file.physical_package_id) = false)
    (h3 : fills_buf (fs.topology i topology_file.core_siblings) = true) :
    (read_thread fs nc i).thread_siblings = -1 := by
  simp [read_thread, open_cpu_file, h1, h2, h3, read_int]

theorem read_flat_threads_getD (fs : sysfs) (n nc i : Nat) (hi : i < n) :
    (read_flat_threads fs n nc).getD i default = read_thread fs nc i := by
  unfold read_flat_threads
  exact getD_range_map n (read_thread fs nc) i hi

theorem read_flat_threads_length (fs : sysfs) (n nc : Nat) :
    (read_flat_threads fs n nc).length = n := by
  simp [read_flat_threads]

theorem report_caches_none (n : Nat) (t : threadinfo_t) (flat : Bool) (h : t.num_caches = 0) :
    report_caches n t flat = Except.ok [] := by
  unfold report_caches
  rw [h]
  rfl

theorem report_flat_view_no_caches (pi : procmap_t)
    (h : ∀ i, i < pi.num_cpus → (pi.flat_threads.getD i default).num_caches = 0) :
    report_flat_view pi =
      Except.ok ((List.range pi.num_cpus).map fun i =>
        ({ myid := (pi.flat_threads.getD i default).cpu_id
           sym_pack_id := (pi.flat_threads.getD i default).sym_pack_id
           sym_core_id := (pi.flat_threads.getD i default).sym_core_id
           caches := [] } : flat_line)) := by
  unfold report_flat_view
  rw [for_each_ok _ (fun i =>
        ({ myid := (pi.flat_threads.getD i default).cpu_id
           sym_pack_id := (pi.flat_threads.getD i default).sym_pack_id
           sym_core_id := (pi.flat_threads.getD i default).sym_core_id
           caches := [] } : flat_line))]
  · simp only [Nat.zero_add]
  · intro l hl
    simp only [Nat.zero_add]
    rw [report_caches_none _ _ _ (h l hl)]

theorem procmap_report_needs_memnode (fs : sysfs) (pi : procmap_t) (h : pi.memnode = [])
    (out : report) : procmap_report fs pi ≠ Except.ok out := by
  unfold procmap_report
  intro hh
  split at hh
  · cases hh
  · split at hh
    · cases hh
    · rw [if_pos h] at hh
      cases hh

theorem bit_index_split (b : Nat) : b >>> 3 = b / 8 ∧ b &&& 7 = b % 8 := by
  constructor
  · rw [Nat.shiftRight_eq_div_pow]
  · exact Nat.and_pow_two_sub_one_eq_mod b 3

theorem bit_test_eq (base : List Nat) (b : Nat) :
    bit_test base b = if (base.getD (b / 8) 0).testBit (b % 8) then 1 else 0 := by
  unfold bit_test bit_test_ll
  rw [(bit_index_split b).1, (bit_index_split b).2]
  have h1 : b % 8 / 8 = 0 := by omega
  have h2 : b % 8 % 8 = b % 8 := by omega
  rw [h1, h2, Nat.add_zero]

theorem bit_test_and_set_eq (base : List Nat) (b : Nat) :
    bit_test_and_set base b =
      (base.set (b / 8) (base.getD (b / 8) 0 ||| 2 ^ (b % 8)),
       if (base.getD (b / 8) 0).testBit (b % 8) then 1 else 0) := by
  unfold bit_test_and_set bit_test_and_set_ll
  rw [(bit_index_split b).1, (bit_index_split b).2]
  have h1 : b % 8 / 8 = 0 := by omega
  have h2 : b % 8 % 8 = b % 8 := by omega
  rw [h1, h2, Nat.add_zero]

theorem bit_test_and_change_eq (base : List Nat) (b : Nat) :
    bit_test_and_change base b =
      (base.set (b / 8) (base.getD (b / 8) 0 ^^^ 2 ^ (b % 8)),
       if (base.getD (b / 8) 0).testBit (b % 8) then 1 else 0) := by
  unfold bit_test_and_change bit_test_and_change_ll
  rw [(bit_index_split b).1, (bit_index_split b).2]
  have h1 : b % 8 / 8 = 0 := by omega
  have h2 : b % 8 % 8 = b % 8 := by omega
  rw [h1, h2, Nat.add_zero]

theorem getD_set_nat (l : List Nat) (i k : Nat) (x : Nat) :
    (l.set i x).getD k 0 = if i = k ∧ i < l.length then x else l.getD k 0 := by
  rw [List.getD_eq_getElem?_getD, List.getD_eq_getElem?_getD, List.getElem?_set]
  by_cases h1 : i = k
  · subst h1
    by_cases h2 : i < l.length
    · simp [h2]
    · rw [List.getElem?_eq_none (by omega)]
      simp [h2]
  · simp [h1]

theorem getD_set_same (l : List Nat) (i : Nat) (x : Nat) (h : i < l.length) :
    (l.set i x).getD i 0 = x := by
  rw [getD_set_nat, if_pos ⟨rfl, h⟩]

theorem getD_set_ne (l : List Nat) (i k : Nat) (x : Nat) (h : i ≠ k) :
    (l.set i x).getD k 0 = l.getD k 0 := by
  rw [getD_set_nat, if_neg (fun hh => h hh.1)]

theorem set_getD_self (l : List Nat) (i : Nat) : l.set i (l.getD i 0) = l := by
  apply List.ext_getElem?
  intro k
  rw [List.getElem?_set]
  by_cases h1 : i = k
  · subst h1
    by_cases h2 : i < l.length
    · simp [h2, List.getD_eq_getElem _ _ h2]
    · rw [List.getElem?_eq_none (by omega)]
      simp [h2]
  · simp [h1]

theorem testBit_mask (k : Nat) (hk : k < 64) (i : Nat) :
    (2 ^ 64 - 1 - (2 ^ k - 1)).testBit i = (decide (k ≤ i) && decide (i < 64)) := by
  have hpow : 2 ^ 64 = 2 ^ k * 2 ^ (64 - k) := by
    rw [← Nat.pow_add]
    congr 1
    omega
  have hkpos : 0 < 2 ^ k := Nat.two_pow_pos k
  have hm : 2 ^ 64 - 1 - (2 ^ k - 1) = 2 ^ k * (2 ^ (64 - k) - 1) := by
    rw [Nat.mul_sub, Nat.mul_one, ← hpow]
    omega
  rw [hm, Nat.testBit_mul_pow_two, Nat.testBit_two_pow_sub_one]
  by_cases h1 : k ≤ i
  · by_cases h2 : i < 64
    · have : i - k < 64 - k := by omega
      simp [h1, h2, this]
    · have : ¬ (i - k < 64 - k) := by omega
      simp [h1, h2, this]
  · simp [h1]

theorem and_mask_eq (x k : Nat) (hx : x < 2 ^ 64) (hk : k < 64) :
    x &&& (2 ^ 64 - 1 - (2 ^ k - 1)) = 2 ^ k * (x / 2 ^ k) := by
  apply Nat.eq_of_testBit_eq
  intro i
  rw [Nat.testBit_and, testBit_mask k hk, Nat.testBit_mul_pow_two, ← Nat.shiftRight_eq_div_pow,
    Nat.testBit_shiftRight]
  by_cases h1 : k ≤ i
  · have hik : k + (i - k) = i := by omega
    rw [hik]
    by_cases h2 : i < 64
    · simp [h1, h2]
    · have hxi : x.testBit i = false := by
        apply Nat.testBit_lt_two_pow
        exact lt_of_lt_of_le hx (Nat.pow_le_pow_right (by decide) (by omega))
      simp [hxi]
  · simp [h1]

theorem malloc_aligned_eq (malloc : Nat → Nat) (size k : Nat) (hk : k < 64)
    (hp : malloc ((size + 2 ^ k + (2 ^ 64 - 1)) % 2 ^ 64) ≠ 0)
    (hov : malloc ((size + 2 ^ k + (2 ^ 64 - 1)) % 2 ^ 64) + 2 ^ k - 1 < 2 ^ 64) :
    malloc_aligned malloc size (2 ^ k) =
      some (2 ^ k * ((malloc ((size + 2 ^ k + (2 ^ 64 - 1)) % 2 ^ 64) + 2 ^ k - 1) / 2 ^ k)) := by
  have hkpos : 0 < 2 ^ k := Nat.two_pow_pos k
  have hklt : 2 ^ k < 2 ^ 64 := Nat.pow_lt_pow_right (by decide) hk
  unfold malloc_aligned
  rw [if_neg hp]
  generalize malloc ((size + 2 ^ k + (2 ^ 64 - 1)) % 2 ^ 64) = p at hov ⊢
  have h1 : (p + 2 ^ k + (2 ^ 64 - 1)) % 2 ^ 64 = p + 2 ^ k - 1 := by
    have : p + 2 ^ k + (2 ^ 64 - 1) = (p + 2 ^ k - 1) + 2 ^ 64 := by omega
    rw [this, Nat.add_mod_right, Nat.mod_eq_of_lt hov]
  have h2 : (2 ^ k + (2 ^ 64 - 1)) % 2 ^ 64 = 2 ^ k - 1 := by
    have : 2 ^ k + (2 ^ 64 - 1) = (2 ^ k - 1) + 2 ^ 64 := by omega
    rw [this, Nat.add_mod_right, Nat.mod_eq_of_lt (by omega)]
  rw [h1, h2, and_mask_eq _ k hov hk]

theorem takeWhile_eq_take_of_first (sym : List Int) : ∀ (s : Nat), s < sym.length →
    sym.getD s 0 = -1 → (∀ i, i < s → sym.getD i 0 ≠ -1) →
    sym.takeWhile (fun x => x != -1) = sym.take s := by
  induction sym with
  | nil => intro s hs; simp at hs
  | cons x xs ih =>
    intro s hs hsent hfirst
    cases s with
    | zero =>
      have hx : x = -1 := by simpa using hsent
      simp [hx]
    | succ s =>
      have hx : x ≠ -1 := by simpa using hfirst 0 (by omega)
      have hx2 : (x != -1) = true := by simpa using hx
      rw [List.takeWhile_cons, if_pos hx2, List.take_succ_cons]
      congr 1
      apply ih s (by simpa using hs) (by simpa using hsent)
      intro i hi
      simpa using hfirst (i + 1) (by omega)

theorem map_takeWhile_sym (ft : List threadinfo_t) (f : threadinfo_t → Int) :
    (ft.takeWhile (fun t => f t != -1)).map f = (ft.map f).takeWhile (fun x => x != -1) := by
  induction ft with
  | nil => rfl
  | cons t ts ih =>
    by_cases h : (f t != -1) = true
    · simp only [List.takeWhile_cons, List.map_cons, h, if_true, ih]
    · simp only [List.takeWhile_cons, List.map_cons, h, if_false, List.map_nil]
      simp

theorem sym_ids_found_length_card (sym : List Int) :
    (sym_ids_found sym).length = (sym.takeWhile (fun x => x != -1)).toFinset.card := by
  unfold sym_ids_found
  rw [first_seen_length_card _ _ List.nodup_nil]
  simp

theorem getD_map_sym (ft : List threadinfo_t) (f : threadinfo_t → Int) (i : Nat)
    (hi : i < ft.length) : (ft.map f).getD i 0 = f (ft.getD i default) := by
  rw [List.getD_eq_getElem _ _ (by simpa using hi), List.getD_eq_getElem _ _ hi, List.getElem_map]

theorem int_bit_neg_one (k : Nat) : int_bit (-1) k = true := by
  rw [int_bit_eq_testBit]
  exact testBit_negSucc 0 k ▸ by simp

theorem num_threads_per_core_eq_card (ft : List threadinfo_t) (hn : ft.length ≤ 32) :
    num_threads_per_core ft =
      ((Finset.range ft.length).filter
        (fun i => (ft.getD 0 default).thread_siblings.testBit i = true)).card := by
  by_cases h0 : 0 < ft.length
  · rw [num_threads_per_core_eq ft h0]
    congr 1
    apply Finset.filter_congr
    intro i hi
    have hi2 : i < 32 := by have := Finset.mem_range.mp hi; omega
    unfold one_shl_and
    rw [Nat.mod_eq_of_lt hi2, int_bit_eq_testBit]
  · have hnil : ft = [] := List.eq_nil_of_length_eq_zero (by omega)
    subst hnil
    rfl

theorem readline_loop_pending (maxlen : Nat) : ∀ (pending : List Char) (fuel n : Nat)
    (stored : List Char), (∀ c ∈ pending, c ≠ '\n') → n + pending.length < maxlen →
    pending.length < fuel → 1 ≤ n → (n ≠ 1 ∨ pending ≠ []) →
    readline_loop maxlen fuel n stored { pending := pending, file := [] } =
      Sum.inr (n + pending.length, stored ++ pending, { pending := [], file := [] }) := by
  intro pending
  induction pending with
  | nil =>
    intro fuel n stored _ hn hfuel _ hne
    cases fuel with
    | zero => simp at hfuel
    | succ fuel =>
      have hn1 : n ≠ 1 := by
        rcases hne with h | h
        · exact h
        · exact absurd rfl h
      have hlt : n < maxlen := by simpa using hn
      simp [readline_loop, buffered_read, hlt, hn1]
  | cons c cs ih =>
    intro fuel n stored hnl hn hfuel hn1 _
    cases fuel with
    | zero => simp at hfuel
    | succ fuel =>
      have hc : c ≠ '\n' := hnl c (List.mem_cons_self _ _)
      have hcons : (c :: cs).length = cs.length + 1 := rfl
      rw [hcons] at hn hfuel
      have hlt : n < maxlen := by omega
      rw [readline_loop, if_pos hlt]
      simp only [buffered_read, if_neg hc]
      rw [ih fuel (n + 1) (stored ++ [c]) (fun x hx => hnl x (List.mem_cons_of_mem _ hx))
        (by omega) (by omega) (by omega) (Or.inl (by omega))]
      simp only [List.length_cons, List.append_assoc, List.singleton_append]
      congr 2
      omega

theorem readline_without_newline (content : List Char) (maxlen : Nat)
    (hne : content ≠ []) (hnl : ∀ c ∈ content, c ≠ '\n') (hlen : content.length + 1 < maxlen) :
    (readline { pending := content, file := [] } maxlen).ret = (content.length : Int) + 1 ∧
    (readline { pending := content, file := [] } maxlen).stored = content := by
  unfold readline
  rw [readline_loop_pending maxlen content maxlen 1 [] hnl (by omega) (by omega) (le_refl 1) (Or.inr hne)]
  have hlast : content.getLast? ≠ some '\n' := by
    intro h
    exact hnl _ (List.mem_of_getLast?_eq_some h) rfl
  simp only [List.nil_append, if_neg hlast]
  constructor
  · push_cast
    ring
  · trivial

theorem hex_digit_table :
    ∀ c ∈ "0123456789".toList ++ "abcdef".toList ++ "ABCDEF".toList,
      digit_value c = hex_digit_value c ∧ (hex_digit_value c).getD 16 < 16 ∧
      c ≠ NUL ∧ c ≠ ',' ∧ c ≠ '\n' ∧ c ≠ 'x' ∧ c ≠ 'X' ∧ c ≠ '-' ∧ c ≠ '+' ∧
      isspace c = false := by
  decide

theorem hex_digit_mem (c : Char) (h : (hex_digit_value c).isSome = true) :
    c ∈ "0123456789".toList ++ "abcdef".toList ++ "ABCDEF".toList := by
  unfold hex_digit_value at h
  rw [List.mem_append, List.mem_append]
  split at h
  · rename_i h1; exact Or.inl (Or.inl h1)
  · split at h
    · rename_i h2; exact Or.inl (Or.inr h2)
    · split at h
      · rename_i h3; exact Or.inr h3
      · cases h

theorem hex_digit_value_model (c : Char) (d : Nat) (h : hex_digit_value c = some d) :
    digit_value c = some d ∧ d < 16 := by
  have ht := hex_digit_table c (hex_digit_mem c (by rw [h]; rfl))
  rw [h] at ht
  exact ⟨ht.1, ht.2.1⟩

theorem hex_digit_ne (c : Char) (h : (hex_digit_value c).isSome = true) :
    c ≠ NUL ∧ c ≠ ',' ∧ c ≠ '\n' ∧ c ≠ 'x' ∧ c ≠ 'X' ∧ c ≠ '-' ∧ c ≠ '+' ∧ isspace c = false :=
  (hex_digit_table c (hex_digit_mem c h)).2.2

theorem parse_digits_run (base : Nat) (v : Char → Nat) (rest : List Char)
    (hrest : ∀ c, rest.head? = some c → ∀ d, digit_value c = some d → base ≤ d) :
    ∀ (ds : List Char) (acc : Nat), (∀ c ∈ ds, digit_value c = some (v c) ∧ v c < base) →
    parse_digits base (ds ++ rest) acc =
      acc * base ^ ds.length + Nat.ofDigits base (ds.reverse.map v) := by
  intro ds
  induction ds with
  | nil =>
    intro acc _
    simp only [List.nil_append, List.length_nil, pow_zero, Nat.mul_one, List.reverse_nil,
      List.map_nil, Nat.ofDigits_nil, Nat.add_zero]
    cases rest with
    | nil => rfl
    | cons r rs =>
      unfold parse_digits
      cases hr : digit_value r with
      | none => rfl
      | some d =>
        have := hrest r rfl d hr
        simp only
        rw [if_neg (by omega)]
  | cons c cs ih =>
    intro acc h
    have hc := h c (List.mem_cons_self _ _)
    rw [List.cons_append, parse_digits]
    simp only [hc.1]
    rw [if_pos hc.2, ih _ (fun x hx => h x (List.mem_cons_of_mem _ hx))]
    rw [List.reverse_cons, List.map_append, Nat.ofDigits_append, List.length_map,
      List.length_reverse, List.map_singleton, Nat.ofDigits_singleton, List.length_cons]
    ring

theorem trim_keeps_nul (src : List Char) (tc : Char) (hnul : NUL ∈ src)
    (hlen : (c_string src).length < 2 ^ 32) :
    NUL ∈ trim src tc ∧ c_string (trim src tc) = (c_string src).filter (fun c => c != tc) := by
  obtain ⟨T, _, h2⟩ := trim_spec src tc hnul hlen
  have hne : ∀ c ∈ (c_string src).filter (fun c => c != tc), c ≠ NUL :=
    fun c hc => c_string_ne_nul src c (List.mem_filter.mp hc).1
  rw [h2, c_string_append_nul _ _ hne]
  exact ⟨List.mem_append.mpr (Or.inr (List.mem_cons_self _ _)), rfl⟩

theorem c_string_foldl_trim (tcs : List Char) : ∀ (buf : List Char), NUL ∈ buf →
    (c_string buf).length < 2 ^ 32 →
    c_string (tcs.foldl trim buf) =
      tcs.foldl (fun s tc => s.filter (fun c => c != tc)) (c_string buf) := by
  induction tcs with
  | nil => intro buf _ _; rfl
  | cons tc tcs ih =>
    intro buf hnul hlen
    have h := trim_keeps_nul buf tc hnul hlen
    rw [List.foldl_cons, List.foldl_cons, ih _ h.1, h.2]
    rw [h.2]
    exact lt_of_le_of_lt (List.length_filter_le _ _) hlen

theorem read_buf_nul (data : List Char) : NUL ∈ read_buf data :=
  List.mem_append.mpr (Or.inr (List.mem_singleton.mpr rfl))

theorem c_string_read_buf (data : List Char) :
    c_string (read_buf data) = c_string (data.take 1024) := by
  unfold read_buf c_string
  rw [List.takeWhile_append]
  split
  · rename_i h
    have : List.takeWhile (fun c => c != NUL) [NUL] = [] := by decide
    rw [this, List.append_nil]
    exact ((List.takeWhile_sublist _).eq_of_length h).symm
  · rfl

theorem c_string_of_no_nul (s : List Char) (h : ∀ c ∈ s, c ≠ NUL) : c_string s = s := by
  unfold c_string
  rw [List.takeWhile_eq_self_iff]
  intro c hc
  simpa using h c hc

theorem c_string_length_le (s : List Char) : (c_string s).length ≤ s.length :=
  (List.takeWhile_sublist _).length_le

theorem read_int_eq (data : List Char) (tcs : List Char) (base : Nat) :
    read_int (some data) tcs base =
      to_int (strtol (tcs.foldl (fun s tc => s.filter (fun c => c != tc))
        (c_string (data.take 1024))) base) := by
  unfold read_int
  simp only
  rw [c_string_foldl_trim tcs _ (read_buf_nul data), c_string_read_buf]
  rw [c_string_read_buf]
  have h1 := c_string_length_le (data.take 1024)
  have h2 : (data.take 1024).length ≤ 1024 := by simp
  have : (1024 : Nat) < 2 ^ 32 := by decide
  omega

theorem strtol_of_plain (s : List Char) (base : Nat)
    (hsp : ∀ c, s.head? = some c → isspace c = false ∧ c ≠ '-' ∧ c ≠ '+')
    (hx : base = 16 → ∀ c, s.tail.head? = some c → c ≠ 'x' ∧ c ≠ 'X') :
    strtol s base = min ((parse_digits base s 0 : Nat) : Int) (2 ^ 63 - 1) := by
  cases s with
  | nil => simp [strtol]
  | cons c cs =>
    have h1 := hsp c rfl
    have hdrop : (c :: cs).dropWhile isspace = c :: cs := by
      rw [List.dropWhile_cons, h1.1]
      rfl
    have hm : (some c == some '-') = false := by simpa using h1.2.1
    have hp : (some c == some '+') = false := by simpa using h1.2.2
    unfold strtol
    simp only [hdrop, List.head?_cons, hm, hp, Bool.or_self, Bool.false_eq_true, if_false]
    split
    · rename_i x rest heq
      rw [if_neg]
      rintro ⟨hb, hxx⟩
      have hcs : cs = x :: rest := (List.cons.inj heq).2
      have := hx hb x (by simp [hcs])
      rcases hxx with h | h
      · exact this.1 h
      · exact this.2 h
    · rfl

theorem strtol_hex (ds : List Char) (h : ∀ c ∈ ds, (hex_digit_value c).isSome = true) :
    strtol ds 16 = min (hex_number ds : Int) (2 ^ 63 - 1) := by
  rw [strtol_of_plain]
  · have hrun := parse_digits_run 16 (fun c => (hex_digit_value c).getD 0) [] (by simp) ds 0
      (fun c hc => by
        obtain ⟨d, hd⟩ := Option.isSome_iff_exists.mp (h c hc)
        have := hex_digit_value_model c d hd
        simp only [hd, Option.getD_some]
        exact this)
    rw [List.append_nil, Nat.zero_mul, Nat.zero_add] at hrun
    rw [hrun]
    rfl
  · intro c hc
    have hmem : c ∈ ds := List.mem_of_mem_head? hc
    have := hex_digit_ne c (h c hmem)
    exact ⟨this.2.2.2.2.2.2.2, this.2.2.2.2.2.1, this.2.2.2.2.2.2.1⟩
  · intro _ c hc
    have hmem : c ∈ ds := List.mem_of_mem_tail (List.mem_of_mem_head? hc)
    have := hex_digit_ne c (h c hmem)
    exact ⟨this.2.2.2.1, this.2.2.2.2.1⟩

theorem to_int_of_small (n : Nat) (h : n < 2 ^ 31) :
    to_int (min ((n : Nat) : Int) (2 ^ 63 - 1)) = (n : Int) := by
  have h2 : ((n : Nat) : Int) < 2 ^ 31 := by exact_mod_cast h
  have h0 : (0 : Int) ≤ (n : Int) := Int.natCast_nonneg n
  rw [min_eq_left (by omega)]
  unfold to_int
  omega

theorem filter_bitmap_text (groups : List (List Char))
    (h : ∀ g ∈ groups, ∀ c ∈ g, (hex_digit_value c).isSome = true) :
    ((bitmap_text groups).filter (fun c => c != ',')).filter (fun c => c != '\n') =
      groups.flatten ∧
    ((bitmap_text groups).filter (fun c => c != '\n')).filter (fun c => c != ',') =
      groups.flatten := by
  have hkeep : ∀ c ∈ groups.flatten, (c != ',') = true ∧ (c != '\n') = true := by
    intro c hc
    obtain ⟨g, hg, hcg⟩ := List.mem_flatten.mp hc
    have := hex_digit_ne c (h g hg c hcg)
    exact ⟨by simpa using this.2.1, by simpa using this.2.2.1⟩
  have hcomma : ([','].intercalate groups).filter (fun c => c != ',') = groups.flatten := by
    clear h
    induction groups with
    | nil => rfl
    | cons g gs ih =>
      cases gs with
      | nil =>
        have hk : ∀ c ∈ g, (c != ',') = true := fun c hc =>
          (hkeep c (by simp [hc])).1
        simp [List.intercalate, List.intersperse, List.filter_eq_self.mpr hk]
      | cons g2 gs2 =>
        have hk : ∀ c ∈ g, (c != ',') = true := fun c hc =>
          (hkeep c (by simp [hc])).1
        have ih2 := ih (fun c hc => hkeep c (by
          rw [List.flatten_cons, List.mem_append]; exact Or.inr hc))
        simp only [List.intercalate, List.intersperse, List.flatten_cons, List.filter_append] at ih2 ⊢
        rw [List.filter_eq_self.mpr hk, ih2]
        simp
  unfold bitmap_text
  constructor
  · rw [List.filter_append, hcomma, List.filter_append,
      List.filter_eq_self.mpr (fun c hc => (hkeep c hc).2)]
    simp
  · rw [List.filter_filter, List.filter_congr (fun c _ => Bool.and_comm _ _), ← List.filter_filter,
      List.filter_append, hcomma, List.filter_append,
      List.filter_eq_self.mpr (fun c hc => (hkeep c hc).2)]
    simp

theorem hex_number_append (a b : List Char) :
    hex_number (a ++ b) = hex_number a * 16 ^ b.length + hex_number b := by
  unfold hex_number
  rw [List.reverse_append, List.map_append, Nat.ofDigits_append, List.length_map,
    List.length_reverse]
  ring

theorem hex_number_zeros (n : Nat) : hex_number (List.replicate n '0') = 0 := by
  induction n with
  | zero => rfl
  | succ n ih =>
    have h1 : hex_number ['0'] = 0 := by decide
    rw [List.replicate_succ, ← List.singleton_append, hex_number_append, ih, h1]
    simp

theorem mem_bitmap_text (groups : List (List Char))
    (h : ∀ g ∈ groups, ∀ c ∈ g, (hex_digit_value c).isSome = true) :
    ∀ c ∈ bitmap_text groups, c ≠ NUL := by
  intro c hc hnul
  by_cases h1 : c = ','
  · rw [h1] at hnul; exact absurd hnul (by decide)
  · by_cases h2 : c = '\n'
    · rw [h2] at hnul; exact absurd hnul (by decide)
    · have hmem : c ∈ ((bitmap_text groups).filter (fun c => c != ',')).filter
          (fun c => c != '\n') := by
        rw [List.mem_filter, List.mem_filter]
        exact ⟨⟨hc, by simpa using h1⟩, by simpa using h2⟩
      rw [(filter_bitmap_text groups h).1] at hmem
      obtain ⟨g, hg, hcg⟩ := List.mem_flatten.mp hmem
      exact (hex_digit_ne c (h g hg c hcg)).1 hnul

theorem read_int_bitmap (groups : List (List Char))
    (h : ∀ g ∈ groups, ∀ c ∈ g, (hex_digit_value c).isSome = true)
    (hlen : (bitmap_text groups).length < 1024) (hfit : hex_number groups.flatten < 2 ^ 31) :
    read_int (some (bitmap_text groups)) [',', '\n'] 16 = (hex_number groups.flatten : Int) := by
  rw [read_int_eq, List.take_of_length_le (by omega), c_string_of_no_nul _ (mem_bitmap_text groups h)]
  simp only [List.foldl_cons, List.foldl_nil]
  rw [(filter_bitmap_text groups h).1, strtol_hex, to_int_of_small _ hfit]
  intro c hc
  obtain ⟨g, hg, hcg⟩ := List.mem_flatten.mp hc
  exact h g hg c hcg

theorem bitmap_text_singleton (g : List Char) : bitmap_text [g] = g ++ ['\n'] := by
  simp [bitmap_text, List.intercalate, List.intersperse]

theorem read_int_zeros (n : Nat) (hn : n = 1024) (rest : List Char) :
    read_int (some (List.replicate n '0' ++ rest)) [',', '\n'] 16 = 0 := by
  have htake : (List.replicate n '0' ++ rest).take 1024 = List.replicate n '0' := by
    rw [← hn]
    exact List.take_left' (List.length_replicate n '0')
  have hz : ∀ c ∈ List.replicate n '0', c = '0' := fun c hc => (List.mem_replicate.mp hc).2
  rw [read_int_eq, htake, c_string_of_no_nul _ (fun c hc => by rw [hz c hc]; decide)]
  simp only [List.foldl_cons, List.foldl_nil]
  have hf1 : (List.replicate n '0').filter (fun c => c != ',') = List.replicate n '0' :=
    List.filter_eq_self.mpr (fun c hc => by rw [hz c hc]; decide)
  have hf2 : (List.replicate n '0').filter (fun c => c != '\n') = List.replicate n '0' :=
    List.filter_eq_self.mpr (fun c hc => by rw [hz c hc]; decide)
  rw [hf1, hf2, strtol_hex _ (fun c hc => by rw [hz c hc]; decide), hex_number_zeros]
  decide

theorem read_int_long_mask :
    read_int (some (bitmap_text long_mask_groups)) [',', '\n'] 16 = 0 := by
  rw [long_mask_groups, bitmap_text_singleton, List.append_assoc]
  exact read_int_zeros 1024 rfl _

theorem fills_buf_long_mask : fills_buf (some (bitmap_text long_mask_groups)) = true := by
  have h : 1024 ≤ (bitmap_text long_mask_groups).length := by
    rw [long_mask_groups, bitmap_text_singleton, List.length_append, List.length_append,
      List.length_replicate]
    decide
  simp only [fills_buf, h, decide_True]

theorem strstr_first (label : List Char) (hlabel : label ≠ []) (rest : List Char) :
    ∀ (pre : List Char),
    (∀ k, k < pre.length → ((pre ++ (label ++ rest)).drop k).take label.length ≠ label) →
    strstr (pre ++ (label ++ rest)) label = some (label ++ rest) := by
  intro pre
  induction pre with
  | nil =>
    intro _
    cases label with
    | nil => exact absurd rfl hlabel
    | cons c cs =>
      rw [List.nil_append, List.cons_append, strstr, ← List.cons_append,
        List.take_left' rfl, if_pos rfl]
  | cons p ps ih =>
    intro h
    have h0 := h 0 (by simp)
    rw [List.drop_zero] at h0
    rw [List.cons_append, strstr, ← List.cons_append, if_neg h0]
    apply ih
    intro k hk
    have := h (k + 1) (by simpa using hk)
    simpa using this

theorem strtol_skip_blanks (base : Nat) (s : List Char) :
    ∀ (blanks : List Char), (∀ c ∈ blanks, isspace c = true) →
    strtol (blanks ++ s) base = strtol s base := by
  intro blanks
  induction blanks with
  | nil => intro _; rfl
  | cons b bs ih =>
    intro h
    rw [← ih (fun c hc => h c (List.mem_cons_of_mem _ hc))]
    have hb := h b (List.mem_cons_self _ _)
    unfold strtol
    rw [List.cons_append, List.dropWhile_cons, if_pos hb]

theorem digit_value_of_isDigit (c : Char) (h : c.isDigit = true) :
    digit_value c = some (c.toNat - '0'.toNat) ∧ c.toNat - '0'.toNat < 10 ∧
    isspace c = false ∧ c ≠ '-' ∧ c ≠ '+' ∧ c ≠ NUL := by
  have hv : 48 ≤ c.val ∧ c.val ≤ 57 := by
    simpa [Char.isDigit] using h
  have hn : 48 ≤ c.toNat ∧ c.toNat ≤ 57 := ⟨hv.1, hv.2⟩
  have hle : '0' ≤ c ∧ c ≤ '9' := ⟨hv.1, hv.2⟩
  have hne : ∀ d : Char, (d.toNat < 48 ∨ 57 < d.toNat) → c ≠ d := by
    intro d hd hcd
    rw [hcd] at hn
    omega
  refine ⟨?_, ?_, ?_, hne '-' (by decide), hne '+' (by decide), hne NUL (by decide)⟩
  · unfold digit_value
    rw [if_pos hle]
  · have : '0'.toNat = 48 := rfl
    omega
  · unfold isspace
    have h1 := hne ' ' (by decide)
    have h2 := hne '\t' (by decide)
    have h3 := hne '\n' (by decide)
    have h4 := hne (Char.ofNat 11) (by decide)
    have h5 := hne (Char.ofNat 12) (by decide)
    have h6 := hne '\r' (by decide)
    simp [h1, h2, h3, h4, h5, h6]

theorem digit_value_of_not_isDigit (c : Char) (h : c.isDigit = false) (d : Nat)
    (hd : digit_value c = some d) : 10 ≤ d := by
  have hv : ¬ (48 ≤ c.val ∧ c.val ≤ 57) := by
    intro hh
    have : c.isDigit = true := by simpa [Char.isDigit] using hh
    rw [h] at this
    cases this
  have hle : ¬ ('0' ≤ c ∧ c ≤ '9') := fun hh => hv ⟨hh.1, hh.2⟩
  unfold digit_value at hd
  rw [if_neg hle] at hd
  split at hd
  · cases hd; omega
  · split at hd
    · cases hd; omega
    · cases hd

theorem c_string_append_of_no_nul (P R : List Char) (h : ∀ c ∈ P, c ≠ NUL) :
    c_string (P ++ R) = P ++ c_string R := by
  unfold c_string
  rw [List.takeWhile_append_of_pos]
  intro c hc
  simpa using h c hc

theorem head_c_string_take (rest : List Char) (k : Nat) (c : Char)
    (h : (c_string (rest.take k)).head? = some c) : rest.head? = some c := by
  cases rest with
  | nil => simp [c_string] at h
  | cons r rs =>
    cases k with
    | zero => simp [c_string] at h
    | succ k =>
      rw [List.take_succ_cons] at h
      unfold c_string at h
      rw [List.takeWhile_cons] at h
      split at h
      · simpa using h
      · simp at h

theorem read_meminfo_take (data : List Char) :
    read_meminfo data = read_meminfo (data.take 1024) := by
  unfold read_meminfo read_buf
  rw [List.take_take, Nat.min_self]

theorem to_ulong_scaled (n : Nat) (h : n * 1024 < 2 ^ 64) :
    to_ulong (min ((n : Nat) : Int) (2 ^ 63 - 1) * 1024) = n * 1024 := by
  have h1 : ((n : Nat) : Int) * 1024 < 2 ^ 64 := by exact_mod_cast h
  have h0 : (0 : Int) ≤ (n : Int) := Int.natCast_nonneg n
  rw [min_eq_left (by omega)]
  unfold to_ulong
  rw [Int.emod_eq_of_lt (by omega) h1]
  have : ((n : Nat) : Int) * 1024 = ((n * 1024 : Nat) : Int) := by push_cast; rfl
  rw [this, Int.toNat_ofNat]

theorem read_meminfo_value (pre blanks digits rest : List Char)
    (hpre : ∀ c ∈ pre, c ≠ NUL)
    (hfirst : ∀ k, k < pre.length →
      ((pre ++ "MemTotal:".toList).drop k).take 9 ≠ "MemTotal:".toList)
    (hblanks : ∀ c ∈ blanks, c = ' ' ∨ c = '\t')
    (hne : digits ≠ []) (hdigits : ∀ c ∈ digits, c.isDigit = true)
    (hrest : ∀ c, rest.head? = some c → c.isDigit = false)
    (hlen : (pre ++ "MemTotal:".toList ++ blanks ++ digits).length ≤ 1024)
    (hfit : dec_number digits * 1024 < 2 ^ 64) :
    read_meminfo (pre ++ "MemTotal:".toList ++ blanks ++ digits ++ rest) =
      some (dec_number digits * 1024) := by
  have hlabel : ∀ c ∈ "MemTotal:".toList, c ≠ NUL := by decide
  have hbl : ∀ c ∈ blanks, c ≠ NUL ∧ isspace c = true := by
    intro c hc
    rcases hblanks c hc with h | h <;> rw [h] <;> decide
  have hP : ∀ c ∈ pre ++ "MemTotal:".toList ++ blanks ++ digits, c ≠ NUL := by
    intro c hc
    simp only [List.mem_append] at hc
    rcases hc with ((hc | hc) | hc) | hc
    · exact hpre c hc
    · exact hlabel c hc
    · exact (hbl c hc).1
    · exact (digit_value_of_isDigit c (hdigits c hc)).2.2.2.2.2
  have hS : c_string (read_buf (pre ++ "MemTotal:".toList ++ blanks ++ digits ++ rest)) =
      pre ++ ("MemTotal:".toList ++ (blanks ++ (digits ++
        c_string (rest.take (1024 - (pre ++ "MemTotal:".toList ++ blanks ++ digits).length))))) := by
    rw [c_string_read_buf, List.take_append_eq_append_take, List.take_of_length_le hlen,
      c_string_append_of_no_nul _ _ hP]
    simp only [List.append_assoc]
  have htail : ∀ c,
      (c_string (rest.take
        (1024 - (pre ++ "MemTotal:".toList ++ blanks ++ digits).length))).head? = some c →
      ∀ d, digit_value c = some d → 10 ≤ d :=
    fun c hc d hd => digit_value_of_not_isDigit c (hrest c (head_c_string_take rest _ c hc)) d hd
  generalize c_string (rest.take (1024 - (pre ++ "MemTotal:".toList ++ blanks ++ digits).length))
    = tail at hS htail
  unfold read_meminfo
  rw [hS, strstr_first _ (by decide) _ pre]
  · have hptr : (("MemTotal:".toList ++ (blanks ++ (digits ++ tail))).dropWhile
        (fun c => c != ':')).tail = blanks ++ (digits ++ tail) := rfl
    simp only [hptr]
    rw [strtol_skip_blanks _ _ _ (fun c hc => (hbl c hc).2), strtol_of_plain]
    · have hrun := parse_digits_run 10 (fun c => c.toNat - '0'.toNat) tail htail digits 0
        (fun c hc => ⟨(digit_value_of_isDigit c (hdigits c hc)).1,
          (digit_value_of_isDigit c (hdigits c hc)).2.1⟩)
      rw [Nat.zero_mul, Nat.zero_add] at hrun
      rw [hrun]
      exact congrArg some (to_ulong_scaled _ hfit)
    · intro c hc
      cases digits with
      | nil => exact absurd rfl hne
      | cons d ds =>
        have hcd : c = d := by simpa using hc.symm
        have := digit_value_of_isDigit c (hdigits c (by rw [hcd]; exact List.mem_cons_self _ _))
        exact ⟨this.2.2.1, this.2.2.2.1, this.2.2.2.2.1⟩
    · intro h
      exact absurd h (by decide)
  · intro k hk
    have h1 : k ≤ (pre ++ "MemTotal:".toList).length := by
      rw [List.length_append]; omega
    have h2 : pre ++ ("MemTotal:".toList ++ (blanks ++ (digits ++ tail))) =
        (pre ++ "MemTotal:".toList) ++ (blanks ++ (digits ++ tail)) := by
      simp only [List.append_assoc]
    have h9 : "MemTotal:".toList.length = 9 := rfl
    rw [h2, List.drop_append_of_le_length h1, List.take_append_of_le_length, h9]
    · exact hfirst k hk
    · rw [List.length_drop, List.length_append, h9]
      omega

theorem blanks_window_ne (n k : Nat) (hk : k < n) (label : List Char) (m : Nat)
    (hm : 0 < m) (hl : label.head? ≠ some ' ') :
    ((List.replicate n ' ' ++ label).drop k).take m ≠ label := by
  have h1 : (List.replicate n ' ' ++ label).drop k =
      ' ' :: (List.replicate (n - k - 1) ' ' ++ label) := by
    rw [List.drop_append_of_le_length (by simp; omega), List.drop_replicate]
    have : n - k = (n - k - 1) + 1 := by omega
    rw [this, List.replicate_succ]
    simp
  rw [h1]
  cases m with
  | zero => omega
  | succ m =>
    rw [List.take_succ_cons]
    intro h
    rw [← h] at hl
    exact hl rfl

theorem read_meminfo_cut (n : Nat) (hn : n = 1010) :
    read_meminfo (List.replicate n ' ' ++ "MemTotal: 123456 kB\n".toList) =
      some (1234 * 1024) := by
  have htake : (List.replicate n ' ' ++ "MemTotal: 123456 kB\n".toList).take 1024 =
      List.replicate n ' ' ++ "MemTotal:".toList ++ [' '] ++ "1234".toList ++ [] := by
    rw [List.take_append_eq_append_take, List.take_of_length_le (by simp; omega),
      List.length_replicate, hn]
    simp only [List.append_assoc]
    rfl
  rw [read_meminfo_take, htake]
  have hval : dec_number "1234".toList = 1234 := by decide
  rw [← hval]
  apply read_meminfo_value
  · intro c hc
    rw [(List.mem_replicate.mp hc).2]
    decide
  · intro k hk
    rw [List.length_replicate] at hk
    exact blanks_window_ne n k hk _ 9 (by decide) (by decide)
  · decide
  · decide
  · decide
  · intro c hc
    cases hc
  · simp only [List.length_append, List.length_replicate, hn]
    decide
  · rw [hval]
    decide

theorem galois_lfsr_eq (x : Nat) :
    galois_lfsr x = (x >>> 1) ^^^ (if x % 2 = 1 then 0xd0000001 else 0) := by
  unfold galois_lfsr
  rw [Nat.and_one_is_mod]
  rcases Nat.mod_two_eq_zero_or_one x with h | h
  · rw [h, if_neg (by decide)]
    rfl
  · rw [h, if_pos rfl]
    rfl

theorem shiftRight_one_xor (a b : Nat) : (a ^^^ b) >>> 1 = (a >>> 1) ^^^ (b >>> 1) := by
  apply Nat.eq_of_testBit_eq
  intro i
  simp only [Nat.testBit_shiftRight, Nat.testBit_xor]

theorem galois_lfsr_xor (a b : Nat) :
    galois_lfsr (a ^^^ b) = galois_lfsr a ^^^ galois_lfsr b := by
  rw [galois_lfsr_eq, galois_lfsr_eq a, galois_lfsr_eq b, shiftRight_one_xor,
    Nat.xor_mod_two_eq]
  generalize a >>> 1 = x
  generalize b >>> 1 = y
  rcases Nat.mod_two_eq_zero_or_one a with ha | ha <;>
    rcases Nat.mod_two_eq_zero_or_one b with hb | hb
  · have : (a + b) % 2 = 0 := by omega
    rw [ha, hb, this]
    simp
  · have : (a + b) % 2 = 1 := by omega
    rw [ha, hb, this]
    simp [Nat.xor_assoc]
  · have : (a + b) % 2 = 1 := by omega
    rw [ha, hb, this]
    simp only [if_true, if_neg (show ¬ (0 = 1) by decide), Nat.xor_zero]
    rw [Nat.xor_assoc, Nat.xor_comm y, ← Nat.xor_assoc]
  · have : (a + b) % 2 = 0 := by omega
    rw [ha, hb, this]
    simp only [if_true, if_neg (show ¬ (0 = 1) by decide), Nat.xor_zero]
    rw [Nat.xor_assoc, ← Nat.xor_assoc 3489660929, Nat.xor_comm 3489660929 y,
      Nat.xor_assoc y, Nat.xor_self, Nat.xor_zero]

theorem galois_lfsr_lt (v : Nat) (hv : v < 2 ^ 32) : galois_lfsr v < 2 ^ 32 := by
  rw [galois_lfsr_eq]
  apply Nat.xor_lt_two_pow
  · rw [Nat.shiftRight_eq_div_pow]
    omega
  · split <;> decide

theorem galois_lfsr_zero : galois_lfsr 0 = 0 := by decide

theorem galois_lfsr_eq_zero (v : Nat) (hv : v < 2 ^ 32) (h : galois_lfsr v = 0) : v = 0 := by
  rw [galois_lfsr_eq, Nat.xor_eq_zero, Nat.shiftRight_eq_div_pow] at h
  split at h <;> omega

theorem galois_lfsr_inj (a b : Nat) (ha : a < 2 ^ 32) (hb : b < 2 ^ 32)
    (h : galois_lfsr a = galois_lfsr b) : a = b := by
  have h1 : galois_lfsr (a ^^^ b) = 0 := by
    rw [galois_lfsr_xor, h, Nat.xor_self]
  exact Nat.xor_eq_zero.mp (galois_lfsr_eq_zero _ (Nat.xor_lt_two_pow ha hb) h1)

theorem xor_linear_map_zero {f : Nat → Nat} (hf : xor_linear f) : f 0 = 0 := by
  have h := hf.map_xor 0 0
  rw [Nat.xor_self] at h
  rw [h, Nat.xor_self]

theorem xor_linear_lfsr : xor_linear galois_lfsr := ⟨galois_lfsr_xor, galois_lfsr_lt⟩

theorem xor_linear_comp {f g : Nat → Nat} (hf : xor_linear f) (hg : xor_linear g) :
    xor_linear (f ∘ g) :=
  ⟨fun a b => by simp only [Function.comp_apply, hg.map_xor, hf.map_xor],
   fun v hv => hf.map_lt _ (hg.map_lt v hv)⟩

theorem xor_linear_iterate {f : Nat → Nat} (hf : xor_linear f) (n : Nat) :
    xor_linear (f^[n]) := by
  induction n with
  | zero => exact ⟨fun _ _ => rfl, fun _ hv => hv⟩
  | succ n ih =>
    rw [Function.iterate_succ]
    exact xor_linear_comp ih hf

theorem mod_two_pow_succ_xor (v k : Nat) :
    v % 2 ^ (k + 1) = (v % 2 ^ k) ^^^ (if v.testBit k then 2 ^ k else 0) := by
  apply Nat.eq_of_testBit_eq
  intro i
  rw [Nat.testBit_xor, Nat.testBit_mod_two_pow, Nat.testBit_mod_two_pow]
  by_cases hik : i = k
  · subst hik
    cases hb : v.testBit i <;> simp [hb, Nat.testBit_two_pow_self]
  · have h2 : (if v.testBit k = true then 2 ^ k else 0).testBit i = false := by
      split
      · exact Nat.testBit_two_pow_of_ne (fun h => hik h.symm)
      · exact Nat.zero_testBit i
    rw [h2, Bool.xor_false]
    by_cases h1 : i < k
    · have : i < k + 1 := by omega
      simp [h1, this]
    · have : ¬ i < k + 1 := by omega
      simp [h1, this]

theorem lin_apply_fold {f : Nat → Nat} (hf : xor_linear f) (v : Nat) :
    ∀ k, k ≤ 32 →
    (List.range k).foldl
      (fun acc j => if v.testBit j then acc ^^^ (lin_cols f).getD j 0 else acc) 0 =
      f (v % 2 ^ k) := by
  intro k
  induction k with
  | zero =>
    intro _
    simp [Nat.mod_one, xor_linear_map_zero hf]
  | succ k ih =>
    intro hk
    have hcol : (lin_cols f).getD k 0 = f (2 ^ k) :=
      getD_range_map 32 (fun j => f (2 ^ j)) k (by omega)
    rw [List.range_succ, List.foldl_append, ih (by omega), List.foldl_cons, List.foldl_nil,
      mod_two_pow_succ_xor, hcol]
    split
    · rw [hf.map_xor]
    · rw [Nat.xor_zero]

theorem lin_apply_cols {f : Nat → Nat} (hf : xor_linear f) (v : Nat) (hv : v < 2 ^ 32) :
    lin_apply (lin_cols f) v = f v := by
  unfold lin_apply
  rw [lin_apply_fold hf v 32 (le_refl _), Nat.mod_eq_of_lt hv]

theorem lin_comp_cols {f g : Nat → Nat} (hf : xor_linear f) (hg : xor_linear g) :
    lin_comp (lin_cols f) (lin_cols g) = lin_cols (f ∘ g) := by
  unfold lin_comp
  rw [show lin_cols g = (List.range 32).map (fun j => g (2 ^ j)) from rfl,
    show lin_cols (f ∘ g) = (List.range 32).map (fun j => (f ∘ g) (2 ^ j)) from rfl,
    List.map_map]
  apply List.map_congr_left
  intro j hj
  have hj32 : j < 32 := List.mem_range.mp hj
  have hlt : (2 : Nat) ^ j < 2 ^ 32 := Nat.pow_lt_pow_right (by decide) hj32
  simp only [Function.comp_apply]
  exact lin_apply_cols hf _ (hg.map_lt _ hlt)

theorem lfsr_pow2_eq (i : Nat) : lfsr_pow2 i = lin_cols (galois_lfsr^[2 ^ i]) := by
  induction i with
  | zero => rfl
  | succ i ih =>
    have h : 2 ^ (i + 1) = 2 ^ i + 2 ^ i := by
      rw [Nat.pow_succ]
      omega
    rw [lfsr_pow2, ih, lin_comp_cols (xor_linear_iterate xor_linear_lfsr _) (xor_linear_iterate xor_linear_lfsr _),
      h, Function.iterate_add]

theorem lfsr_sequence_lt (k : Nat) : lfsr_sequence k < 2 ^ 32 :=
  (xor_linear_iterate xor_linear_lfsr k).map_lt 1 (by decide)

theorem mod_two_pow_succ_add (k m : Nat) :
    k % 2 ^ (m + 1) = (if k.testBit m then 2 ^ m else 0) + k % 2 ^ m := by
  rw [Nat.mod_pow_succ, Nat.testBit_to_div_mod]
  rcases Nat.mod_two_eq_zero_or_one (k / 2 ^ m) with h | h
  · rw [h]; simp
  · rw [h]; simp; omega

theorem lfsr_jump_fold (k : Nat) : ∀ m, m ≤ 33 →
    (List.range m).foldl
      (fun v i => if k.testBit i then lin_apply (lfsr_pow2 i) v else v) 1 =
      lfsr_sequence (k % 2 ^ m) := by
  intro m
  induction m with
  | zero => intro _; simp [Nat.mod_one, lfsr_sequence]
  | succ m ih =>
    intro hm
    rw [List.range_succ, List.foldl_append, ih (by omega), List.foldl_cons, List.foldl_nil,
      mod_two_pow_succ_add]
    split
    · rw [lfsr_pow2_eq, lin_apply_cols (xor_linear_iterate xor_linear_lfsr _) _ (lfsr_sequence_lt _)]
      unfold lfsr_sequence
      rw [← Function.iterate_add_apply]
    · rw [Nat.zero_add]

theorem lfsr_jump_eq (k : Nat) (hk : k < 2 ^ 33) : lfsr_jump k = lfsr_sequence k := by
  unfold lfsr_jump
  rw [lfsr_jump_fold k 33 (le_refl _), Nat.mod_eq_of_lt hk]

theorem lfsr_jump_values :
    lfsr_jump (2 ^ 32 - 1) = 1 ∧ lfsr_jump ((2 ^ 32 - 1) / 3) ≠ 1 ∧
    lfsr_jump ((2 ^ 32 - 1) / 5) ≠ 1 ∧ lfsr_jump ((2 ^ 32 - 1) / 17) ≠ 1 ∧
    lfsr_jump ((2 ^ 32 - 1) / 257) ≠ 1 ∧ lfsr_jump ((2 ^ 32 - 1) / 65537) ≠ 1 := by
  decide!

theorem lfsr_sequence_values :
    lfsr_sequence (2 ^ 32 - 1) = 1 ∧ lfsr_sequence ((2 ^ 32 - 1) / 3) ≠ 1 ∧
    lfsr_sequence ((2 ^ 32 - 1) / 5) ≠ 1 ∧ lfsr_sequence ((2 ^ 32 - 1) / 17) ≠ 1 ∧
    lfsr_sequence ((2 ^ 32 - 1) / 257) ≠ 1 ∧ lfsr_sequence ((2 ^ 32 - 1) / 65537) ≠ 1 := by
  have h := lfsr_jump_values
  rw [lfsr_jump_eq _ (by decide), lfsr_jump_eq _ (by decide), lfsr_jump_eq _ (by decide),
    lfsr_jump_eq _ (by decide), lfsr_jump_eq _ (by decide), lfsr_jump_eq _ (by decide)] at h
  exact h

theorem prime_factor_of_mersenne_32 (q : Nat) (hq : q.Prime) (h : q ∣ 2 ^ 32 - 1) :
    q = 3 ∨ q = 5 ∨ q = 17 ∨ q = 257 ∨ q = 65537 := by
  have hN : 2 ^ 32 - 1 = 3 * (5 * (17 * (257 * 65537))) := by norm_num
  rw [hN] at h
  have p3 : Nat.Prime 3 := by norm_num
  have p5 : Nat.Prime 5 := by norm_num
  have p17 : Nat.Prime 17 := by norm_num
  have p257 : Nat.Prime 257 := by norm_num
  have p65537 : Nat.Prime 65537 := by norm_num
  rcases (Nat.Prime.dvd_mul hq).mp h with h | h
  · exact Or.inl ((Nat.prime_dvd_prime_iff_eq hq p3).mp h)
  rcases (Nat.Prime.dvd_mul hq).mp h with h | h
  · exact Or.inr (Or.inl ((Nat.prime_dvd_prime_iff_eq hq p5).mp h))
  rcases (Nat.Prime.dvd_mul hq).mp h with h | h
  · exact Or.inr (Or.inr (Or.inl ((Nat.prime_dvd_prime_iff_eq hq p17).mp h)))
  rcases (Nat.Prime.dvd_mul hq).mp h with h | h
  · exact Or.inr (Or.inr (Or.inr (Or.inl ((Nat.prime_dvd_prime_iff_eq hq p257).mp h))))
  · exact Or.inr (Or.inr (Or.inr (Or.inr ((Nat.prime_dvd_prime_iff_eq hq p65537).mp h))))

theorem lfsr_minimalPeriod : Function.minimalPeriod galois_lfsr 1 = 2 ^ 32 - 1 := by
  have hv := lfsr_sequence_values
  have hper : Function.IsPeriodicPt galois_lfsr (2 ^ 32 - 1) 1 := hv.1
  have hdvd := hper.minimalPeriod_dvd
  obtain ⟨m, hm⟩ := hdvd
  by_cases hm1 : m = 1
  · rw [hm1, Nat.mul_one] at hm
    exact hm.symm
  · exfalso
    obtain ⟨q, hq, hqm⟩ := Nat.exists_prime_and_dvd hm1
    obtain ⟨r, hr⟩ := hqm
    have hqN : q ∣ 2 ^ 32 - 1 :=
      ⟨Function.minimalPeriod galois_lfsr 1 * r, by rw [hm, hr, Nat.mul_left_comm]⟩
    have hdiv : (2 ^ 32 - 1) / q = Function.minimalPeriod galois_lfsr 1 * r := by
      apply Nat.div_eq_of_eq_mul_right hq.pos
      rw [hm, hr, Nat.mul_left_comm]
    have hper2 : Function.IsPeriodicPt galois_lfsr ((2 ^ 32 - 1) / q) 1 := by
      rw [hdiv]
      exact (Function.isPeriodicPt_minimalPeriod galois_lfsr 1).mul_const r
    have hone : lfsr_sequence ((2 ^ 32 - 1) / q) = 1 := hper2
    rcases prime_factor_of_mersenne_32 q hq hqN with h | h | h | h | h <;> rw [h] at hone
    · exact hv.2.1 hone
    · exact hv.2.2.1 hone
    · exact hv.2.2.2.1 hone
    · exact hv.2.2.2.2.1 hone
    · exact hv.2.2.2.2.2 hone

theorem lfsr_sequence_add (j k : Nat) :
    lfsr_sequence (j + k) = galois_lfsr^[j] (lfsr_sequence k) :=
  Function.iterate_add_apply galois_lfsr j k 1

theorem lfsr_sequence_ne_zero (k : Nat) : lfsr_sequence k ≠ 0 := by
  intro h0
  have hper : Function.IsPeriodicPt galois_lfsr ((2 ^ 32 - 1) * (k + 1)) 1 :=
    Function.IsPeriodicPt.mul_const lfsr_sequence_values.1 (k + 1)
  have hone : lfsr_sequence ((2 ^ 32 - 1) * (k + 1)) = 1 := hper
  have hsplit : (2 ^ 32 - 1) * (k + 1) = ((2 ^ 32 - 1) * (k + 1) - k) + k := by
    have : k ≤ (2 ^ 32 - 1) * (k + 1) := by
      calc k ≤ 1 * (k + 1) := by omega
        _ ≤ (2 ^ 32 - 1) * (k + 1) := Nat.mul_le_mul_right _ (by decide)
    omega
  rw [hsplit, lfsr_sequence_add, h0, xor_linear_map_zero (xor_linear_iterate xor_linear_lfsr _)]
    at hone
  exact absurd hone (by decide)

theorem lfsr_sequence_injOn :
    Set.InjOn lfsr_sequence (Set.Iio (2 ^ 32 - 1)) := by
  have h := Function.iterate_injOn_Iio_minimalPeriod (f := galois_lfsr) (x := 1)
  rw [lfsr_minimalPeriod] at h
  exact h

theorem lfsr_sequence_mod (k : Nat) :
    lfsr_sequence (k % (2 ^ 32 - 1)) = lfsr_sequence k :=
  Function.IsPeriodicPt.iterate_mod_apply lfsr_sequence_values.1 k

theorem lfsr_sequence_surj (v : Nat) (h0 : 0 < v) (hv : v < 2 ^ 32) :
    ∃ k, k < 2 ^ 32 - 1 ∧ lfsr_sequence k = v := by
  have hsub : (Finset.range (2 ^ 32 - 1)).image lfsr_sequence ⊆ Finset.Ico 1 (2 ^ 32) := by
    intro x hx
    obtain ⟨k, _, rfl⟩ := Finset.mem_image.mp hx
    rw [Finset.mem_Ico]
    exact ⟨Nat.pos_of_ne_zero (lfsr_sequence_ne_zero k), lfsr_sequence_lt k⟩
  have hcard : ((Finset.range (2 ^ 32 - 1)).image lfsr_sequence).card = 2 ^ 32 - 1 := by
    rw [Finset.card_image_of_injOn, Finset.card_range]
    intro a ha b hb hab
    exact lfsr_sequence_injOn (Finset.mem_range.mp ha) (Finset.mem_range.mp hb) hab
  have heq : (Finset.range (2 ^ 32 - 1)).image lfsr_sequence = Finset.Ico 1 (2 ^ 32) := by
    apply Finset.eq_of_subset_of_card_le hsub
    rw [hcard, Nat.card_Ico]
  have hmem : v ∈ Finset.Ico 1 (2 ^ 32) := Finset.mem_Ico.mpr ⟨h0, hv⟩
  rw [← heq] at hmem
  obtain ⟨k, hk, hkv⟩ := Finset.mem_image.mp hmem
  exact ⟨k, Finset.mem_range.mp hk, hkv⟩

/-! ## The claims -/

/-- C1 (as stated, refuted): with symbolic package ids 5, -1, 7, 9 the scan
stops at cpu 1, so cpus 2 and 3 both keep `pack_id = -1` although their
symbolic ids 7 and 9 differ. -/
theorem C1_counterexample :
    (annotate_threads threads_with_sentinel).map (fun t => (t.sym_pack_id, t.pack_id)) =
      [(5, 0), (-1, -1), (7, -1), (9, -1)] ∧
    ¬ (∀ (ft : List threadinfo_t) (a b : threadinfo_t),
        a ∈ annotate_threads ft → b ∈ annotate_threads ft →
        (a.pack_id = b.pack_id ↔ a.sym_pack_id = b.sym_pack_id)) := by
  refine ⟨by decide, ?_⟩
  intro h
  have h23 := h threads_with_sentinel
    ((annotate_threads threads_with_sentinel).getD 2 default)
    ((annotate_threads threads_with_sentinel).getD 3 default)
    (by decide) (by decide)
  exact absurd (h23.mp (by decide)) (by decide)

/-- C1 (amended): for any two records `a` and `b` of the flat array, when no
symbolic package id of the array is -1, or when `a` received a compact id
(`pack_id` is not -1), `a.pack_id = b.pack_id` iff
`a.sym_pack_id = b.sym_pack_id`. -/
theorem C1_pack_id_eq_iff (ft : List threadinfo_t) (a b : threadinfo_t)
    (ha : a ∈ annotate_threads ft) (hb : b ∈ annotate_threads ft)
    (h : (∀ t ∈ ft, t.sym_pack_id ≠ -1) ∨ a.pack_id ≠ -1) :
    a.pack_id = b.pack_id ↔ a.sym_pack_id = b.sym_pack_id := by
  obtain ⟨i, hi, rfl⟩ := (mem_annotate_threads ft a).mp ha
  obtain ⟨j, hj, rfl⟩ := (mem_annotate_threads ft b).mp hb
  rw [annotate_threads_getD ft i hi, annotate_threads_getD ft j hj] at *
  simp only at h ⊢
  constructor
  · intro heq
    apply compact_id_inj _ _ _ heq
    rcases h with h | h
    · rw [Ne, compact_id_eq_neg_one_iff, not_not, mem_sym_ids_found_of_no_sentinel]
      · refine List.mem_map.mpr ⟨ft.getD i default, ?_, rfl⟩
        rw [List.getD_eq_getElem _ _ hi]
        exact List.getElem_mem hi
      · intro x hx
        obtain ⟨t, ht, rfl⟩ := List.mem_map.mp hx
        exact h t ht
    · exact h
  · intro heq
    rw [heq]

/-- C1 witness: cpus 0 and 2 of the array with the sentinel; cpu 0 has
`pack_id = 0`. -/
theorem C1_pack_id_eq_iff_witness :
    ((annotate_threads threads_with_sentinel).getD 0 default).pack_id ≠ -1 ∧
    (((annotate_threads threads_with_sentinel).getD 0 default).pack_id =
        ((annotate_threads threads_with_sentinel).getD 2 default).pack_id ↔
      ((annotate_threads threads_with_sentinel).getD 0 default).sym_pack_id =
        ((annotate_threads threads_with_sentinel).getD 2 default).sym_pack_id) :=
  ⟨by decide,
   C1_pack_id_eq_iff threads_with_sentinel _ _ (by decide) (by decide) (Or.inr (by decide))⟩

/-- C2: when no symbolic package id is -1, the `pack_id` of every record is the
number of distinct symbolic package ids that occur in front of the first
occurrence of the record's own symbolic id (cpu order), and `num_packages` is
the number of distinct symbolic package ids. -/
theorem C2_pack_id_first_appearance (ft : List threadinfo_t)
    (hno : ∀ t ∈ ft, t.sym_pack_id ≠ -1) :
    (∀ t ∈ annotate_threads ft,
      t.pack_id =
        (((ft.map fun r => r.sym_pack_id).take
          ((ft.map fun r => r.sym_pack_id).indexOf t.sym_pack_id)).toFinset.card : Int)) ∧
    num_packages ft = (ft.map fun r => r.sym_pack_id).toFinset.card := by
  have hsym : ∀ x ∈ ft.map (fun r => r.sym_pack_id), x ≠ -1 := by
    intro x hx
    obtain ⟨t, ht, rfl⟩ := List.mem_map.mp hx
    exact hno t ht
  have htw := takeWhile_ne_self _ hsym
  constructor
  · intro t ht
    obtain ⟨i, hi, rfl⟩ := (mem_annotate_threads ft t).mp ht
    rw [annotate_threads_getD ft i hi]
    simp only
    have hmem : (ft.getD i default).sym_pack_id ∈ ft.map (fun r => r.sym_pack_id) := by
      refine List.mem_map.mpr ⟨ft.getD i default, ?_, rfl⟩
      rw [List.getD_eq_getElem _ _ hi]
      exact List.getElem_mem hi
    rw [compact_id_of_mem _ _ ((mem_sym_ids_found_of_no_sentinel _ hsym _).mpr hmem)]
    unfold sym_ids_found
    rw [htw, first_seen_indexOf _ _ [] (by simp) hmem,
      first_seen_length_card _ [] List.nodup_nil]
    simp
  · rw [num_packages_eq]
    unfold sym_ids_found
    rw [htw, first_seen_length_card _ [] List.nodup_nil]
    simp

/-- C2 witness: the scenario of the spec, symbolic ids 5,5,5,5,9,9,9,9 give
`num_packages = 2` and compact ids 0,0,0,0,1,1,1,1. -/
theorem C2_pack_id_first_appearance_witness :
    (∀ t ∈ threads_2x2x2, t.sym_pack_id ≠ -1) ∧
    (annotate_threads threads_2x2x2).map (fun t => t.pack_id) = [0, 0, 0, 0, 1, 1, 1, 1] ∧
    ((∀ t ∈ annotate_threads threads_2x2x2,
      t.pack_id =
        (((threads_2x2x2.map fun r => r.sym_pack_id).take
          ((threads_2x2x2.map fun r => r.sym_pack_id).indexOf t.sym_pack_id)).toFinset.card
            : Int)) ∧
    num_packages threads_2x2x2 = (threads_2x2x2.map fun r => r.sym_pack_id).toFinset.card) ∧
    num_packages threads_2x2x2 = 2 :=
  ⟨by decide, by decide, C2_pack_id_first_appearance threads_2x2x2 (by decide), by decide⟩

/-- C3 (as stated, refuted): with symbolic package ids 5, -1, 7, 9 one package
is found and the largest `pack_id` plus one is 1, while the array holds four
distinct symbolic ids, three of them other than -1: `num_packages` is not the
number of distinct symbolic ids, with or without the -1. -/
theorem C3_counterexample :
    0 < num_packages threads_with_sentinel ∧
    ((annotate_threads threads_with_sentinel).map fun t => t.pack_id).maximum =
      ((0 : Int) : WithBot Int) ∧
    num_packages threads_with_sentinel = 1 ∧
    (threads_with_sentinel.map fun t => t.sym_pack_id).toFinset.card = 4 ∧
    ((threads_with_sentinel.map fun t => t.sym_pack_id).filter fun x => x != -1).toFinset.card
      = 3 ∧
    ¬ (∀ ft : List threadinfo_t, 0 < num_packages ft →
        num_packages ft = (ft.map fun t => t.sym_pack_id).toFinset.card ∨
        num_packages ft =
          ((ft.map fun t => t.sym_pack_id).filter fun x => x != -1).toFinset.card) := by
  refine ⟨by decide, by decide, by decide, by decide, by decide, ?_⟩
  intro h
  rcases h threads_with_sentinel (by decide) with h1 | h1
  · exact absurd h1 (by decide)
  · exact absurd h1 (by decide)

/-- C3 (amended): when at least one package is found, the largest `pack_id` of
the flat array plus one is `num_packages`, every index below `num_packages` is
the `pack_id` of some record, and `num_packages` is the number of distinct
symbolic package ids among the records in front of the first one whose
symbolic package id is -1 (among all records when there is none). -/
theorem C3_pack_ids_dense (ft : List threadinfo_t) (h : 0 < num_packages ft) :
    ((annotate_threads ft).map fun t => t.pack_id).maximum =
      (((num_packages ft : Int) - 1 : Int) : WithBot Int) ∧
    (∀ k, k < num_packages ft → ∃ t ∈ annotate_threads ft, t.pack_id = (k : Int)) ∧
    num_packages ft =
      ((ft.takeWhile fun t => t.sym_pack_id != -1).map
        fun t => t.sym_pack_id).toFinset.card := by
  have hcount : num_packages ft =
      ((ft.takeWhile fun t => t.sym_pack_id != -1).map
        fun t => t.sym_pack_id).toFinset.card := by
    rw [num_packages_eq, sym_ids_found_length_card,
      map_takeWhile_sym ft (fun t => t.sym_pack_id)]
  refine and_assoc.mp ⟨?_, hcount⟩
  clear hcount
  rw [num_packages_eq] at *
  have hused : ∀ k, k < (sym_ids_found (ft.map fun t => t.sym_pack_id)).length →
      ∃ t ∈ annotate_threads ft, t.pack_id = (k : Int) ∧
        t.sym_pack_id = (sym_ids_found (ft.map fun t => t.sym_pack_id)).getD k 0 := by
    intro k hk
    have hmem : (sym_ids_found (ft.map fun t => t.sym_pack_id)).getD k 0 ∈
        ft.map (fun t => t.sym_pack_id) := by
      apply mem_sym_of_mem_found
      rw [List.getD_eq_getElem _ _ hk]
      exact List.getElem_mem hk
    obtain ⟨i, hi, hget⟩ := List.mem_iff_getElem.mp hmem
    have hi2 : i < ft.length := by simpa using hi
    refine ⟨(annotate_threads ft).getD i default,
      (mem_annotate_threads ft _).mpr ⟨i, hi2, rfl⟩, ?_⟩
    rw [annotate_threads_getD ft i hi2]
    simp only
    have hsym : (ft.getD i default).sym_pack_id =
        (sym_ids_found (ft.map fun t => t.sym_pack_id)).getD k 0 := by
      rw [← hget, List.getD_eq_getElem _ _ hi2]
      simp
    rw [hsym]
    exact ⟨compact_id_getElem _ k hk, rfl⟩
  have hpack : ∀ t ∈ annotate_threads ft,
      t.pack_id = compact_id (ft.map fun t => t.sym_pack_id) t.sym_pack_id := by
    intro t ht
    obtain ⟨i, hi, rfl⟩ := (mem_annotate_threads ft t).mp ht
    rw [annotate_threads_getD ft i hi]
  refine ⟨?_, ?_⟩
  · rw [List.maximum_eq_coe_iff]
    constructor
    · obtain ⟨t, ht, hp, _⟩ := hused ((sym_ids_found (ft.map fun t => t.sym_pack_id)).length - 1)
        (by omega)
      refine List.mem_map.mpr ⟨t, ht, ?_⟩
      rw [hp]
      omega
    · intro a ha
      obtain ⟨t, ht, rfl⟩ := List.mem_map.mp ha
      have := compact_id_lt (ft.map fun t => t.sym_pack_id) t.sym_pack_id
      rw [hpack t ht]
      omega
  · intro k hk
    obtain ⟨t, ht, hp, _⟩ := hused k hk
    exact ⟨t, ht, hp⟩

/-- C3 witness: the array with a sentinel finds one package, the one in front
of the -1. -/
theorem C3_pack_ids_dense_witness :
    0 < num_packages threads_with_sentinel ∧
    ((annotate_threads threads_with_sentinel).map fun t => t.pack_id).maximum =
      (((num_packages threads_with_sentinel : Int) - 1 : Int) : WithBot Int) ∧
    (∀ k, k < num_packages threads_with_sentinel →
      ∃ t ∈ annotate_threads threads_with_sentinel, t.pack_id = (k : Int)) ∧
    num_packages threads_with_sentinel =
      ((threads_with_sentinel.takeWhile fun t => t.sym_pack_id != -1).map
        fun t => t.sym_pack_id).toFinset.card :=
  ⟨by decide, C3_pack_ids_dense threads_with_sentinel (by decide)⟩

/-- C4: for a thread `i` below `num_cpus` whose `thread_siblings` mask is not
-1 and has bit `i` set, `thread_id` is the number of set bits of the mask at
the positions below `i`. -/
theorem C4_thread_id_counts_lower_bits (ft : List threadinfo_t) (i : Nat) (hi : i < ft.length)
    (hav : ((annotate_threads ft).getD i default).thread_siblings ≠ -1)
    (hbit : ((annotate_threads ft).getD i default).thread_siblings.testBit i = true) :
    ((annotate_threads ft).getD i default).thread_id =
      (((Finset.range i).filter fun c =>
        ((annotate_threads ft).getD i default).thread_siblings.testBit c = true).card : Int) := by
  rw [annotate_threads_getD ft i hi] at *
  simp only at *
  rw [compute_thread_id_eq, if_pos ⟨hav, hi, hbit⟩, bits_below_eq_card]

/-- C4 witness: cpu 3 of the eight-cpu example, mask 0b1100, has one set bit
below its own. -/
theorem C4_thread_id_counts_lower_bits_witness :
    ((annotate_threads threads_2x2x2).getD 3 default).thread_siblings = 12 ∧
    ((annotate_threads threads_2x2x2).getD 3 default).thread_id = 1 ∧
    ((annotate_threads threads_2x2x2).getD 3 default).thread_id =
      (((Finset.range 3).filter fun c =>
        ((annotate_threads threads_2x2x2).getD 3 default).thread_siblings.testBit c = true).card
          : Int) :=
  ⟨by decide, by decide,
   C4_thread_id_counts_lower_bits threads_2x2x2 3 (by decide) (by decide) (by decide)⟩

/-- C5: let `S` be a set of cpu ids below `num_cpus` whose threads all report
the same mask `m`, not -1, whose set bits below `num_cpus` are exactly the
members of `S`.  Then the `thread_id`s of the threads of `S` are exactly
`0 .. |S|-1`, no two threads of `S` share one, and they increase with the
cpu id. -/
theorem C5_thread_ids_of_siblings (ft : List threadinfo_t) (S : Finset Nat) (m : Int)
    (hS : ∀ c ∈ S, c < ft.length) (hm : m ≠ -1)
    (hmask : ∀ c ∈ S, (ft.getD c default).thread_siblings = m)
    (hbits : ∀ x, x < ft.length → (m.testBit x = true ↔ x ∈ S)) :
    S.image (fun c => ((annotate_threads ft).getD c default).thread_id) =
      (Finset.range S.card).image (fun k : Nat => (k : Int)) ∧
    Set.InjOn (fun c => ((annotate_threads ft).getD c default).thread_id) (S : Set Nat) ∧
    (∀ a ∈ S, ∀ b ∈ S, a < b →
      ((annotate_threads ft).getD a default).thread_id <
        ((annotate_threads ft).getD b default).thread_id) := by
  have hrank : ∀ c ∈ S, ((annotate_threads ft).getD c default).thread_id = (rank_in S c : Int) := by
    intro c hc
    apply thread_id_eq_rank ft S c (hS c hc) hc
    · rw [hmask c hc]; exact hm
    · rw [hmask c hc]; exact hbits
  refine ⟨?_, ?_, ?_⟩
  · rw [← rank_in_image S, Finset.image_image]
    exact Finset.image_congr (fun c hc => hrank c hc)
  · intro a ha b hb hab
    simp only at hab
    rw [hrank a ha, hrank b hb] at hab
    exact rank_in_injOn S ha hb (by exact_mod_cast hab)
  · intro a ha b hb hab
    rw [hrank a ha, hrank b hb]
    exact_mod_cast rank_in_lt_of_lt S a b ha hab

/-- C5 witness: the scenario of the spec, mask 0b1100 on cpus 2 and 3 gives
`thread_id` 0 to cpu 2 and 1 to cpu 3. -/
theorem C5_thread_ids_of_siblings_witness :
    ((annotate_threads threads_2x2x2).getD 2 default).thread_id = 0 ∧
    ((annotate_threads threads_2x2x2).getD 3 default).thread_id = 1 ∧
    (({2, 3} : Finset Nat).image
        (fun c => ((annotate_threads threads_2x2x2).getD c default).thread_id) =
      (Finset.range ({2, 3} : Finset Nat).card).image (fun k : Nat => (k : Int)) ∧
    Set.InjOn (fun c => ((annotate_threads threads_2x2x2).getD c default).thread_id)
      (({2, 3} : Finset Nat) : Set Nat) ∧
    (∀ a ∈ ({2, 3} : Finset Nat), ∀ b ∈ ({2, 3} : Finset Nat), a < b →
      ((annotate_threads threads_2x2x2).getD a default).thread_id <
        ((annotate_threads threads_2x2x2).getD b default).thread_id)) :=
  ⟨by decide, by decide,
   C5_thread_ids_of_siblings threads_2x2x2 {2, 3} 12 (by decide) (by decide) (by decide)
     (by decide)⟩

/-- C6: let the flat array be non-empty with no symbolic id equal to -1, `P`
distinct symbolic package ids, `C` distinct symbolic core ids, exactly `T`
threads for every pair of a package id and a core id, and for every thread a
`thread_siblings` mask that fits in an `int` and whose set bits are exactly the
cpus of the thread's own core (so no mask is -1).  Then discovery yields
`num_packages = P`, `num_cores_per_package = C`, `num_threads_per_core = T`,
every triple `(i, j, k)` below `(P, C, T)` is matched by exactly one record of
the flat array, and every record is held by exactly one slot of the tree. -/
theorem C6_uniform_shape_discovery (ft : List threadinfo_t) (P C T : Nat)
    (hne : 0 < ft.length)
    (hav : ∀ t ∈ ft, t.sym_pack_id ≠ -1 ∧ t.sym_core_id ≠ -1)
    (hP : (ft.map fun t => t.sym_pack_id).toFinset.card = P)
    (hC : (ft.map fun t => t.sym_core_id).toFinset.card = C)
    (hT : ∀ p ∈ ft.map (fun t => t.sym_pack_id), ∀ c ∈ ft.map (fun t => t.sym_core_id),
      (core_set ft p c).card = T)
    (hmask : ∀ l, l < ft.length →
      (ft.getD l default).thread_siblings < 2 ^ 31 ∧
      ∀ x, ((ft.getD l default).thread_siblings.testBit x = true ↔
        x ∈ core_set ft (ft.getD l default).sym_pack_id (ft.getD l default).sym_core_id)) :
    num_packages ft = P ∧ num_cores_per_package ft = C ∧ num_threads_per_core ft = T ∧
    (∀ i j k, i < P → j < C → k < T →
      ∃! l, l < (annotate_threads ft).length ∧
        ((annotate_threads ft).getD l default).pack_id = (i : Int) ∧
        ((annotate_threads ft).getD l default).core_id = (j : Int) ∧
        ((annotate_threads ft).getD l default).thread_id = (k : Int)) ∧
    (∀ l, l < (annotate_threads ft).length →
      ∃! s : Nat × Nat × Nat, thread_slot (build_packages ft) s.1 s.2.1 s.2.2 = some l) := by
  have h : uniform_shape ft T :=
    ⟨hne, hav, hT, fun l hl =>
      ⟨nonneg_of_testBit_bounded _ ft.length
          (fun x hx => mem_core_set_lt ft _ _ x (((hmask l hl).2 x).mp hx)),
        (hmask l hl).1, fun x _ => (hmask l hl).2 x⟩⟩
  have hnp : num_packages ft = P := by
    rw [num_packages_of_no_sentinel ft (fun t ht => (hav t ht).1), hP]
  have hnc : num_cores_per_package ft = C := by
    rw [num_cores_of_no_sentinel ft (fun t ht => (hav t ht).2), hC]
  have hnt : num_threads_per_core ft = T := uniform_shape_threads_per_core ft T h
  rw [annotate_threads_length]
  refine ⟨hnp, hnc, hnt, ?_, ?_⟩
  · intro i j k hi hj hk
    exact uniform_shape_unique ft T h i j k (hnp ▸ hi) (hnc ▸ hj) hk
  · intro l hl
    obtain ⟨hp, hc, ht⟩ := uniform_shape_ids ft T h l hl
    have hi : (sym_ids_found (ft.map fun t => t.sym_pack_id)).indexOf
        (ft.getD l default).sym_pack_id < num_packages ft := by
      rw [num_packages_eq]
      exact List.indexOf_lt_length.mpr (uniform_shape_pack_mem ft T h l hl)
    have hj : (sym_ids_found (ft.map fun t => t.sym_core_id)).indexOf
        (ft.getD l default).sym_core_id < num_cores_per_package ft := by
      rw [num_cores_per_package_eq]
      exact List.indexOf_lt_length.mpr (uniform_shape_core_mem ft T h l hl)
    have hk : rank_in (core_set ft (ft.getD l default).sym_pack_id
        (ft.getD l default).sym_core_id) l < T := by
      have := rank_in_lt_card _ l (mem_core_set_self ft l hl)
      rwa [hT _ (sym_pack_mem ft l hl) _ (sym_core_mem ft l hl)] at this
    obtain ⟨l0, _, huniq⟩ := uniform_shape_unique ft T h _ _ _ hi hj hk
    have hl0 : l = l0 := huniq l ⟨hl, hp, hc, ht⟩
    refine ⟨((sym_ids_found (ft.map fun t => t.sym_pack_id)).indexOf
        (ft.getD l default).sym_pack_id,
      (sym_ids_found (ft.map fun t => t.sym_core_id)).indexOf (ft.getD l default).sym_core_id,
      rank_in (core_set ft (ft.getD l default).sym_pack_id (ft.getD l default).sym_core_id) l),
      ?_, ?_⟩
    · simp only
      rw [thread_slot_build, if_pos ⟨hi, hj, hnt ▸ hk⟩]
      rcases assemble_thread_cases (annotate_threads ft) _ _ _ with ⟨_, h2⟩ | ⟨l', h1, h2, h3, _⟩
      · exfalso
        have := h2 l (by rw [annotate_threads_length]; exact hl)
        rw [(thread_matches_iff _ _ _ _ l).mpr ⟨hp, hc, ht⟩] at this
        cases this
      · rw [h1]
        rw [annotate_threads_length] at h2
        rw [thread_matches_iff] at h3
        rw [huniq l' ⟨h2, h3⟩, hl0]
    · rintro ⟨i', j', k'⟩ hs
      simp only at hs
      obtain ⟨_, _, _, _, e1, e2, e3, _⟩ := thread_slot_some ft i' j' k' l hs
      rw [hp] at e1
      rw [hc] at e2
      rw [ht] at e3
      have e1' := Int.ofNat_inj.mp e1
      have e2' := Int.ofNat_inj.mp e2
      have e3' := Int.ofNat_inj.mp e3
      rw [← e1', ← e2', ← e3']

/-- C6 witness: the eight-cpu example, two packages (ids 5 and 9) of two cores
(ids 0 and 4) of two threads. -/
theorem C6_uniform_shape_discovery_witness :
    (num_packages threads_2x2x2 = 2 ∧ num_cores_per_package threads_2x2x2 = 2 ∧
      num_threads_per_core threads_2x2x2 = 2 ∧
    (∀ i j k : Nat, i < 2 → j < 2 → k < 2 →
      ∃! l, l < (annotate_threads threads_2x2x2).length ∧
        ((annotate_threads threads_2x2x2).getD l default).pack_id = (i : Int) ∧
        ((annotate_threads threads_2x2x2).getD l default).core_id = (j : Int) ∧
        ((annotate_threads threads_2x2x2).getD l default).thread_id = (k : Int)) ∧
    (∀ l, l < (annotate_threads threads_2x2x2).length →
      ∃! s : Nat × Nat × Nat,
        thread_slot (build_packages threads_2x2x2) s.1 s.2.1 s.2.2 = some l)) ∧
    (List.range 2).map (fun i => (List.range 2).map fun j => (List.range 2).map fun k =>
        thread_slot (build_packages threads_2x2x2) i j k) =
      [[[some 0, some 1], [some 2, some 3]], [[some 4, some 5], [some 6, some 7]]] :=
  ⟨C6_uniform_shape_discovery threads_2x2x2 2 2 2 (by decide) (by decide) (by decide)
    (by decide) (by decide)
    (fun l hl =>
      have hsmall : ∀ l, l < threads_2x2x2.length →
          0 ≤ (threads_2x2x2.getD l default).thread_siblings ∧
          (threads_2x2x2.getD l default).thread_siblings < 2 ^ 8 ∧
          ∀ x, x < 8 → ((threads_2x2x2.getD l default).thread_siblings.testBit x = true ↔
            x ∈ core_set threads_2x2x2 (threads_2x2x2.getD l default).sym_pack_id
              (threads_2x2x2.getD l default).sym_core_id) := by decide
      ⟨lt_trans (hsmall l hl).2.1 (by decide),
       testBit_of_small _ 8 _ (hsmall l hl).1 (hsmall l hl).2.1
         (fun x hx => mem_core_set_lt threads_2x2x2 _ _ x hx) (hsmall l hl).2.2⟩),
   by decide⟩

/-- C7: for an in-range triple `(i, j, k)` that at least one record of the flat
array matches, the slot `package[i].core[j].thread[k]` holds the address of a
record `flat_threads[l]`, `l < num_cpus`, and that record has `pack_id = i`,
`core_id = j` and `thread_id = k`. -/
theorem C7_slot_refers_to_matching_record (ft : List threadinfo_t) (i j k : Nat)
    (hi : i < num_packages ft) (hj : j < num_cores_per_package ft)
    (hk : k < num_threads_per_core ft)
    (hmatch : ∃ t ∈ annotate_threads ft,
      t.pack_id = (i : Int) ∧ t.core_id = (j : Int) ∧ t.thread_id = (k : Int)) :
    ∃ l, l < (annotate_threads ft).length ∧
      thread_slot (build_packages ft) i j k = some l ∧
      ((annotate_threads ft).getD l default).pack_id = (i : Int) ∧
      ((annotate_threads ft).getD l default).core_id = (j : Int) ∧
      ((annotate_threads ft).getD l default).thread_id = (k : Int) := by
  rw [thread_slot_build, if_pos ⟨hi, hj, hk⟩]
  rcases assemble_thread_cases (annotate_threads ft) i j k with ⟨_, h2⟩ | ⟨l, h1, h2, h3, _⟩
  · exfalso
    obtain ⟨t, ht, hp⟩ := hmatch
    obtain ⟨l, hl, rfl⟩ := (mem_annotate_threads ft t).mp ht
    have := h2 l (by rw [annotate_threads_length]; exact hl)
    rw [(thread_matches_iff _ i j k l).mpr hp] at this
    cases this
  · rw [thread_matches_iff] at h3
    exact ⟨l, h2, h1, h3⟩

/-- C7 witness: slot (1, 0, 1) of the eight-cpu example holds cpu 5. -/
theorem C7_slot_refers_to_matching_record_witness :
    thread_slot (build_packages threads_2x2x2) 1 0 1 = some 5 ∧
    ∃ l, l < (annotate_threads threads_2x2x2).length ∧
      thread_slot (build_packages threads_2x2x2) 1 0 1 = some l ∧
      ((annotate_threads threads_2x2x2).getD l default).pack_id = ((1 : Nat) : Int) ∧
      ((annotate_threads threads_2x2x2).getD l default).core_id = ((0 : Nat) : Int) ∧
      ((annotate_threads threads_2x2x2).getD l default).thread_id = ((1 : Nat) : Int) :=
  ⟨by decide,
   C7_slot_refers_to_matching_record threads_2x2x2 1 0 1 (by decide) (by decide) (by decide)
     ⟨(annotate_threads threads_2x2x2).getD 5 default, by decide, by decide, by decide,
       by decide⟩⟩

/-- The loops of lines 505-541 always build the complete tree (`num_packages`
packages of `num_cores_per_package` cores of `num_threads_per_core` slots),
and for an in-range triple that no record of the flat array matches, no
statement assigns the slot `package[i].core[j].thread[k]`: it keeps what
`malloc` left. -/
theorem unmatched_slot_never_assigned (ft : List threadinfo_t) (i j k : Nat)
    (hi : i < num_packages ft) (hj : j < num_cores_per_package ft)
    (hk : k < num_threads_per_core ft)
    (hno : ∀ t ∈ annotate_threads ft,
      ¬ (t.pack_id = (i : Int) ∧ t.core_id = (j : Int) ∧ t.thread_id = (k : Int))) :
    (build_packages ft).length = num_packages ft ∧
    (∀ p ∈ build_packages ft, p.core.length = num_cores_per_package ft ∧
      ∀ c ∈ p.core, c.thread.length = num_threads_per_core ft) ∧
    thread_slot (build_packages ft) i j k = none := by
  refine ⟨by simp [build_packages, assemble_packages], ?_, ?_⟩
  · intro p hp
    simp only [build_packages, assemble_packages, List.mem_map] at hp
    obtain ⟨i', _, rfl⟩ := hp
    refine ⟨by simp [assemble_package], ?_⟩
    intro c hc
    simp only [assemble_package, List.mem_map] at hc
    obtain ⟨j', _, rfl⟩ := hc
    simp [assemble_core]
  · rw [thread_slot_build, if_pos ⟨hi, hj, hk⟩]
    rcases assemble_thread_cases (annotate_threads ft) i j k with ⟨h1, _⟩ | ⟨l, _, h2, h3, _⟩
    · exact h1
    · exfalso
      rw [thread_matches_iff] at h3
      refine hno ((annotate_threads ft).getD l default) ?_ h3
      rw [annotate_threads_length] at h2
      exact (mem_annotate_threads ft _).mpr ⟨l, h2, rfl⟩

/-- C8 (the code at the failing input): on the machine of
`sysfs_disjoint_cores` discovery returns a map with 2 packages of 4 cores of 1
thread; no record has package 0 and core 2, the slot
`package[0].core[2].thread[0]` is never assigned (it is not given NULL either:
it holds what `malloc` left), and `procmap_report` reads `cpu_id` through it
at line 666. -/
theorem C8_unmatched_slot_read_by_report :
    ∃ pi, procmap_init sysfs_disjoint_cores = Except.ok pi ∧
      (pi.num_packages, pi.num_cores_per_package, pi.num_threads_per_core) = (2, 4, 1) ∧
      pi.flat_threads.map (fun t => (t.pack_id, t.core_id, t.thread_id)) =
        [(0, 0, 0), (0, 1, 0), (1, 2, 0), (1, 3, 0)] ∧
      thread_slot pi.package 0 2 0 = none ∧
      procmap_report sysfs_disjoint_cores pi =
        Except.error (report_failure.invalid_pointer 666) :=
  ⟨_, rfl, rfl, rfl, rfl, rfl⟩

/-- C9: a thread whose `thread_siblings` mask is -1 keeps `thread_id = -1`, and
no slot of the package/core/thread tree holds the address of its record. -/
theorem C9_unavailable_mask_not_placed (ft : List threadinfo_t) (l : Nat) (hl : l < ft.length)
    (hm : ((annotate_threads ft).getD l default).thread_siblings = -1) :
    ((annotate_threads ft).getD l default).thread_id = -1 ∧
    ∀ i j k, thread_slot (build_packages ft) i j k ≠ some l := by
  have htid : ((annotate_threads ft).getD l default).thread_id = -1 := by
    rw [annotate_threads_getD ft l hl] at hm ⊢
    simp only at hm ⊢
    rw [compute_thread_id_eq, if_neg (fun h => h.1 hm)]
  refine ⟨htid, ?_⟩
  intro i j k hslot
  have h := (thread_slot_some ft i j k l hslot).2.2.2.2.2.2.1
  rw [htid] at h
  have : (0 : Int) ≤ (k : Int) := Int.natCast_nonneg k
  omega

/-- C9 witness: in the array below the mask of cpu 1 could not be read. -/
theorem C9_unavailable_mask_not_placed_witness :
    ((annotate_threads [raw_thread 0 0 0 1, raw_thread 1 0 0 (-1)]).getD 1 default).thread_id
      = -1 ∧
    ∀ i j k,
      thread_slot (build_packages [raw_thread 0 0 0 1, raw_thread 1 0 0 (-1)]) i j k ≠ some 1 :=
  C9_unavailable_mask_not_placed [raw_thread 0 0 0 1, raw_thread 1 0 0 (-1)] 1
    (by decide) (by decide)

/-- C10: the flat array that `procmap_init` builds has `num_cpus` records and
their `cpu_id`s are `0, 1, .., num_cpus - 1` in this order, each once; and
whenever the cpu directory can be opened and every readable `meminfo` holds the
`MemTotal:` label, `procmap_init` returns a map with this array and this
`num_cpus`. -/
theorem C10_cpu_ids_are_the_indices (fs : sysfs) :
    (annotate_threads (read_flat_threads fs (_get_num_cpus fs) (_get_num_caches fs))).length =
      _get_num_cpus fs ∧
    (annotate_threads (read_flat_threads fs (_get_num_cpus fs) (_get_num_caches fs))).map
        (fun t => t.cpu_id) =
      (List.range (_get_num_cpus fs)).map (fun i : Nat => (i : Int)) ∧
    (fs.cpu_dir = true →
      (∀ i data, i < _get_num_memnodes fs → fs.node i node_file.meminfo = some data →
        (read_meminfo data).isSome = true) →
      ∃ pi, procmap_init fs = Except.ok pi ∧ pi.num_cpus = _get_num_cpus fs ∧
        pi.flat_threads.length = pi.num_cpus ∧
        pi.flat_threads.map (fun t => t.cpu_id) =
          (List.range pi.num_cpus).map (fun i : Nat => (i : Int))) := by
  have hlen : (annotate_threads
      (read_flat_threads fs (_get_num_cpus fs) (_get_num_caches fs))).length =
      _get_num_cpus fs := by
    rw [annotate_threads_length]
    simp [read_flat_threads]
  have hids : (annotate_threads
      (read_flat_threads fs (_get_num_cpus fs) (_get_num_caches fs))).map (fun t => t.cpu_id) =
      (List.range (_get_num_cpus fs)).map (fun i : Nat => (i : Int)) := by
    rw [annotate_threads_cpu_id, read_flat_threads_cpu_id]
  refine ⟨hlen, hids, ?_⟩
  intro hcpu hmem
  obtain ⟨ms, hms⟩ := read_memnodes_some fs (_get_num_memnodes fs) 0
    (fun i' _ h2 data hd => hmem i' data (by omega) hd)
  unfold procmap_init
  rw [if_neg (by simp [hcpu])]
  simp only [hms]
  exact ⟨_, rfl, rfl, hlen, hids⟩

/-- C10 witness: the two-cpu machine; `procmap_init` returns and the
`cpu_id`s are 0 and 1. -/
theorem C10_cpu_ids_are_the_indices_witness :
    sysfs_two_cpus.cpu_dir = true ∧
    ∃ pi, procmap_init sysfs_two_cpus = Except.ok pi ∧ pi.num_cpus = 2 ∧
      pi.flat_threads.length = pi.num_cpus ∧
      pi.flat_threads.map (fun t => t.cpu_id) = [0, 1] := by
  refine ⟨rfl, ?_⟩
  obtain ⟨pi, h1, h2, h3, h4⟩ := (C10_cpu_ids_are_the_indices sysfs_two_cpus).2.2 rfl
    (by
      intro i data _ hd
      have : data = "Node 0 MemTotal:       2048 kB\n".toList := by
        simp only [sysfs_two_cpus] at hd
        exact (Option.some.inj hd).symm
      subst this
      decide)
  refine ⟨pi, h1, ?_, h3, ?_⟩
  · rw [h2]; decide
  · rw [h4, h2]; decide

/-- C11 (as stated, refuted): for cpu 32 the test of line 636 is `(1<<32) ==
shared_cpu_map`, a shift by the width of `int`; an x86-64 shifts by 32 mod 32 =
0 places, so the cache whose `shared_cpu_map` is 1 is reported private although
its only set bit is bit 0, not bit 32. -/
theorem C11_counterexample :
    report_caches 33
        { (default : threadinfo_t) with
          cpu_id := 32, num_caches := 1,
          cache := [{ (default : cacheinfo_t) with shared_cpu_map := 1 }] } true =
      Except.ok [cache_report.priv 0 [NUL]] ∧
    ¬ (∀ k, k < 32 → ((1 : Int).testBit k = true ↔ (k : Int) = 32)) := by
  refine ⟨rfl, ?_⟩
  intro h
  exact absurd ((h 0 (by decide)).mp (by decide)) (by decide)

/-- C11 (amended): for every thread with `0 <= cpu_id < 32` whose cache array
has `num_caches` descriptors with `shared_cpu_map` values in the range of
`int`, both views of the report go through all its caches, and a cache is
reported private if and only if, among the bits 0 to 31 of its
`shared_cpu_map`, exactly the bit at position `cpu_id` is set; otherwise it is
reported shared. -/
theorem C11_private_iff_own_bit_only (num_cpus : Nat) (t : threadinfo_t) (flat : Bool)
    (hlen : t.num_caches.toNat = t.cache.length)
    (hid : 0 ≤ t.cpu_id ∧ t.cpu_id < 32)
    (hint : ∀ c ∈ t.cache, -(2 ^ 31) ≤ c.shared_cpu_map ∧ c.shared_cpu_map < 2 ^ 31) :
    report_caches num_cpus t flat =
      Except.ok (t.cache.map fun c =>
        report_cache num_cpus t.cpu_id c (if flat then [c.type.headD NUL] else c.type)) ∧
    ∀ c ∈ t.cache,
      ((report_cache num_cpus t.cpu_id c
          (if flat then [c.type.headD NUL] else c.type)).is_private = true ↔
        ∀ k, k < 32 → (c.shared_cpu_map.testBit k = true ↔ (k : Int) = t.cpu_id)) := by
  refine ⟨report_caches_eq num_cpus t flat hlen, ?_⟩
  intro c hc
  obtain ⟨n, hn⟩ := Int.eq_ofNat_of_zero_le hid.1
  have hn32 : n < 32 := by
    have := hid.2
    rw [hn] at this
    exact_mod_cast this
  rw [report_cache_is_private, hn, one_shl_eq_iff n hn32 _ (hint c hc).1 (hint c hc).2]
  constructor
  · intro h k hk
    rw [h k hk]
    exact ⟨fun e => by rw [e], fun e => by exact_mod_cast e⟩
  · intro h k hk
    rw [h k hk]
    exact ⟨fun e => by exact_mod_cast e, fun e => by rw [e]⟩

/-- C11 witness: cpu 2 with a cache of its own (map 0x04) and a cache shared
with cpu 3 (map 0x0c). -/
theorem C11_private_iff_own_bit_only_witness :
    report_caches 4
        { (default : threadinfo_t) with
          cpu_id := 2, num_caches := 2,
          cache := [{ (default : cacheinfo_t) with shared_cpu_map := 4 },
                    { (default : cacheinfo_t) with shared_cpu_map := 12 }] } false =
      Except.ok [cache_report.priv 0 [], cache_report.shared 0 [] [2, 3]] ∧
    (report_caches 4
        { (default : threadinfo_t) with
          cpu_id := 2, num_caches := 2,
          cache := [{ (default : cacheinfo_t) with shared_cpu_map := 4 },
                    { (default : cacheinfo_t) with shared_cpu_map := 12 }] } false =
      Except.ok
        (([{ (default : cacheinfo_t) with shared_cpu_map := 4 },
           { (default : cacheinfo_t) with shared_cpu_map := 12 }] : List cacheinfo_t).map
          fun c => report_cache 4 2 c (if false then [c.type.headD NUL] else c.type)) ∧
    ∀ c ∈ ([{ (default : cacheinfo_t) with shared_cpu_map := 4 },
            { (default : cacheinfo_t) with shared_cpu_map := 12 }] : List cacheinfo_t),
      ((report_cache 4 2 c (if false then [c.type.headD NUL] else c.type)).is_private = true ↔
        ∀ k, k < 32 → (c.shared_cpu_map.testBit k = true ↔ (k : Int) = 2))) :=
  ⟨rfl,
   C11_private_iff_own_bit_only 4
     { (default : threadinfo_t) with
       cpu_id := 2, num_caches := 2,
       cache := [{ (default : cacheinfo_t) with shared_cpu_map := 4 },
                 { (default : cacheinfo_t) with shared_cpu_map := 12 }] } false
     (by decide) (by decide) (by decide)⟩

/-- C12 (as stated, refuted): with 34 cpus, the cache of cpu 30 whose
`shared_cpu_map` file reads `c0000000` (cpus 30 and 31) has the `int` map
-2^30; the loop of lines 640-644 shifts it arithmetically and prints 30, 31, 32
and 33, while the bits 0 to 31 that are set in the map are 30 and 31. -/
theorem C12_counterexample :
    read_int (some "c0000000\n".toList) ['\n', ',', ','] 16 = -(2 ^ 30) ∧
    report_cache 34 30 { (default : cacheinfo_t) with shared_cpu_map := -(2 ^ 30) } [] =
      cache_report.shared 0 [] [30, 31, 32, 33] ∧
    (List.range 34).filter (fun m => int32_bit (-(2 ^ 30)) m) = [30, 31] := by
  decide

/-- C12 (amended): when `num_cpus <= 32`, or the `shared_cpu_map` is a
non-negative `int`, the sharers printed for a cache that is reported shared are
exactly the cpu ids `m < num_cpus` whose bit `m` is set in the map, in
ascending order, and the cpu of the owning thread is among them whenever its
bit is set. -/
theorem C12_sharers_are_the_set_bits (num_cpus : Nat) (myid : Int) (cache : cacheinfo_t)
    (type : List Char)
    (h : num_cpus ≤ 32 ∨ (0 ≤ cache.shared_cpu_map ∧ cache.shared_cpu_map < 2 ^ 31))
    (hsh : (report_cache num_cpus myid cache type).is_private = false) :
    (report_cache num_cpus myid cache type).sharers =
      (List.range num_cpus).filter (fun m => int32_bit cache.shared_cpu_map m) ∧
    List.Pairwise (fun a b => a < b) (report_cache num_cpus myid cache type).sharers ∧
    ∀ c : Nat, (c : Int) = myid → c < num_cpus → int32_bit cache.shared_cpu_map c = true →
      c ∈ (report_cache num_cpus myid cache type).sharers := by
  have hs : (report_cache num_cpus myid cache type).sharers =
      (List.range num_cpus).filter (fun m => int32_bit cache.shared_cpu_map m) := by
    rw [← print_set_bits_int32 num_cpus _ h]
    unfold report_cache at hsh ⊢
    split
    · rename_i heq
      rw [if_pos heq] at hsh
      simp [cache_report.is_private] at hsh
    · rfl
  refine ⟨hs, ?_, ?_⟩
  · rw [hs]
    exact (List.pairwise_lt_range num_cpus).filter _
  · intro c _ hc hb
    rw [hs]
    exact List.mem_filter.mpr ⟨List.mem_range.mpr hc, hb⟩

/-- C12 witness: the scenario of the spec, map 0x0c on a cache of cpu 2 with
four cpus is reported shared with sharers 2 and 3. -/
theorem C12_sharers_are_the_set_bits_witness :
    report_cache 4 2 { (default : cacheinfo_t) with shared_cpu_map := 12 } [] =
      cache_report.shared 0 [] [2, 3] ∧
    ((report_cache 4 2 { (default : cacheinfo_t) with shared_cpu_map := 12 } []).sharers =
      (List.range 4).filter
        (fun m => int32_bit ({ (default : cacheinfo_t) with shared_cpu_map := 12 } :
          cacheinfo_t).shared_cpu_map m) ∧
    List.Pairwise (fun a b => a < b)
      (report_cache 4 2 { (default : cacheinfo_t) with shared_cpu_map := 12 } []).sharers ∧
    ∀ c : Nat, (c : Int) = 2 → c < 4 →
      int32_bit ({ (default : cacheinfo_t) with shared_cpu_map := 12 } :
        cacheinfo_t).shared_cpu_map c = true →
      c ∈ (report_cache 4 2 { (default : cacheinfo_t) with shared_cpu_map := 12 } []).sharers) :=
  ⟨by decide,
   C12_sharers_are_the_set_bits 4 2 { (default : cacheinfo_t) with shared_cpu_map := 12 } []
     (Or.inl (by decide)) (by decide)⟩

/-- C13: `procmap_init` ends in `exit(EXIT_FAILURE)` exactly when the cpu
directory cannot be opened (every `malloc` returning a block); when it can be
opened and every `meminfo` file that is read holds the label `MemTotal:`,
`procmap_init` returns a map, whatever the topology, cache and node
directories hold or lack. -/
theorem C13_exit_iff_no_cpu_dir (fs : sysfs) :
    (procmap_init fs = Except.error init_failure.exit_failure ↔ fs.cpu_dir = false) ∧
    (fs.cpu_dir = true →
      (∀ i data, i < _get_num_memnodes fs → fs.node i node_file.meminfo = some data →
        (read_meminfo data).isSome = true) →
      ∃ pi, procmap_init fs = Except.ok pi) := by
  constructor
  · constructor
    · intro h
      by_contra hc
      unfold procmap_init at h
      rw [if_neg hc] at h
      split at h <;> cases h
    · intro h
      unfold procmap_init
      rw [if_pos h]
  · intro hcpu hmem
    obtain ⟨ms, hms⟩ := read_memnodes_some fs (_get_num_memnodes fs) 0
      (fun i _ h2 data hd => hmem i data (by omega) hd)
    unfold procmap_init
    rw [if_neg (by simp [hcpu])]
    simp only [hms]
    exact ⟨_, rfl⟩

/-- C13 witness: with the cpu directory alone, discovery returns a map. -/
theorem C13_exit_iff_no_cpu_dir_witness :
    sysfs_cpu_only.cpu_dir = true ∧ sysfs_cpu_only.cache_dir = false ∧
    sysfs_cpu_only.node_dir = false ∧
    (∀ i f, sysfs_cpu_only.topology i f = none) ∧
    ∃ pi, procmap_init sysfs_cpu_only = Except.ok pi :=
  ⟨rfl, rfl, rfl, fun _ _ => rfl,
    (C13_exit_iff_no_cpu_dir sysfs_cpu_only).2 rfl
      (fun i _ hi _ => absurd hi (Nat.not_lt_zero i))⟩

/-- C14 (the code at the failing input): on the two-cpu machine of
`sysfs_long_mask`, whose sibling mask files have 1026 bytes, the reader stores
`core_siblings = 0` and `thread_siblings = -1` for both cpus: the terminator of
the 1024 bytes read from `core_siblings` lands on `cpu_path[0]`, and the `open`
of `thread_siblings` fails.  With the file `core_siblings` of cpu 1 made
unreadable, cpu 1 gets `core_siblings = -1` and `thread_siblings = 0`: the
second attribute changes with the first.  The records of cpu 0 are the same
in both runs. -/
theorem C14_unreadable_file_changes_next_attribute :
    (read_flat_threads sysfs_long_mask (_get_num_cpus sysfs_long_mask)
        (_get_num_caches sysfs_long_mask)).map
      (fun t => (t.cpu_id, t.core_siblings, t.thread_siblings)) = [(0, 0, -1), (1, 0, -1)] ∧
    (read_flat_threads (hide_topology sysfs_long_mask 1 topology_file.core_siblings)
        (_get_num_cpus sysfs_long_mask) (_get_num_caches sysfs_long_mask)).map
      (fun t => (t.cpu_id, t.core_siblings, t.thread_siblings)) = [(0, 0, -1), (1, -1, 0)] := by
  have hcpus : _get_num_cpus sysfs_long_mask = 2 := rfl
  have hcaches : _get_num_caches sysfs_long_mask = 0 := rfl
  have hshort : ∀ (fs : sysfs) (i : Nat) (f : topology_file) (text : List Char),
      fs.topology i f = some text → text.length < 1024 → fills_buf (fs.topology i f) = false :=
    fun fs i f text h hl => fills_buf_of_short _ (fun data hd => by
      rw [h] at hd
      rw [← Option.some.inj hd]
      exact hl)
  have hlong : ∀ (fs : sysfs) (i : Nat),
      fs.topology i topology_file.core_siblings = some (bitmap_text long_mask_groups) →
      fills_buf (fs.topology i topology_file.core_siblings) = true :=
    fun fs i h => by rw [h]; exact fills_buf_long_mask
  have hcore : ∀ (fs : sysfs) (i : Nat),
      fs.topology i topology_file.core_id = some "0\n".toList →
      fs.topology i topology_file.physical_package_id = some "0\n".toList →
      fs.topology i topology_file.core_siblings = some (bitmap_text long_mask_groups) →
      (read_thread fs 0 i).core_siblings = 0 ∧ (read_thread fs 0 i).thread_siblings = -1 :=
    fun fs i h1 h2 h3 =>
      ⟨by
        rw [read_thread_core_siblings fs 0 i (hshort fs i _ _ h1 (by decide))
          (hshort fs i _ _ h2 (by decide)), h3]
        exact read_int_long_mask,
       read_thread_thread_siblings_lost fs 0 i (hshort fs i _ _ h1 (by decide))
        (hshort fs i _ _ h2 (by decide)) (hlong fs i h3)⟩
  have hhidden :
      (read_thread (hide_topology sysfs_long_mask 1 topology_file.core_siblings) 0 1).core_siblings
        = -1 ∧
      (read_thread (hide_topology sysfs_long_mask 1 topology_file.core_siblings) 0 1).thread_siblings
        = 0 := by
    constructor
    · rw [read_thread_core_siblings
        (hide_topology sysfs_long_mask 1 topology_file.core_siblings) 0 1
        (hshort _ 1 _ "0\n".toList rfl (by decide)) (hshort _ 1 _ "0\n".toList rfl (by decide))]
      rfl
    · rw [read_thread_thread_siblings
        (hide_topology sysfs_long_mask 1 topology_file.core_siblings) 0 1
        (hshort _ 1 _ "0\n".toList rfl (by decide)) (hshort _ 1 _ "0\n".toList rfl (by decide))
        rfl]
      exact read_int_long_mask
  have h0 := hcore sysfs_long_mask 0 rfl rfl rfl
  have h1 := hcore sysfs_long_mask 1 rfl rfl rfl
  have h0h := hcore (hide_topology sysfs_long_mask 1 topology_file.core_siblings) 0 rfl rfl rfl
  have hid : ∀ (fs : sysfs) (i : Nat), (read_thread fs 0 i).cpu_id = (i : Int) :=
    fun _ _ => rfl
  rw [hcpus, hcaches]
  simp only [read_flat_threads, List.range_succ, List.range_zero, List.nil_append,
    List.cons_append, List.map_cons, List.map_nil, h0.1, h0.2, h1.1, h1.2, h0h.1, h0h.2,
    hhidden.1, hhidden.2, hid]
  exact ⟨rfl, rfl⟩

/-- C15: on a machine without a node directory `procmap_init` returns a map
with `num_memnodes = 0` and a NULL `memnode`, and `procmap_report` on that map
ends in the failing `assert(pi->memnode)` of line 708 instead of printing a
memory section without nodes. -/
theorem C15_report_aborts_without_memnodes :
    _get_num_memnodes sysfs_no_node = 0 ∧
    ∃ pi, procmap_init sysfs_no_node = Except.ok pi ∧ pi.num_memnodes = 0 ∧ pi.memnode = [] ∧
      procmap_report sysfs_no_node pi = Except.error (report_failure.assertion 708) :=
  ⟨rfl, _, rfl, rfl, rfl, rfl⟩

/-- C16 (as stated, refuted): on the machine of `sysfs_no_label` the cache
prober returns 0, and discovery ends at line 586 in the read through the NULL
that `strstr` returns for a `meminfo` text without the label `MemTotal:`; on a
tree without the cpu directory the cache prober returns 0 as well, and
discovery ends in `exit(EXIT_FAILURE)`. -/
theorem C16_counterexample :
    _get_num_caches sysfs_no_label = 0 ∧
    procmap_init sysfs_no_label = Except.error init_failure.null_dereference ∧
    _get_num_caches sysfs_no_cpu_dir = 0 ∧
    procmap_init sysfs_no_cpu_dir = Except.error init_failure.exit_failure ∧
    ¬ (∀ fs : sysfs, _get_num_caches fs = 0 → ∃ pi, procmap_init fs = Except.ok pi) := by
  refine ⟨rfl, rfl, rfl, rfl, ?_⟩
  intro h
  obtain ⟨pi, hpi⟩ := h sysfs_no_label rfl
  have hcrash : procmap_init sysfs_no_label = Except.error init_failure.null_dereference := rfl
  rw [hcrash] at hpi
  cases hpi

/-- C16 (amended): when the cache directory cannot be opened or lists no cache
(`_get_num_caches` returns 0), the cpu directory can be opened and every
`meminfo` file read holds `MemTotal:`, `procmap_init` returns a map with
`num_caches_per_thread = 0` in which every thread record has `num_caches = 0`
and no cache descriptor, and the flat view of `procmap_report` prints one line
for every cpu, none of them with a cache entry. -/
theorem C16_no_caches_without_cache_dir (fs : sysfs) (hcpu : fs.cpu_dir = true)
    (hmem : ∀ i data, i < _get_num_memnodes fs → fs.node i node_file.meminfo = some data →
      (read_meminfo data).isSome = true)
    (hcache : _get_num_caches fs = 0) :
    ∃ pi, procmap_init fs = Except.ok pi ∧ pi.num_cpus = _get_num_cpus fs ∧
      pi.flat_threads.length = pi.num_cpus ∧
      pi.num_caches_per_thread = 0 ∧
      (∀ t ∈ pi.flat_threads, t.num_caches = 0 ∧ t.cache = []) ∧
      ∃ lines, report_flat_view pi = Except.ok lines ∧ lines.length = pi.num_cpus ∧
        ∀ ln ∈ lines, ln.caches = [] := by
  obtain ⟨ms, hms⟩ := read_memnodes_some fs (_get_num_memnodes fs) 0
    (fun i _ h2 data hd => hmem i data (by omega) hd)
  have hlen : (annotate_threads (read_flat_threads fs (_get_num_cpus fs) 0)).length =
      _get_num_cpus fs := by
    rw [annotate_threads_length, read_flat_threads_length]
  have hthreads : ∀ i, i < _get_num_cpus fs →
      ((annotate_threads (read_flat_threads fs (_get_num_cpus fs) 0)).getD i default).num_caches
          = 0 ∧
      ((annotate_threads (read_flat_threads fs (_get_num_cpus fs) 0)).getD i default).cache
          = [] := by
    intro i hi
    have hi2 : i < (read_flat_threads fs (_get_num_cpus fs) 0).length := by
      rw [read_flat_threads_length]; exact hi
    have h := annotate_threads_getD (read_flat_threads fs (_get_num_cpus fs) 0) i hi2
    rw [read_flat_threads_getD _ _ _ _ hi] at h
    rw [h]
    exact ⟨rfl, rfl⟩
  unfold procmap_init
  rw [if_neg (by simp [hcpu])]
  simp only [hms, hcache]
  refine ⟨_, rfl, rfl, hlen, rfl, ?_, ?_⟩
  · intro t ht
    obtain ⟨i, hi, rfl⟩ := List.getElem_of_mem ht
    rw [← List.getD_eq_getElem _ default hi]
    exact hthreads i (hlen ▸ hi)
  · refine ⟨_, report_flat_view_no_caches _ (fun i hi => (hthreads i hi).1), ?_, ?_⟩
    · simp
    · intro ln hln
      obtain ⟨i, _, rfl⟩ := List.mem_map.mp hln
      rfl

/-- C16 witness: the two-cpu machine, which has no cache directory. -/
theorem C16_no_caches_without_cache_dir_witness :
    sysfs_two_cpus.cache_dir = false ∧
    ∃ pi, procmap_init sysfs_two_cpus = Except.ok pi ∧ pi.num_cpus = _get_num_cpus sysfs_two_cpus ∧
      pi.flat_threads.length = pi.num_cpus ∧
      pi.num_caches_per_thread = 0 ∧
      (∀ t ∈ pi.flat_threads, t.num_caches = 0 ∧ t.cache = []) ∧
      ∃ lines, report_flat_view pi = Except.ok lines ∧ lines.length = pi.num_cpus ∧
        ∀ ln ∈ lines, ln.caches = [] :=
  ⟨rfl, C16_no_caches_without_cache_dir sysfs_two_cpus rfl
    (fun i data _ hd => by
      have hdata : data = "Node 0 MemTotal:       2048 kB\n".toList := (Option.some.inj hd).symm
      rw [hdata]
      decide)
    rfl⟩

/-- C17 (as stated, refuted): on a string of 2^32 characters `a` the index `i`
of `trim`, an `unsigned int`, wraps to 0 before it reaches the terminator, and
the loop of `trim(s, 'b')` is still running after any number of passes: the
call does not return. -/
theorem C17_counterexample :
    NUL ∈ four_gib_string ∧ ∀ fuel, trim_loop 'b' fuel four_gib_string 0 0 = none :=
  ⟨List.mem_append.mpr (Or.inr (List.mem_singleton.mpr rfl)),
   fun fuel => trim_loop_runs_on 'b' 'a' (by decide) (by decide) fuel four_gib_string 0
     four_gib_string_getD (by decide)⟩

/-- C17 (amended): for every buffer that holds a C string shorter than 2^32
characters and every character `tc`, the loop of `trim` ends within one pass
per character and one more, and afterwards the string is the old string with
every `tc` deleted and the other characters in their order; it holds no `tc`
and its length is the old length minus the number of occurrences of `tc`. -/
theorem C17_trim_deletes_every_occurrence (src : List Char) (tc : Char) (hnul : NUL ∈ src)
    (hlen : (c_string src).length < 2 ^ 32) :
    (∀ fuel, (c_string src).length < fuel →
      trim_loop tc fuel src 0 0 = some (trim src tc)) ∧
    c_string (trim src tc) = (c_string src).filter (fun c => c != tc) ∧
    tc ∉ c_string (trim src tc) ∧
    (c_string (trim src tc)).length = (c_string src).length - (c_string src).count tc := by
  obtain ⟨T', h1, h2⟩ := trim_spec src tc hnul hlen
  have hne : ∀ c ∈ (c_string src).filter (fun c => c != tc), c ≠ NUL :=
    fun c hc => c_string_ne_nul src c (List.mem_filter.mp hc).1
  have hcs : c_string (trim src tc) = (c_string src).filter (fun c => c != tc) := by
    rw [h2, c_string_append_nul _ _ hne]
  refine ⟨fun fuel hf => by rw [h1 fuel hf, h2], hcs, ?_, ?_⟩
  · rw [hcs]
    intro h
    have := (List.mem_filter.mp h).2
    simp at this
  · rw [hcs]
    have h3 := List.length_eq_countP_add_countP (fun c => c != tc) (c_string src)
    have h4 : List.countP (fun a => decide ¬(a != tc) = true) (c_string src) =
        (c_string src).count tc := by
      unfold List.count
      congr 1
      funext a
      simp [BEq.beq]
    rw [h4, List.countP_eq_length_filter] at h3
    omega

/-- C17 witness: `trim` of `"00,0c\n"` by `,` leaves `"000c\n"`. -/
theorem C17_trim_deletes_every_occurrence_witness :
    c_string (trim ("00,0c\n".toList ++ [NUL]) ',') = "000c\n".toList ∧
    ((∀ fuel, (c_string ("00,0c\n".toList ++ [NUL])).length < fuel →
      trim_loop ',' fuel ("00,0c\n".toList ++ [NUL]) 0 0 =
        some (trim ("00,0c\n".toList ++ [NUL]) ',')) ∧
    c_string (trim ("00,0c\n".toList ++ [NUL]) ',') =
      (c_string ("00,0c\n".toList ++ [NUL])).filter (fun c => c != ',') ∧
    ',' ∉ c_string (trim ("00,0c\n".toList ++ [NUL]) ',') ∧
    (c_string (trim ("00,0c\n".toList ++ [NUL]) ',')).length =
      (c_string ("00,0c\n".toList ++ [NUL])).length -
        (c_string ("00,0c\n".toList ++ [NUL])).count ',') :=
  ⟨by decide,
   C17_trim_deletes_every_occurrence ("00,0c\n".toList ++ [NUL]) ',' (by decide) (by decide)⟩

/-- C18: for a bit array `base` and a bit index `b` inside it,
`bit_test_and_set(base, b)` returns the value, 0 or 1, that `bit_test(base, b)`
gave before the call, afterwards `bit_test(base, b)` is 1, and
`bit_test(base, c)` is what it was for every other index `c`. -/
theorem C18_bit_test_and_set (base : List Nat) (b : Nat) (hb : b >>> 3 < base.length) :
    (bit_test_and_set base b).2 = bit_test base b ∧
    (bit_test base b = 0 ∨ bit_test base b = 1) ∧
    bit_test (bit_test_and_set base b).1 b = 1 ∧
    ∀ c, c ≠ b → bit_test (bit_test_and_set base b).1 c = bit_test base c := by
  rw [(bit_index_split b).1] at hb
  simp only [bit_test_and_set_eq, bit_test_eq]
  refine ⟨trivial, ?_, ?_, ?_⟩
  · split
    · exact Or.inr rfl
    · exact Or.inl rfl
  · rw [getD_set_same _ _ _ hb, Nat.testBit_or, Nat.testBit_two_pow_self]
    simp
  · intro c hc
    by_cases hbyte : b / 8 = c / 8
    · rw [← hbyte, getD_set_same _ _ _ hb, Nat.testBit_or, Nat.testBit_two_pow]
      have hne : ¬ (b % 8 = c % 8) := by omega
      simp [hne]
    · rw [getD_set_ne _ _ _ _ hbyte]

/-- C18 witness: the call of `test_bitops.c`, bit 2 of a cleared array of
three bytes. -/
theorem C18_bit_test_and_set_witness :
    bit_test_and_set [0, 0, 0] 2 = ([4, 0, 0], 0) ∧
    ((bit_test_and_set [0, 0, 0] 2).2 = bit_test [0, 0, 0] 2 ∧
    (bit_test [0, 0, 0] 2 = 0 ∨ bit_test [0, 0, 0] 2 = 1) ∧
    bit_test (bit_test_and_set [0, 0, 0] 2).1 2 = 1 ∧
    ∀ c, c ≠ 2 → bit_test (bit_test_and_set [0, 0, 0] 2).1 c = bit_test [0, 0, 0] c) :=
  ⟨by decide, C18_bit_test_and_set [0, 0, 0] 2 (by decide)⟩

/-- C19: for a bit array `base` and a bit index `b` inside it, two calls
`bit_test_and_change(base, b)` in a row leave the array as it was; the first
returns the value of bit `b` and the second its complement. -/
theorem C19_bit_test_and_change_twice (base : List Nat) (b : Nat)
    (hb : b >>> 3 < base.length) :
    (bit_test_and_change (bit_test_and_change base b).1 b).1 = base ∧
    (bit_test_and_change base b).2 = bit_test base b ∧
    (bit_test_and_change (bit_test_and_change base b).1 b).2 = 1 - bit_test base b := by
  rw [(bit_index_split b).1] at hb
  simp only [bit_test_and_change_eq, bit_test_eq]
  rw [getD_set_same _ _ _ hb, List.set_set, Nat.xor_assoc, Nat.xor_self, Nat.xor_zero,
    set_getD_self, Nat.testBit_xor, Nat.testBit_two_pow_self]
  refine ⟨rfl, trivial, ?_⟩
  cases (base.getD (b / 8) 0).testBit (b % 8) <;> simp

/-- C19 witness: the two calls of `test_bitops.c` on bit 5, after bit 2 was
set. -/
theorem C19_bit_test_and_change_twice_witness :
    bit_test_and_change [4, 0, 0] 5 = ([36, 0, 0], 0) ∧
    bit_test_and_change [36, 0, 0] 5 = ([4, 0, 0], 1) ∧
    ((bit_test_and_change (bit_test_and_change [4, 0, 0] 5).1 5).1 = [4, 0, 0] ∧
    (bit_test_and_change [4, 0, 0] 5).2 = bit_test [4, 0, 0] 5 ∧
    (bit_test_and_change (bit_test_and_change [4, 0, 0] 5).1 5).2 =
      1 - bit_test [4, 0, 0] 5) :=
  ⟨by decide, by decide, C19_bit_test_and_change_twice [4, 0, 0] 5 (by decide)⟩

/-- C20: for an alignment `a = 2^k` that fits a `size_t`, when the inner
`malloc` returns a block at an address `p` other than NULL and `p + a - 1` does
not overflow, `malloc_aligned` returns an address `r` that is a multiple of
`a` with `p <= r <= p + a - 1`; when the request `size + a - 1` does not
overflow either, the `size` bytes from `r` on end inside the block of that
many bytes at `p`. -/
theorem C20_malloc_aligned_result (malloc : Nat → Nat) (size a k : Nat) (ha : a = 2 ^ k)
    (hk : k < 64)
    (hp : malloc ((size + a + (2 ^ 64 - 1)) % 2 ^ 64) ≠ 0)
    (hov : malloc ((size + a + (2 ^ 64 - 1)) % 2 ^ 64) + a - 1 < 2 ^ 64) :
    ∃ r, malloc_aligned malloc size a = some r ∧ a ∣ r ∧
      malloc ((size + a + (2 ^ 64 - 1)) % 2 ^ 64) ≤ r ∧
      r ≤ malloc ((size + a + (2 ^ 64 - 1)) % 2 ^ 64) + a - 1 ∧
      (size + a - 1 < 2 ^ 64 →
        (size + a + (2 ^ 64 - 1)) % 2 ^ 64 = size + a - 1 ∧
        r + size ≤ malloc ((size + a + (2 ^ 64 - 1)) % 2 ^ 64) +
          (size + a + (2 ^ 64 - 1)) % 2 ^ 64) := by
  subst ha
  have hkpos : 0 < 2 ^ k := Nat.two_pow_pos k
  refine ⟨_, malloc_aligned_eq malloc size k hk hp hov, Dvd.intro _ rfl, ?_⟩
  generalize malloc ((size + 2 ^ k + (2 ^ 64 - 1)) % 2 ^ 64) = p at hov ⊢
  have hdiv := Nat.div_add_mod (p + 2 ^ k - 1) (2 ^ k)
  have hmod := Nat.mod_lt (p + 2 ^ k - 1) hkpos
  generalize (p + 2 ^ k - 1) / 2 ^ k = q at hdiv ⊢
  generalize (p + 2 ^ k - 1) % 2 ^ k = m at hdiv hmod
  generalize 2 ^ k * q = r at hdiv ⊢
  refine ⟨by omega, by omega, ?_⟩
  intro hsize
  have hreq : (size + 2 ^ k + (2 ^ 64 - 1)) % 2 ^ 64 = size + 2 ^ k - 1 := by
    have : size + 2 ^ k + (2 ^ 64 - 1) = (size + 2 ^ k - 1) + 2 ^ 64 := by omega
    rw [this, Nat.add_mod_right, Nat.mod_eq_of_lt hsize]
  rw [hreq]
  exact ⟨rfl, by omega⟩

/-- C20 witness: 100 bytes at an alignment of 64, the inner `malloc` returning
the address 4104 for every request. -/
theorem C20_malloc_aligned_result_witness :
    malloc_aligned (fun _ => 4104) 100 64 = some 4160 ∧
    ∃ r, malloc_aligned (fun _ => 4104) 100 64 = some r ∧ 64 ∣ r ∧
      4104 ≤ r ∧ r ≤ 4104 + 64 - 1 ∧
      (100 + 64 - 1 < 2 ^ 64 →
        (100 + 64 + (2 ^ 64 - 1)) % 2 ^ 64 = 100 + 64 - 1 ∧
        r + 100 ≤ 4104 + (100 + 64 + (2 ^ 64 - 1)) % 2 ^ 64) :=
  ⟨by decide, C20_malloc_aligned_result (fun _ => 4104) 100 64 6 (by decide) (by decide)
    (by decide) (by decide)⟩

/-- C21: on a file that holds the two bytes `ab` and no newline, `readline` with
`maxlen = 10` stores 2 bytes and returns 3; on `abcdef` and a newline with
`maxlen = 4` it stores 3 bytes and returns 4; on `ab` and a newline it stores 3
bytes and returns 3, and on an empty file it returns 0. -/
theorem C21_readline_counts_one_more :
    (readline { pending := [], file := "ab".toList } 10).ret = 3 ∧
    (readline { pending := [], file := "ab".toList } 10).stored.length = 2 ∧
    (readline { pending := [], file := "abcdef\n".toList } 4).ret = 4 ∧
    (readline { pending := [], file := "abcdef\n".toList } 4).stored.length = 3 ∧
    (readline { pending := [], file := "ab\n".toList } 10).ret = 3 ∧
    (readline { pending := [], file := "ab\n".toList } 10).stored.length = 3 ∧
    (readline { pending := [], file := [] } 10).ret = 0 := by
  decide

/-- C22: from the initial state 1, call number 2^32 - 1 of `galois_lfsr`
returns 1 and no earlier call does; every value `v` with `0 < v < 2^32` is
returned by exactly one of the calls `1 .. 2^32 - 1`; and no call returns 0 or
a value outside 32 bits. -/
theorem C22_lfsr_maximal_period :
    lfsr_sequence (2 ^ 32 - 1) = 1 ∧
    (∀ k, 0 < k → k < 2 ^ 32 - 1 → lfsr_sequence k ≠ 1) ∧
    (∀ v, 0 < v → v < 2 ^ 32 →
      ∃ k, (0 < k ∧ k ≤ 2 ^ 32 - 1 ∧ lfsr_sequence k = v) ∧
        ∀ k2, 0 < k2 → k2 ≤ 2 ^ 32 - 1 → lfsr_sequence k2 = v → k2 = k) ∧
    (∀ k, lfsr_sequence k ≠ 0 ∧ lfsr_sequence k < 2 ^ 32) := by
  have hN := lfsr_sequence_values.1
  refine ⟨hN, ?_, ?_, fun k => ⟨lfsr_sequence_ne_zero k, lfsr_sequence_lt k⟩⟩
  · intro k hk0 hk hone
    have hlt : k < Function.minimalPeriod galois_lfsr 1 := by rw [lfsr_minimalPeriod]; exact hk
    exact Function.not_isPeriodicPt_of_pos_of_lt_minimalPeriod (Nat.pos_iff_ne_zero.mp hk0) hlt hone
  · intro v h0 hv
    obtain ⟨k, hk, hkv⟩ := lfsr_sequence_surj v h0 hv
    have huniq : ∀ a b, 0 < a → a ≤ 2 ^ 32 - 1 → 0 < b → b ≤ 2 ^ 32 - 1 →
        lfsr_sequence a = lfsr_sequence b → a = b := by
      intro a b ha0 ha hb0 hb hab
      have hpos : 0 < 2 ^ 32 - 1 := by decide
      have hmod := lfsr_sequence_injOn (Nat.mod_lt a hpos) (Nat.mod_lt b hpos)
        (by rw [lfsr_sequence_mod, lfsr_sequence_mod, hab])
      rcases Nat.lt_or_eq_of_le ha with ha1 | ha1 <;> rcases Nat.lt_or_eq_of_le hb with hb1 | hb1
      · rwa [Nat.mod_eq_of_lt ha1, Nat.mod_eq_of_lt hb1] at hmod
      · rw [Nat.mod_eq_of_lt ha1, hb1, Nat.mod_self] at hmod
        omega
      · rw [Nat.mod_eq_of_lt hb1, ha1, Nat.mod_self] at hmod
        omega
      · rw [ha1, hb1]
    by_cases hk0 : k = 0
    · have hv1 : v = 1 := by rw [← hkv, hk0]; rfl
      refine ⟨2 ^ 32 - 1, ⟨by decide, le_refl _, by rw [hN, hv1]⟩, ?_⟩
      intro k2 hk20 hk2 hk2v
      exact huniq k2 (2 ^ 32 - 1) hk20 hk2 (by decide) (le_refl _) (by rw [hk2v, hN, hv1])
    · refine ⟨k, ⟨Nat.pos_of_ne_zero hk0, Nat.le_of_lt hk, hkv⟩, ?_⟩
      intro k2 hk20 hk2 hk2v
      exact huniq k2 k hk20 hk2 (Nat.pos_of_ne_zero hk0) (Nat.le_of_lt hk) (by rw [hk2v, hkv])

/-- C22 witness: the first call returns 0xd0000001, which is not 1, and this
value is returned by exactly one call among the first 2^32 - 1. -/
theorem C22_lfsr_maximal_period_witness :
    galois_lfsr 1 = 0xd0000001 ∧ lfsr_sequence 1 ≠ 1 ∧
    ∃ k, (0 < k ∧ k ≤ 2 ^ 32 - 1 ∧ lfsr_sequence k = 0xd0000001) ∧
      ∀ k2, 0 < k2 → k2 ≤ 2 ^ 32 - 1 → lfsr_sequence k2 = 0xd0000001 → k2 = k :=
  ⟨by decide, C22_lfsr_maximal_period.2.1 1 (by decide) (by decide),
    C22_lfsr_maximal_period.2.2.1 0xd0000001 (by decide) (by decide)⟩

/-- C23: `num_packages` is the number of distinct symbolic package ids among the
threads in front of the first thread whose symbolic package id is -1, and among
all threads when no id is -1. -/
theorem C23_num_packages_counts_up_to_sentinel (ft : List threadinfo_t) :
    num_packages ft =
      ((ft.takeWhile (fun t => t.sym_pack_id != -1)).map (fun t => t.sym_pack_id)).toFinset.card ∧
    ((∀ t ∈ ft, t.sym_pack_id ≠ -1) →
      num_packages ft = (ft.map (fun t => t.sym_pack_id)).toFinset.card) := by
  refine ⟨?_, num_packages_of_no_sentinel ft⟩
  rw [num_packages_eq, sym_ids_found_length_card, map_takeWhile_sym]

/-- C23 witness: ids 5, -1, 7, 9 give one package, and the eight cpus with the
ids 5 and 9 give two. -/
theorem C23_num_packages_counts_up_to_sentinel_witness :
    num_packages threads_with_sentinel = 1 ∧
    num_packages threads_2x2x2 = 2 ∧
    num_packages threads_2x2x2 = (threads_2x2x2.map (fun t => t.sym_pack_id)).toFinset.card :=
  ⟨by decide, by decide,
    (C23_num_packages_counts_up_to_sentinel threads_2x2x2).2 (by decide)⟩

/-- C24: two threads of the flat array that report the same symbolic core id
receive the same compact core id, whatever their package ids are. -/
theorem C24_core_id_ignores_package (ft : List threadinfo_t) (a b : Nat)
    (ha : a < ft.length) (hb : b < ft.length)
    (h : (ft.getD a default).sym_core_id = (ft.getD b default).sym_core_id) :
    ((annotate_threads ft).getD a default).core_id =
      ((annotate_threads ft).getD b default).core_id := by
  rw [annotate_threads_getD ft a ha, annotate_threads_getD ft b hb]
  simp only
  rw [h]

/-- C24 witness: cpus 0 and 4 of the 2x2x2 machine are in the packages 5 and 9
and both report core 0; both get the compact core id 0. -/
theorem C24_core_id_ignores_package_witness :
    (threads_2x2x2.getD 0 default).sym_pack_id ≠ (threads_2x2x2.getD 4 default).sym_pack_id ∧
    ((annotate_threads threads_2x2x2).getD 0 default).core_id = 0 ∧
    ((annotate_threads threads_2x2x2).getD 0 default).core_id =
      ((annotate_threads threads_2x2x2).getD 4 default).core_id :=
  ⟨by decide, by decide,
    C24_core_id_ignores_package threads_2x2x2 0 4 (by decide) (by decide) (by decide)⟩

/-- C25: when no symbolic core id of the flat array is -1,
`num_cores_per_package` is the number of distinct symbolic core ids of all
threads, whatever package they are in. -/
theorem C25_cores_counted_across_packages (ft : List threadinfo_t)
    (h : ∀ t ∈ ft, t.sym_core_id ≠ -1) :
    num_cores_per_package ft = (ft.map (fun t => t.sym_core_id)).toFinset.card :=
  num_cores_of_no_sentinel ft h

/-- C25 witness: two packages with the core ids 0, 1 and 2, 3 give 4. -/
theorem C25_cores_counted_across_packages_witness :
    num_packages threads_disjoint_cores = 2 ∧
    num_cores_per_package threads_disjoint_cores = 4 ∧
    num_cores_per_package threads_disjoint_cores =
      (threads_disjoint_cores.map (fun t => t.sym_core_id)).toFinset.card :=
  ⟨by decide, by decide, C25_cores_counted_across_packages threads_disjoint_cores (by decide)⟩

/-- C26 (as stated, refuted): a bitmap file of 1024 digits `0`, the digit `1`
and a newline denotes the number 1, but `read` hands over its first 1024 bytes
only and `core_siblings` is stored as 0.  The terminator of those 1024 bytes
lands on `cpu_path[0]`, so the file `thread_siblings` that is opened next is
not found: with the same long text it is stored as -1, and so it is when it
holds the text `00000000,0000000c`, which denotes 12. -/
theorem C26_counterexample :
    (∀ g ∈ long_mask_groups, ∀ c ∈ g, (hex_digit_value c).isSome = true) ∧
    hex_number long_mask_groups.flatten = 1 ∧
    (read_thread sysfs_long_mask 0 0).core_siblings = 0 ∧
    (read_thread sysfs_long_mask 0 0).thread_siblings = -1 ∧
    sysfs_long_core_mask.topology 0 topology_file.thread_siblings =
      some (bitmap_text ["00000000".toList, "0000000c".toList]) ∧
    hex_number (["00000000".toList, "0000000c".toList] : List (List Char)).flatten = 12 ∧
    (read_thread sysfs_long_core_mask 0 0).thread_siblings = -1 := by
  have hs : ∀ text : List Char, text.length < 1024 → fills_buf (some text) = false :=
    fun text hl => fills_buf_of_short _ (fun data hd => by
      rw [← Option.some.inj hd]
      exact hl)
  refine ⟨?_, ?_, ?_, ?_, by decide, by decide, ?_⟩
  · intro g hg c hc
    rw [long_mask_groups, List.mem_singleton] at hg
    rw [hg, List.mem_append, List.mem_replicate, List.mem_singleton] at hc
    rcases hc with ⟨_, h⟩ | h <;> rw [h] <;> decide
  · rw [long_mask_groups, List.flatten_singleton, hex_number_append, hex_number_zeros]
    decide
  · rw [read_thread_core_siblings sysfs_long_mask 0 0 (hs _ (by decide)) (hs _ (by decide))]
    exact read_int_long_mask
  · exact read_thread_thread_siblings_lost sysfs_long_mask 0 0 (hs _ (by decide))
      (hs _ (by decide)) fills_buf_long_mask
  · exact read_thread_thread_siblings_lost sysfs_long_core_mask 0 0 (hs _ (by decide))
      (hs _ (by decide)) fills_buf_long_mask

/-- C26 (amended): for a bitmap file shorter than 1024 bytes that is made of
groups of hexadecimal digits with commas between them and a newline at the
end, and whose digits denote a number below 2^31, the `core_siblings` and
`thread_siblings` masks that `procmap_init` reads from it are the number that
the digits of all groups denote when written one after the other, provided the
files of the same cpu that are read in front of it (`core_id` and
`physical_package_id`, and `core_siblings` in front of `thread_siblings`) are
each unreadable or shorter than 1024 bytes. -/
theorem C26_sibling_mask_value (fs : sysfs) (nc i : Nat) (groups : List (List Char))
    (hhex : ∀ g ∈ groups, ∀ c ∈ g, (hex_digit_value c).isSome = true)
    (hlen : (bitmap_text groups).length < 1024)
    (hfit : hex_number groups.flatten < 2 ^ 31)
    (hid : ∀ data, fs.topology i topology_file.core_id = some data → data.length < 1024)
    (hpk : ∀ data, fs.topology i topology_file.physical_package_id = some data →
      data.length < 1024) :
    (fs.topology i topology_file.core_siblings = some (bitmap_text groups) →
      (read_thread fs nc i).core_siblings = (hex_number groups.flatten : Int)) ∧
    (fs.topology i topology_file.thread_siblings = some (bitmap_text groups) →
      (∀ data, fs.topology i topology_file.core_siblings = some data → data.length < 1024) →
      (read_thread fs nc i).thread_siblings = (hex_number groups.flatten : Int)) := by
  constructor
  · intro hf
    rw [read_thread_core_siblings fs nc i (fills_buf_of_short _ hid) (fills_buf_of_short _ hpk),
      hf]
    exact read_int_bitmap groups hhex hlen hfit
  · intro hf hcs
    rw [read_thread_thread_siblings fs nc i (fills_buf_of_short _ hid)
      (fills_buf_of_short _ hpk) (fills_buf_of_short _ hcs), hf]
    exact read_int_bitmap groups hhex hlen hfit

/-- C26 witness: the file `00000000,0000000c` is stored as 12. -/
theorem C26_sibling_mask_value_witness :
    bitmap_text ["00000000".toList, "0000000c".toList] = "00000000,0000000c\n".toList ∧
    hex_number (["00000000".toList, "0000000c".toList] : List (List Char)).flatten = 12 ∧
    (read_thread
        { sysfs_two_cpus with topology := fun _ _ => some "00000000,0000000c\n".toList }
        0 0).thread_siblings =
      (hex_number (["00000000".toList, "0000000c".toList] : List (List Char)).flatten : Int) :=
  ⟨by decide, by decide,
    (C26_sibling_mask_value
      { sysfs_two_cpus with topology := fun _ _ => some "00000000,0000000c\n".toList } 0 0
      ["00000000".toList, "0000000c".toList] (by decide) (by decide) (by decide)
      (fun data hd => by rw [← Option.some.inj hd]; decide)
      (fun data hd => by rw [← Option.some.inj hd]; decide)).2 (by decide)
      (fun data hd => by rw [← Option.some.inj hd]; decide)⟩

/-- C27 (as stated, refuted): in a `meminfo` text with 1010 blanks in front of
`MemTotal: 123456 kB` the label is followed by a blank and the number 123456,
but `read` hands over the first 1024 bytes only, which end with the digits
`1234`, and the size that is computed is 1234 * 1024. -/
theorem C27_counterexample :
    long_meminfo =
      List.replicate 1010 ' ' ++ "MemTotal:".toList ++ [' '] ++ "123456".toList ++
        " kB\n".toList ∧
    dec_number "123456".toList * 1024 = 126418944 ∧
    read_meminfo long_meminfo = some 1263616 := by
  refine ⟨?_, by decide, read_meminfo_cut 1010 rfl⟩
  unfold long_meminfo
  simp only [List.append_assoc]
  rfl

/-- C27 (amended): for a `meminfo` text in which the first occurrence of the
label `MemTotal:` is followed by blanks (none, or spaces and tabs) and a
decimal number `n` that ends in front of byte 1024 of the text, with
`n * 1024 < 2^64`, the size that `procmap_init` stores for the node is
`n * 1024`. -/
theorem C27_memnode_size (fs : sysfs) (i : Nat) (pre blanks digits rest : List Char)
    (hfile : fs.node i node_file.meminfo =
      some (pre ++ "MemTotal:".toList ++ blanks ++ digits ++ rest))
    (hpre : ∀ c ∈ pre, c ≠ NUL)
    (hfirst : ∀ k, k < pre.length →
      ((pre ++ "MemTotal:".toList).drop k).take 9 ≠ "MemTotal:".toList)
    (hblanks : ∀ c ∈ blanks, c = ' ' ∨ c = '\t')
    (hne : digits ≠ []) (hdigits : ∀ c ∈ digits, c.isDigit = true)
    (hrest : ∀ c ∈ rest.take 1, c.isDigit = false)
    (hlen : (pre ++ "MemTotal:".toList ++ blanks ++ digits).length < 1024)
    (hfit : dec_number digits * 1024 < 2 ^ 64) :
    read_meminfo (pre ++ "MemTotal:".toList ++ blanks ++ digits ++ rest) =
      some (dec_number digits * 1024) ∧
    ∃ m, read_memnode fs i = some m ∧ m.size = dec_number digits * 1024 := by
  have h := read_meminfo_value pre blanks digits rest hpre hfirst hblanks hne hdigits
    (fun c hc => hrest c (by
      cases rest with
      | nil => cases hc
      | cons r rs =>
        have : c = r := by simpa using hc.symm
        rw [this]
        simp))
    (by omega) hfit
  refine ⟨h, ?_⟩
  unfold read_memnode
  simp only [hfile, h]
  exact ⟨_, rfl, rfl⟩

/-- C27 witness: node 0 of the two-cpu machine, whose `meminfo` holds
`Node 0 MemTotal:       2048 kB`, has the size 2048 * 1024. -/
theorem C27_memnode_size_witness :
    dec_number "2048".toList = 2048 ∧
    (read_meminfo ("Node 0 ".toList ++ "MemTotal:".toList ++ "       ".toList ++ "2048".toList ++
        " kB\n".toList) = some (dec_number "2048".toList * 1024) ∧
      ∃ m, read_memnode sysfs_two_cpus 0 = some m ∧ m.size = dec_number "2048".toList * 1024) :=
  ⟨by decide,
    C27_memnode_size sysfs_two_cpus 0 "Node 0 ".toList "       ".toList "2048".toList
      " kB\n".toList (by decide) (by decide) (by decide) (by decide) (by decide) (by decide)
      (by decide) (by decide) (by decide)⟩

/-- C28: for a flat array of at most 31 cpus, `num_threads_per_core` is the
number of set bits at the positions `0 .. num_cpus - 1` of the
`thread_siblings` mask of cpu 0; an array of the same length with the same mask
at cpu 0 gives the same number; and when that mask is -1 the number is
`num_cpus`. -/
theorem C28_threads_per_core_from_cpu0 (ft : List threadinfo_t) (hn : ft.length ≤ 31) :
    num_threads_per_core ft =
      ((Finset.range ft.length).filter
        (fun i => (ft.getD 0 default).thread_siblings.testBit i = true)).card ∧
    (∀ ft2 : List threadinfo_t, ft2.length = ft.length →
      (ft2.getD 0 default).thread_siblings = (ft.getD 0 default).thread_siblings →
      num_threads_per_core ft2 = num_threads_per_core ft) ∧
    ((ft.getD 0 default).thread_siblings = -1 → num_threads_per_core ft = ft.length) := by
  have h1 := num_threads_per_core_eq_card ft (by omega)
  refine ⟨h1, ?_, ?_⟩
  · intro ft2 hlen hmask
    rw [h1, num_threads_per_core_eq_card ft2 (by omega), hlen, hmask]
  · intro hm
    rw [h1, hm, Finset.filter_true_of_mem, Finset.card_range]
    intro i _
    have := int_bit_neg_one i
    rwa [int_bit_eq_testBit] at this

/-- C28 witness: four cpus, the mask of cpu 0 is 0b0011 and the masks of the
others differ: two threads per core; with the mask -1 at cpu 0, four. -/
theorem C28_threads_per_core_from_cpu0_witness :
    num_threads_per_core [raw_thread 0 0 0 3, raw_thread 1 0 0 15, raw_thread 2 0 1 0,
      raw_thread 3 0 1 (-1)] = 2 ∧
    num_threads_per_core [raw_thread 0 0 0 (-1), raw_thread 1 0 0 3, raw_thread 2 0 1 12,
      raw_thread 3 0 1 12] = 4 ∧
    ((([raw_thread 0 0 0 (-1), raw_thread 1 0 0 3, raw_thread 2 0 1 12,
      raw_thread 3 0 1 12] : List threadinfo_t).getD 0 default).thread_siblings = -1 →
      num_threads_per_core [raw_thread 0 0 0 (-1), raw_thread 1 0 0 3, raw_thread 2 0 1 12,
        raw_thread 3 0 1 12] =
      ([raw_thread 0 0 0 (-1), raw_thread 1 0 0 3, raw_thread 2 0 1 12,
        raw_thread 3 0 1 12] : List threadinfo_t).length) :=
  ⟨by decide, by decide,
    (C28_threads_per_core_from_cpu0 [raw_thread 0 0 0 (-1), raw_thread 1 0 0 3,
      raw_thread 2 0 1 12, raw_thread 3 0 1 12] (by decide)).2.2⟩

/-- C29: when thread `s` is the first whose symbolic package id is -1, a later
thread `l` whose symbolic package id is reported by no thread in front of `s`
gets `pack_id = -1`, also when its own id was read and is not -1, and no slot
of the package/core/thread tree holds the address of its record. -/
theorem C29_id_after_sentinel_not_placed (ft : List threadinfo_t) (s l : Nat)
    (hl : l < ft.length) (hsl : s < l)
    (hsent : (ft.getD s default).sym_pack_id = -1)
    (hfirst : ∀ i, i < s → (ft.getD i default).sym_pack_id ≠ -1)
    (hnew : ∀ i, i < s → (ft.getD i default).sym_pack_id ≠ (ft.getD l default).sym_pack_id) :
    ((annotate_threads ft).getD l default).pack_id = -1 ∧
    ∀ i j k, thread_slot (build_packages ft) i j k ≠ some l := by
  have hs : s < ft.length := by omega
  have htake : (ft.map fun t => t.sym_pack_id).takeWhile (fun x => x != -1) =
      (ft.map fun t => t.sym_pack_id).take s := by
    apply takeWhile_eq_take_of_first _ s (by simpa using hs)
    · rw [getD_map_sym ft _ s hs]; exact hsent
    · intro i hi
      rw [getD_map_sym ft _ i (by omega)]
      exact hfirst i hi
  have hpid : ((annotate_threads ft).getD l default).pack_id = -1 := by
    rw [annotate_threads_getD ft l hl]
    simp only
    rw [compact_id_eq_neg_one_iff, mem_sym_ids_found, htake, List.mem_take_iff_getElem]
    rintro ⟨i, hi, heq⟩
    have hi2 : i < s ∧ i < ft.length := by simpa using hi
    rw [List.getElem_map, ← List.getD_eq_getElem _ default hi2.2] at heq
    exact hnew i hi2.1 heq
  refine ⟨hpid, ?_⟩
  intro i j k hslot
  have h := (thread_slot_some ft i j k l hslot).2.2.2.2.1
  rw [hpid] at h
  have : (0 : Int) ≤ (i : Int) := Int.natCast_nonneg i
  omega

/-- C29 witness: symbolic package ids 5, -1, 7, 9; cpu 2 read the id 7 and has
`pack_id = -1`. -/
theorem C29_id_after_sentinel_not_placed_witness :
    (threads_with_sentinel.getD 2 default).sym_pack_id = 7 ∧
    ((annotate_threads threads_with_sentinel).getD 2 default).pack_id = -1 ∧
    ∀ i j k, thread_slot (build_packages threads_with_sentinel) i j k ≠ some 2 :=
  ⟨by decide,
    C29_id_after_sentinel_not_placed threads_with_sentinel 1 2 (by decide) (by decide)
      (by decide) (by decide) (by decide)⟩

/-- C30: for the cpu set that holds cpu 31 alone, `get_mask_from_cpuset`
returns 0xffffffff80000000, in which bit 32 is set although cpu 32 is not in
the set; for the set that holds cpu 32 alone it returns 1, in which bit 32 is
clear and bit 0 is set. -/
theorem C30_mask_wrong_from_cpu_31_on :
    get_mask_from_cpuset {31} = 0xffffffff80000000 ∧
    (get_mask_from_cpuset {31}).testBit 32 = true ∧ 32 ∉ ({31} : Finset Nat) ∧
    get_mask_from_cpuset {32} = 1 ∧
    (get_mask_from_cpuset {32}).testBit 32 = false ∧ 32 ∈ ({32} : Finset Nat) := by
  decide

end ProcMap
